import Mathlib

/-!
# PushingAsyncPipelineExecutor, RegexpRowInputFormat and ASTFunction

A shallow embedding of three source files.

`src/Processors/Executors/PushingAsyncPipelineExecutor.cpp`, the push-to-pull bridge:

* `PushingAsyncSource` is the single-slot handoff source.  Its three member
  functions run under one mutex, so each is one atomic step.  A call whose
  condition-variable predicate is false cannot proceed: the step function
  returns `none` for it.
* `PushingAsyncPipelineExecutor` is the bridge.  The worker thread is part of
  the state: `WorkerPc` says where `threadFunction` stands, and a `WorkerEvent`
  is one atomic step of that thread (inside `execute` the engine pulls from the
  source, changes its status, returns or throws).  A `Schedule` gives, for each
  atomic action of a call of the caller, the worker steps that come before it,
  so a statement for every schedule is a statement for every interleaving.
* `Atom` is one atomic action of either thread, and `atoms` a sequence of them in
  any order that can be taken; every call under every schedule is such a sequence,
  so a statement for every sequence also covers the states in the middle of a call.

`src/Processors/Formats/Impl/RegexpRowInputFormat.cpp`, reading rows with a regular
expression:

* `RegexpFieldExtractor.parseRow` works on a `PeekableReadBuffer`, the input as a
  stream of bytes that arrives in pieces; the regular expression engine is a
  parameter (`RE2`).
* `RegexpRowInputFormat.readFieldsFromMatch` returns what the call leaves behind,
  with the indices `readField` was called with; deserialization is a parameter.

`src/Parsers/ASTFunction.cpp`, the node of a function in the syntax tree:

* `IAST` is a node, `ASTFunction` the members of a function node;
  `IAST.toLiteral` and `createLiteral` are the conversion to a literal.
* `ASTFunction.formatImplWithoutAlias` returns a `Formatted`, the text written and
  the state left for every state found; the format of the children is a
  parameter (`FormatEnvironment`).
-/

namespace DB

/-! ## Chunk -/

/-- Modelled from the spec: the declaration of `Chunk` (the spec's RowBatch) is
not among the sources.  It is an opaque unit of tabular data (columns and a
row count) that can be moved, with an empty default state meaning "no data". -/
structure Chunk where
  columns : List (List Int) := []
  num_rows : Nat := 0
deriving DecidableEq, Repr

/-- The default-constructed `Chunk`, as in `Chunk res;`. -/
def Chunk.empty : Chunk := {}

/-- A sample batch of one row. -/
def Chunk.one : Chunk := { columns := [[7]], num_rows := 1 }

/-- A sample batch of two rows. -/
def Chunk.two : Chunk := { columns := [[8, 9]], num_rows := 2 }

/-! ## PushingAsyncSource -/

/-- The data members of `PushingAsyncSource` that the mutex guards. -/
structure PushingAsyncSource where
  data : Chunk := Chunk.empty
  has_data : Bool := false
  is_finished : Bool := false
deriving DecidableEq, Repr

namespace PushingAsyncSource

/-- The predicate `setData` waits for: `!has_data || is_finished`. -/
def setDataReady (s : PushingAsyncSource) : Bool :=
  !s.has_data || s.is_finished

/-- The predicate `generate` waits for: `has_data || is_finished`. -/
def generateReady (s : PushingAsyncSource) : Bool :=
  s.has_data || s.is_finished

/-- The member `bool setData(Chunk chunk)`.  `none`: the caller is still waiting on the
condition variable.  Otherwise the returned flag and the new slot. -/
def setData (s : PushingAsyncSource) (chunk : Chunk) : Option (Bool × PushingAsyncSource) :=
  if s.setDataReady then
    if s.is_finished then
      some (false, s)
    else
      some (true, { s with data := chunk, has_data := true })
  else
    none

/-- The member `void finish()` of the source. -/
def finish (s : PushingAsyncSource) : PushingAsyncSource :=
  { s with is_finished := true }

/-- The member `Chunk generate()`.  `none`: the caller is still waiting on the condition
variable.  Otherwise the returned chunk (`res` after the swap) and the new slot
(`data` holds the default-constructed chunk that `res` was). -/
def generate (s : PushingAsyncSource) : Option (Chunk × PushingAsyncSource) :=
  if s.generateReady then
    some (s.data, { s with data := Chunk.empty, has_data := false })
  else
    none

/-- The slot of a freshly constructed source. -/
def init : PushingAsyncSource := {}

/-- One call on the source, as seen from outside. -/
inductive Call where
  | setData (chunk : Chunk)
  | generate
  | finish
deriving DecidableEq, Repr

/-- The slot after one call, `none` when the call's wait condition is false. -/
def call (s : PushingAsyncSource) : Call → Option PushingAsyncSource
  | .setData chunk => (s.setData chunk).map Prod.snd
  | .generate => s.generate.map Prod.snd
  | .finish => some s.finish

/-- The slot after a sequence of calls, each taken only when it can proceed. -/
def calls (s : PushingAsyncSource) : List Call → Option PushingAsyncSource
  | [] => some s
  | c :: cs => (s.call c).bind fun s1 => calls s1 cs

/-- A slot state that some sequence of calls reaches from the initial one. -/
def Reachable (s : PushingAsyncSource) : Prop :=
  ∃ cs : List Call, init.calls cs = some s

/-- A slot without a pending batch stores the empty chunk. -/
def Clean (s : PushingAsyncSource) : Prop :=
  s.has_data = false → s.data = Chunk.empty

/-- The batch waiting in the slot, as a list of at most one element. -/
def inSlot (s : PushingAsyncSource) : List Chunk :=
  if s.has_data then [s.data] else []

end PushingAsyncSource

/-! ## A producer and a consumer sharing one source -/

/-- A producer that hands `pending` to `setData` batch by batch and then calls
`finish`, and a consumer that calls `generate` again and again, both on
`source`.  `generated` records what `generate` returned, oldest first. -/
structure Handoff where
  source : PushingAsyncSource := {}
  pending : List Chunk := []
  producer_done : Bool := false
  generated : List Chunk := []
deriving DecidableEq, Repr

/-- Whose call runs next. -/
inductive Turn where
  | producer
  | consumer
deriving DecidableEq, Repr

namespace Handoff

/-- The system before the first call, with `bs` to be pushed. -/
def start (bs : List Chunk) : Handoff :=
  { pending := bs }

/-- One call of the chosen thread.  `none`: that thread cannot proceed now (its
wait condition is false, or the producer has already called `finish`). -/
def step (h : Handoff) : Turn → Option Handoff
  | .producer =>
    match h.pending with
    | b :: rest =>
      (h.source.setData b).map fun r => { h with source := r.2, pending := rest }
    | [] =>
      if h.producer_done then none
      else some { h with source := h.source.finish, producer_done := true }
  | .consumer =>
    h.source.generate.map fun r =>
      { h with source := r.2, generated := h.generated ++ [r.1] }

/-- An interleaving: the turns are taken in order, each only when it can
proceed. -/
def run (h : Handoff) : List Turn → Option Handoff
  | [] => some h
  | t :: ts => (h.step t).bind fun h1 => run h1 ts

/-- The number of calls that came to an end so far, the producer's `setData`
calls apart. -/
def progress (h : Handoff) : Nat :=
  h.generated.length + (if h.producer_done then 1 else 0)

/-- What every interleaving keeps true when `bs` is pushed: the batches of `bs`
are those already generated, then the one in the slot, then the pending ones;
empty end-of-input batches were generated only after all of that was
delivered and the producer had finished. -/
structure Inv (bs : List Chunk) (h : Handoff) : Prop where
  split : ∃ (pre : List Chunk) (m : Nat),
    h.generated = pre ++ List.replicate m Chunk.empty ∧
    bs = pre ++ h.source.inSlot ++ h.pending ∧
    (0 < m → h.pending = [] ∧ h.source.has_data = false ∧ h.producer_done = true)
  clean : h.source.Clean
  fin : h.source.is_finished = h.producer_done
  done : h.producer_done = true → h.pending = []

end Handoff

/-! ## Errors and the engine -/

/-- The codes of `namespace ErrorCodes` that the embedded files throw with; `other`
stands for every other code an exception may carry. -/
inductive ErrorCode where
  | LOGICAL_ERROR
  | QUERY_WAS_CANCELLED
  | INCORRECT_DATA
  | BAD_ARGUMENTS
  | UNKNOWN_FUNCTION
  | other (code : Nat)
deriving DecidableEq, Repr

/-- An exception object: what `throw Exception(code, message)` throws and what
`std::exception_ptr` holds. -/
structure Exception where
  code : ErrorCode
  message : String
deriving DecidableEq, Repr

/-- A sample failure of the engine. -/
def Exception.sample : Exception := { code := .other 1, message := "engine failure" }

/-- Modelled from the spec: the declaration of `PipelineExecutor::ExecutionStatus`
is not among the sources.  The spec gives the enum as
`Running, Finished, CancelledByUser, CancelledByTimeout`. -/
inductive ExecutionStatus where
  | Running
  | Finished
  | CancelledByUser
  | CancelledByTimeout
deriving DecidableEq, Repr

/-- Modelled from the spec: `PipelineExecutor` is the engine, an external
collaborator whose code is not among the sources.  The bridge reads its
status and asks it to cancel; `cancel_requests` counts the calls of `cancel()`. -/
structure PipelineExecutor where
  status : ExecutionStatus := .Running
  cancel_requests : Nat := 0
deriving DecidableEq, Repr

/-- The call `executor->getExecutionStatus()`. -/
def PipelineExecutor.getExecutionStatus (ex : PipelineExecutor) : ExecutionStatus :=
  ex.status

/-- The call `executor->cancel()`: a request only, the engine stops at its own safe points. -/
def PipelineExecutor.cancel (ex : PipelineExecutor) : PipelineExecutor :=
  { ex with cancel_requests := ex.cancel_requests + 1 }

/-- The function `[[noreturn]] throwOnExecutionStatus(status)`: the exception it throws. -/
def throwOnExecutionStatus (status : ExecutionStatus) : Exception :=
  if status = ExecutionStatus.CancelledByTimeout
      ∨ status = ExecutionStatus.CancelledByUser then
    { code := .QUERY_WAS_CANCELLED, message := "Query was cancelled" }
  else
    { code := .LOGICAL_ERROR,
      message := "Pipeline for PushingPipelineExecutor was finished before all data was inserted" }

/-! ## The worker thread and `Data` -/

/-- Where the thread running `threadFunction` stands. -/
inductive WorkerPc where
  /-- inside the `try` block, in `data.executor->execute(...)` -/
  | executing
  /-- the `try`/`catch` is left; next is `if (data.source) data.source->finish();` -/
  | finishing
  /-- next is `data.is_finished = true; data.finish_event.set();` -/
  | completing
  /-- after `threadFunction` has returned -/
  | exited
deriving DecidableEq, Repr

/-- A `ThreadFromGlobalPool` handle.  `empty` is the default-constructed or
joined handle (not joinable); `running pc` is a joinable handle whose thread
stands at `pc`. -/
inductive ThreadFromGlobalPool where
  | empty
  | running (pc : WorkerPc)
deriving DecidableEq, Repr

/-- The test `thread.joinable()`. -/
def ThreadFromGlobalPool.joinable : ThreadFromGlobalPool → Bool
  | .empty => false
  | .running _ => true

/-- The members of `PushingAsyncPipelineExecutor::Data`.  `source` says whether the
pointer is set; when set it points to the bridge's `pushing_source`. -/
structure Data where
  executor : Option PipelineExecutor := none
  exception : Option Exception := none
  source : Bool := false
  is_finished : Bool := false
  has_exception : Bool := false
  thread : ThreadFromGlobalPool := .empty
  finish_event : Bool := false
deriving DecidableEq, Repr

/-- How a call of the caller's thread ends.  `blocked`: the caller waits (on the
condition variable or in `join`) and the schedule never releases it.
`undefined`: the call dereferences a null pointer or rethrows a null
`exception_ptr`. -/
inductive Outcome where
  | returned
  | raised (e : Exception)
  | blocked
  | undefined
deriving DecidableEq, Repr

/-- The call came to an end: it returned or it threw. -/
def Outcome.completed : Outcome → Bool
  | .returned => true
  | .raised _ => true
  | .blocked => false
  | .undefined => false

/-- The member `void Data::rethrowExceptionIfHas()`: `has_exception.exchange(false)` and the
rethrow of the stored exception when the flag was set. -/
def Data.rethrowExceptionIfHas (d : Data) : Outcome × Data :=
  if d.has_exception then
    match d.exception with
    | some e => (.raised e, { d with has_exception := false })
    | none => (.undefined, { d with has_exception := false })
  else
    (.returned, d)

/-! ## The bridge -/

/-- The members of `PushingAsyncPipelineExecutor` (the reference to the pipeline
apart). -/
structure PushingAsyncPipelineExecutor where
  pushing_source : PushingAsyncSource := {}
  started : Bool := false
  finished : Bool := false
  data : Option Data := none
deriving DecidableEq, Repr

/-- One atomic step of the worker thread.  Inside `execute` the engine pulls from
the source, changes the status it reports, returns or throws; after `execute`
the thread advances through the rest of `threadFunction`. -/
inductive WorkerEvent where
  | pull
  | status (st : ExecutionStatus)
  | returns
  | throws (e : Exception)
  | advance
deriving DecidableEq, Repr

/-- What the worker does between two atomic actions of the caller. -/
abbrev Window := List WorkerEvent

/-- For each atomic action of a call, in order, the window before it. -/
abbrev Schedule := List Window

namespace PushingAsyncPipelineExecutor

/-- The bridge as the constructor leaves it. -/
def init : PushingAsyncPipelineExecutor := {}

/-- The function `threadFunction`, one atomic step at a time.  An event that the
thread cannot take where it stands (also a `generate` still waiting) leaves the
state as it is. -/
def threadFunctionStep (b : PushingAsyncPipelineExecutor)
    (ev : WorkerEvent) : PushingAsyncPipelineExecutor :=
  match b.data with
  | none => b
  | some d =>
    match d.thread, ev with
    | .running .executing, .pull =>
      match b.pushing_source.generate with
      | some (_, src) => { b with pushing_source := src }
      | none => b
    | .running .executing, .status st =>
      { b with data := some { d with
          executor := d.executor.map fun ex => { ex with status := st } } }
    | .running .executing, .returns =>
      { b with data := some { d with thread := .running .finishing } }
    | .running .executing, .throws e =>
      { b with data := some { d with
          exception := some e, has_exception := true, thread := .running .finishing } }
    | .running .finishing, .advance =>
      { b with
          pushing_source := if d.source then b.pushing_source.finish else b.pushing_source,
          data := some { d with thread := .running .completing } }
    | .running .completing, .advance =>
      { b with data := some { d with
          is_finished := true, finish_event := true, thread := .running .exited } }
    | _, _ => b

/-- The worker runs through a window. -/
def runWorker (b : PushingAsyncPipelineExecutor)
    (w : Window) : PushingAsyncPipelineExecutor :=
  w.foldl threadFunctionStep b

/-- The member `void start()`.  `data` is null until `start` assigns it, so the
assignment destroys no earlier `Data`. -/
def start (b : PushingAsyncPipelineExecutor) : PushingAsyncPipelineExecutor :=
  if b.started then b
  else
    { b with
        started := true,
        data := some
          { executor := some {}, source := true, thread := .running .executing } }

/-- The part of `push` before `setData` takes the mutex: `if (!started) start();`
and what the worker does in the meantime. -/
def pushEnter (b : PushingAsyncPipelineExecutor)
    (w : Window) : PushingAsyncPipelineExecutor :=
  runWorker (if !b.started then b.start else b) w

/-- The part of `push` after `setData` returned `is_pushed`:
`data->rethrowExceptionIfHas();` and
`if (!is_pushed) throwOnExecutionStatus(data->executor->getExecutionStatus());`.
The window runs between the exchange of `has_exception` and the read of the
status. -/
def pushCheck (is_pushed : Bool) (b : PushingAsyncPipelineExecutor)
    (w : Window) : Outcome × PushingAsyncPipelineExecutor :=
  match b.data with
  | none => (.undefined, b)
  | some d =>
    match d.rethrowExceptionIfHas with
    | (.returned, d1) =>
      if !is_pushed then
        let b3 := runWorker { b with data := some d1 } w
        match b3.data.bind fun d3 => d3.executor with
        | some ex => (.raised (throwOnExecutionStatus ex.getExecutionStatus), b3)
        | none => (.undefined, b3)
      else
        (.returned, { b with data := some d1 })
    | (o, d1) => (o, { b with data := some d1 })

/-- The member `void push(Chunk chunk)`.  Window 0 runs before `setData` takes
the mutex, window 1 between `setData` and the exchange of `has_exception`,
window 2 between the exchange and `getExecutionStatus()`.  `blocked`: the wait
in `setData` has not ended when window 0 is over. -/
def push (b : PushingAsyncPipelineExecutor) (chunk : Chunk)
    (sched : Schedule) : Outcome × PushingAsyncPipelineExecutor :=
  let b1 := b.pushEnter (sched.getD 0 [])
  match b1.pushing_source.setData chunk with
  | none => (.blocked, b1)
  | some (is_pushed, src) =>
    pushCheck is_pushed
      (runWorker { b1 with pushing_source := src } (sched.getD 1 []))
      (sched.getD 2 [])

/-- The part of `finish`, on a bridge not yet finished, up to `join()`:
`finished = true;`, `pushing_source->finish();`, and what the worker does
before that (window 0) and while the caller waits in `join()` (window 1). -/
def finishEnter (b : PushingAsyncPipelineExecutor)
    (sched : Schedule) : PushingAsyncPipelineExecutor :=
  let b1 := runWorker { b with finished := true } (sched.getD 0 [])
  runWorker { b1 with pushing_source := b1.pushing_source.finish } (sched.getD 1 [])

/-- The member `void finish()` of the bridge.  `join()` returns once the worker
thread has exited; the handle is then empty.  When `data` is null or the handle
is not joinable there is nothing to wait for.  `blocked`: the worker has not
exited when window 1 is over. -/
def finish (b : PushingAsyncPipelineExecutor)
    (sched : Schedule) : Outcome × PushingAsyncPipelineExecutor :=
  if b.finished then (.returned, b)
  else
    let b3 := b.finishEnter sched
    match b3.data with
    | none => (.returned, b3)
    | some d =>
      match d.thread with
      | .running .exited =>
        let r := Data.rethrowExceptionIfHas { d with thread := .empty }
        (r.1, { b3 with data := some r.2 })
      | .running _ => (.blocked, b3)
      | .empty =>
        let r := d.rethrowExceptionIfHas
        (r.1, { b3 with data := some r.2 })

/-- The first statement of `cancel()`:
`if (data && !data->is_finished && data->executor) data->executor->cancel();`. -/
def requestCancel (b : PushingAsyncPipelineExecutor) : PushingAsyncPipelineExecutor :=
  match b.data with
  | none => b
  | some d =>
    if !d.is_finished then
      match d.executor with
      | some ex => { b with data := some { d with executor := some ex.cancel } }
      | none => b
    else b

/-- The member `void cancel()`.  Window 0 runs before the first statement, the
other windows are those of `finish()`. -/
def cancel (b : PushingAsyncPipelineExecutor)
    (sched : Schedule) : Outcome × PushingAsyncPipelineExecutor :=
  finish (b.runWorker (sched.getD 0 [])).requestCancel (sched.drop 1)

/-- One call of the caller's thread. -/
inductive Call where
  | start
  | push (chunk : Chunk)
  | finish
  | cancel
deriving DecidableEq, Repr

/-- The outcome and the state after one call under a schedule. -/
def call (b : PushingAsyncPipelineExecutor) (c : Call)
    (sched : Schedule) : Outcome × PushingAsyncPipelineExecutor :=
  match c with
  | .start => (.returned, b.start)
  | .push chunk => b.push chunk sched
  | .finish => b.finish sched
  | .cancel => b.cancel sched

/-- What happens next in a session: a call of the caller under a schedule, or
worker steps between two calls. -/
inductive Action where
  | call (c : Call) (sched : Schedule)
  | worker (w : Window)
deriving DecidableEq, Repr

/-- The state after one action; `none` when the call does not come to an end. -/
def act (b : PushingAsyncPipelineExecutor) : Action → Option PushingAsyncPipelineExecutor
  | .call c sched =>
    if (b.call c sched).1.completed then some (b.call c sched).2 else none
  | .worker w => some (b.runWorker w)

/-- The state after a session, every call of which came to an end. -/
def session (b : PushingAsyncPipelineExecutor) :
    List Action → Option PushingAsyncPipelineExecutor
  | [] => some b
  | a :: as => (b.act a).bind fun b1 => session b1 as

/-- The states of a single caller's sessions on a constructed bridge. -/
def Reachable (b : PushingAsyncPipelineExecutor) : Prop :=
  ∃ as : List Action, init.session as = some b

/-- The outcomes of a sequence of calls, each under its schedule. -/
def outcomes (b : PushingAsyncPipelineExecutor) : List (Call × Schedule) → List Outcome
  | [] => []
  | (c, sched) :: cs => (b.call c sched).1 :: outcomes (b.call c sched).2 cs

/-- The worker caught `e` (it has left the `try`/`catch`) and no call has
consumed the flag yet. -/
def Captured (b : PushingAsyncPipelineExecutor) (e : Exception) : Prop :=
  b.started = true ∧
  ∃ d, b.data = some d ∧ d.has_exception = true ∧ d.exception = some e ∧
    d.thread ≠ .running .executing

/-- The worker thread has run `threadFunction` to its end after catching `e`, and
no call has consumed the flag yet. -/
def TerminatedWith (b : PushingAsyncPipelineExecutor) (e : Exception) : Prop :=
  b.started = true ∧ b.pushing_source.is_finished = true ∧
  ∃ d, b.data = some d ∧ d.has_exception = true ∧ d.exception = some e ∧
    d.thread = .running .exited ∧ d.is_finished = true ∧ d.executor.isSome = true

/-- The worker thread has run `threadFunction` to its end, no captured error is
pending, and the engine reports `st`. -/
def Settled (b : PushingAsyncPipelineExecutor) (st : ExecutionStatus) : Prop :=
  b.started = true ∧ b.pushing_source.is_finished = true ∧
  ∃ d, b.data = some d ∧ d.has_exception = false ∧
    (d.thread = .running .exited ∨ d.thread = .empty) ∧ d.is_finished = true ∧
    ∃ ex, d.executor = some ex ∧ ex.getExecutionStatus = st

/-- What a call gives on a settled bridge: `push` throws by the status, every
other call returns. -/
def settledOutcome (st : ExecutionStatus) : Call → Outcome
  | .push _ => .raised (throwOnExecutionStatus st)
  | _ => .returned

/-- A sample state: one batch was pushed and the engine then threw, so the worker
has caught the failure but has not finished the source yet. -/
def afterFailure : PushingAsyncPipelineExecutor :=
  (init.push Chunk.one []).2.runWorker [.throws Exception.sample]

/-- A sample state: as `afterFailure`, and the worker thread has run to its end. -/
def afterExit : PushingAsyncPipelineExecutor :=
  afterFailure.runWorker [.advance, .advance]

/-- A sample state of a misused bridge: `finish()` came before the first `push`,
and the engine threw after that `push` had exchanged the flag. -/
def afterLateFailure : PushingAsyncPipelineExecutor :=
  ((init.finish []).2.push Chunk.one
    [[], [], [.throws Exception.sample, .advance, .advance]]).2

/-- What holds in every reachable state of the bridge. -/
structure WF (b : PushingAsyncPipelineExecutor) : Prop where
  unstarted : b.started = false → b.data = none ∧ b.pushing_source.has_data = false
  started : b.started = true →
    ∃ d, b.data = some d ∧ d.executor.isSome = true ∧ d.source = true
  clean : b.pushing_source.Clean
  finished_source : b.finished = true → b.pushing_source.is_finished = true
  captured : ∀ d, b.data = some d → d.has_exception = true →
    d.exception.isSome = true ∧ d.thread ≠ .running .executing
  source_finished : ∀ d, b.data = some d →
    d.thread = .running .completing ∨ d.thread = .running .exited ∨ d.thread = .empty →
    b.pushing_source.is_finished = true
  is_finished : ∀ d, b.data = some d →
    (d.is_finished = true ↔ d.thread = .running .exited ∨ d.thread = .empty)
  finished_pending : ∀ d, b.data = some d → b.finished = true →
    b.pushing_source.has_data = true →
    d.thread = .running .exited ∨ d.thread = .empty

/-- A sample state: one batch was pushed and accepted, the engine is running. -/
def afterPush : PushingAsyncPipelineExecutor :=
  (init.push Chunk.one []).2

/-! ### The worker routine as a whole -/

/-- One step of the engine inside `execute` before `execute` ends: a pull from
the source or a change of the status it reports. -/
inductive EngineStep where
  | pull
  | status (st : ExecutionStatus)
deriving DecidableEq, Repr

/-- The worker event of an engine step. -/
def EngineStep.event : EngineStep → WorkerEvent
  | .pull => .pull
  | .status st => .status st

/-- How `data.executor->execute(...)` ends: it returns (after a normal run or
after a cancellation) or it throws. -/
inductive ExecuteEnd where
  | returns
  | throws (e : Exception)
deriving DecidableEq, Repr

/-- The worker event of the end of `execute`. -/
def ExecuteEnd.event : ExecuteEnd → WorkerEvent
  | .returns => .returns
  | .throws e => .throws e

/-- The steps of one whole run of `threadFunction`: the engine's steps inside
`execute`, the end of `execute`, `if (data.source) data.source->finish();` and
`data.is_finished = true; data.finish_event.set();`. -/
def workerRun (during : List EngineStep) (fin : ExecuteEnd) : Window :=
  during.map EngineStep.event ++ [fin.event, .advance, .advance]

/-- The function `threadFunction` from its first statement to its return, with no
step of the caller in between. -/
def threadFunction (b : PushingAsyncPipelineExecutor) (during : List EngineStep)
    (fin : ExecuteEnd) : PushingAsyncPipelineExecutor :=
  b.runWorker (workerRun during fin)

/-- A window after which the worker thread has exited wherever it stood before:
`execute` returns and the thread runs to the end of `threadFunction`. -/
def exitWindow : Window := [.returns, .advance, .advance]

/-! ### Teardown -/

/-- The destructor `~Data()`, run when the bridge is destroyed:
`if (thread.joinable()) thread.join();`.  The window is what the worker does
while the caller waits in `join()`; `blocked`: the worker has not exited when the
window is over.  Afterwards `data` is gone. -/
def destroyData (b : PushingAsyncPipelineExecutor)
    (w : Window) : Outcome × PushingAsyncPipelineExecutor :=
  let b1 := b.runWorker w
  match b1.data with
  | none => (.returned, b1)
  | some d =>
    match d.thread with
    | .running .exited => (.returned, { b1 with data := none })
    | .running _ => (.blocked, b1)
    | .empty => (.returned, { b1 with data := none })

/-- Modelled from the spec: `tryLogCurrentException` is not among the sources; the
spec says an exception raised during the implicit cancel is logged.  The
handler `try { cancel(); } catch (...) { tryLogCurrentException(...); }` turns
every exception of `cancel()` into a normal continuation. -/
def destructorCatch : Outcome → Outcome
  | .raised _ => .returned
  | o => o

/-- The destructor `~PushingAsyncPipelineExecutor()`: `cancel()` inside the
`try`/`catch`, then the destruction of the members (`~Data()`, window 3).  The
macro `chassert` before the `try` is not among the sources; by the spec the
teardown goes on to `cancel()` in every state, so the assertion has no effect
here. -/
def destructor (b : PushingAsyncPipelineExecutor)
    (sched : Schedule) : Outcome × PushingAsyncPipelineExecutor :=
  match destructorCatch (b.cancel sched).1 with
  | .returned => (b.cancel sched).2.destroyData (sched.getD 3 [])
  | o => (o, (b.cancel sched).2)

/-! ### Counting the runs of `start` -/

/-- The number of times a call runs the body of `start()` after
`if (started) return;`, the only place where `Data` and the worker thread are
created: `start()` itself and `push` (`if (!started) start();`) run it when
`started` is clear. -/
def startRuns (b : PushingAsyncPipelineExecutor) : Call → Nat
  | .start => if b.started then 0 else 1
  | .push _ => if b.started then 0 else 1
  | .finish => 0
  | .cancel => 0

/-- The number of runs of the body of `start()` over a sequence of calls. -/
def spawns (b : PushingAsyncPipelineExecutor) : List (Call × Schedule) → Nat
  | [] => 0
  | (c, sched) :: cs => b.startRuns c + spawns (b.call c sched).2 cs

/-! ### Requests to the engine -/

/-- The number of `cancel()` requests the engine has received so far (0 while
there is no engine). -/
def cancelRequests (b : PushingAsyncPipelineExecutor) : Nat :=
  match b.data with
  | none => 0
  | some d =>
    match d.executor with
    | none => 0
    | some ex => ex.cancel_requests

/-! ### A second thread calling `cancel` while `push` waits -/

end PushingAsyncPipelineExecutor

/-! ## The pipeline and the constructor of the bridge -/

/-- Modelled from the spec: the header of a port is the schema the engine declares
for its input; its declaration is not among the sources.  It is kept as the list
of the column names and type names. -/
abbrev Block := List (String × String)

/-- Modelled from the spec: the designated input port of the engine, with its header
and whether an output port has been connected to it. -/
structure InputPort where
  header : Block := []
  connected : Bool := false
deriving DecidableEq, Repr

/-- An entry of the processor list of a pipeline: the source the bridge makes over
a header, or any processor the pipeline already had. -/
inductive Processor where
  | pushingAsyncSource (header : Block)
  | other (id : Nat)
deriving DecidableEq, Repr

/-- Modelled from the spec: the declaration of `QueryPipeline` is not among the
sources.  It is the engine side that the bridge attaches to: what `pushing()`
answers, the input port `input`, and the list `processors`. -/
structure QueryPipeline where
  is_pushing : Bool := false
  input : InputPort := {}
  processors : List Processor := []
deriving DecidableEq, Repr

/-- The member `pushing()` of the pipeline. -/
def QueryPipeline.pushing (pipeline : QueryPipeline) : Bool :=
  pipeline.is_pushing

/-- A sample pipeline for pushing, with two processors and a one-column input. -/
def QueryPipeline.sample : QueryPipeline :=
  { is_pushing := true, input := { header := [("x", "UInt64")] },
    processors := [.other 0, .other 1] }

namespace PushingAsyncPipelineExecutor

/-- The constructor `PushingAsyncPipelineExecutor(QueryPipeline & pipeline_)`: the
exception it throws, or the new bridge together with the pipeline as the
constructor leaves it. -/
def construct (pipeline : QueryPipeline) :
    Except Exception (PushingAsyncPipelineExecutor × QueryPipeline) :=
  if !pipeline.pushing then
    .error ⟨.LOGICAL_ERROR, "Pipeline for PushingPipelineExecutor must be pushing"⟩
  else
    .ok ({ pushing_source := {} },
      { pipeline with
        input := { pipeline.input with connected := true },
        processors := pipeline.processors ++ [.pushingAsyncSource pipeline.input.header] })

end PushingAsyncPipelineExecutor

/-! ## The `Regexp` input format -/

/-- The regular expression engine as `parseRow` uses it.  The library `re2` is not
part of the sources: the number of capturing groups of the compiled expression and
the answer of `FullMatchN` on a text, which is the text of every group when the
whole text matches, are taken as they come. -/
structure RE2 where
  NumberOfCapturingGroups : Nat
  FullMatchN : List Char → Option (Nat → List Char)

/-- Modelled from the spec: the declaration of `PeekableReadBuffer` is not among the
sources.  It is the input as a stream of bytes: `available` is the working buffer
from `position()` to `buffer().end()`, `pending` the pieces that later calls of
`next()` load.  The bytes passed since a checkpoint stay readable, so a rollback
is the stream as it was. -/
structure PeekableReadBuffer where
  available : List Char := []
  pending : List (List Char) := []
deriving DecidableEq, Repr

namespace PeekableReadBuffer

/-- The member `eof()`: with nothing left in the working buffer it loads the next
piece, and the input is at its end when there is none. -/
def eof (buf : PeekableReadBuffer) : Bool × PeekableReadBuffer :=
  match buf.available, buf.pending with
  | [], [] => (true, buf)
  | [], c :: rest => (false, { available := c, pending := rest })
  | _ :: _, _ => (false, buf)

/-- The bytes that the buffer has yet to deliver. -/
def rest (buf : PeekableReadBuffer) : List Char :=
  buf.available ++ buf.pending.flatten

end PeekableReadBuffer

/-- Modelled from the spec: the function `checkChar(c, buf)` of `ReadHelpers` is not
among the sources.  It passes over the next byte when that byte is `c`. -/
def checkChar (c : Char) (buf : PeekableReadBuffer) : Bool × PeekableReadBuffer :=
  match buf.eof with
  | (true, buf1) => (false, buf1)
  | (false, buf1) =>
    match buf1.available with
    | [] => (false, buf1)
    | x :: xs => if x ≠ c then (false, buf1) else (true, { buf1 with available := xs })

/-- The members of `RegexpFieldExtractor`.  The vectors `re2_arguments` and
`re2_arguments_ptrs` only point at the entries of `matched_fields`. -/
structure RegexpFieldExtractor where
  regexp_str : String
  regexp : RE2
  matched_fields : List (List Char)
  skip_unmatched : Bool

namespace RegexpFieldExtractor

/-- The constructor `RegexpFieldExtractor(format_settings)`, from the two settings it
reads and the expression compiled from the first. -/
def construct (regexp_str : String) (regexp : RE2) (skip_unmatched : Bool) :
    Except Exception RegexpFieldExtractor :=
  if regexp_str.isEmpty then
    .error ⟨.BAD_ARGUMENTS,
      "The regular expression is not set for the `Regexp` format. " ++
      "It requires setting the value of the `format_regexp` setting."⟩
  else
    .ok { regexp_str := regexp_str, regexp := regexp,
          matched_fields := List.replicate regexp.NumberOfCapturingGroups [],
          skip_unmatched := skip_unmatched }

/-- Modelled from the spec: the member `getMatchedFieldsSize()`, defined outside the
sources, is the size of `matched_fields`. -/
def getMatchedFieldsSize (ext : RegexpFieldExtractor) : Nat :=
  ext.matched_fields.length

/-- Modelled from the spec: the member `getField(index)`, defined outside the
sources, is the entry `index` of `matched_fields`. -/
def getField (ext : RegexpFieldExtractor) (index : Nat) : List Char :=
  ext.matched_fields.getD index []

/-- The `do ... while` loop of `parseRow`: it moves `position()` to the first
line feed of the working buffer, or to its end, adds the bytes passed to the line,
and goes on with the next piece while the working buffer is used up and the input
is not at its end.  The result is the line and the buffer at the end of the loop. -/
def scanLine (line : List Char) (available : List Char) :
    List (List Char) → List Char × PeekableReadBuffer
  | [] =>
    (line ++ available.takeWhile (· ≠ '\n'),
      { available := available.dropWhile (· ≠ '\n'), pending := [] })
  | c :: pending =>
    if available.dropWhile (· ≠ '\n') = [] then
      scanLine (line ++ available.takeWhile (· ≠ '\n')) c pending
    else
      (line ++ available.takeWhile (· ≠ '\n'),
        { available := available.dropWhile (· ≠ '\n'), pending := c :: pending })

/-- The length `line_to_match` of `parseRow`: the line without one carriage return
at its end. -/
def lineToMatch (line : List Char) : Nat :=
  if 0 < line.length ∧ line.getD (line.length - 1) ' ' = '\r' then
    line.length - 1
  else
    line.length

/-- The member `bool parseRow(PeekableReadBuffer & buf)`: the exception it throws, or
the flag it returns with the extractor and the buffer as it leaves them.  After the
rollback to the checkpoint the bytes passed in the loop are the `line_size` bytes at
`position()`, and `position() += line_size` puts the buffer back where the loop left
it.  A successful `FullMatchN` writes the groups into `matched_fields` through the
pointers the constructor has set. -/
def parseRow (ext : RegexpFieldExtractor) (buf : PeekableReadBuffer) :
    Except Exception (Bool × RegexpFieldExtractor × PeekableReadBuffer) :=
  let scanned := scanLine [] buf.available buf.pending
  let line := scanned.1
  let line_to_match := lineToMatch line
  let result := ext.regexp.FullMatchN (line.take line_to_match)
  let is_match := result.isSome
  let ext1 : RegexpFieldExtractor :=
    match result with
    | some groups =>
      { ext with matched_fields := (List.range ext.matched_fields.length).map groups }
    | none => ext
  if !is_match && !ext.skip_unmatched then
    .error ⟨.INCORRECT_DATA,
      "Line \"" ++ String.mk (line.take line_to_match) ++ "\" doesn't match the regexp: `"
        ++ ext.regexp_str ++ "`"⟩
  else
    match scanned.2.eof with
    | (true, buf1) => .ok (is_match, ext1, buf1)
    | (false, buf1) =>
      match checkChar '\n' buf1 with
      | (false, _) => .error ⟨.LOGICAL_ERROR, "No \\n at the end of line."⟩
      | (true, buf2) => .ok (is_match, ext1, buf2)

end RegexpFieldExtractor

/-- A column under construction: the values read into it so far. -/
abbrev IColumn := List (List Char)

/-- The columns a row is read into. -/
abbrev MutableColumns := List IColumn

/-- The member `read_columns` of `RowReadExtension`. -/
structure RowReadExtension where
  read_columns : List Bool := []
deriving DecidableEq, Repr

/-- Modelled from the spec: the member `addMessage` of an exception is not among the
sources.  The code stays, the text is added to the message. -/
def Exception.addMessage (e : Exception) (arg : String) : Exception :=
  { e with message := e.message ++ ": " ++ arg }

/-- The members of `RegexpRowInputFormat` that reading the fields of a row uses.
`column_names` are the names in the header of the port.  The function
`deserializeFieldByEscapingRule` is not among the sources: `deserialize index`
stands for its call with the type and serialization of column `index`, the
escaping rule and the format settings, on a matched field and the column; it
returns the flag and the column, or throws. -/
structure RegexpRowInputFormat where
  field_extractor : RegexpFieldExtractor
  column_names : List String
  deserialize : Nat → List Char → IColumn → Except Exception (Bool × IColumn)

/-- What a call of `readFieldsFromMatch` leaves behind: the columns, the extension,
the indices `readField` was called with, in the order of the calls, and the
exception that ended the call, if one did.  What a call of `readField` that throws
has done to its column before is not described: the columns are then those before
that call. -/
structure ReadFieldsResult where
  columns : MutableColumns
  ext : RowReadExtension
  calls : List Nat := []
  thrown : Option Exception := none
deriving DecidableEq, Repr

namespace RegexpRowInputFormat

/-- The member `bool readField(size_t index, MutableColumns & columns)`. -/
def readField (fmt : RegexpRowInputFormat) (index : Nat) (columns : MutableColumns) :
    Except Exception (Bool × MutableColumns) :=
  match fmt.deserialize index (fmt.field_extractor.getField index) (columns.getD index []) with
  | .ok (flag, column) => .ok (flag, columns.set index column)
  | .error e =>
    .error (e.addMessage
      ("(while reading the value of column " ++ fmt.column_names.getD index "" ++ ")"))

/-- The `for` loop of `readFieldsFromMatch` over the indices still to read. -/
def readFieldsLoop (fmt : RegexpRowInputFormat) :
    List Nat → ReadFieldsResult → ReadFieldsResult
  | [], r => r
  | columns_index :: later, r =>
    match fmt.readField columns_index r.columns with
    | .ok (flag, columns) =>
      readFieldsLoop fmt later
        { r with columns := columns,
                 ext := { read_columns := r.ext.read_columns.set columns_index flag },
                 calls := r.calls ++ [columns_index] }
    | .error e => { r with calls := r.calls ++ [columns_index], thrown := some e }

/-- The member `void readFieldsFromMatch(MutableColumns & columns, RowReadExtension & ext)`. -/
def readFieldsFromMatch (fmt : RegexpRowInputFormat) (columns : MutableColumns)
    (ext : RowReadExtension) : ReadFieldsResult :=
  if fmt.field_extractor.getMatchedFieldsSize ≠ columns.length then
    { columns := columns, ext := ext,
      thrown := some ⟨.INCORRECT_DATA,
        "The number of matched fields in line doesn't match the number of columns."⟩ }
  else
    readFieldsLoop fmt (List.range columns.length)
      { columns := columns, ext := { read_columns := List.replicate columns.length false } }

end RegexpRowInputFormat

/-! ### The line a call of `parseRow` works on -/

/-- The bytes of the current line: those before the first line feed of the input. -/
def currentLine (buf : PeekableReadBuffer) : List Char :=
  buf.rest.takeWhile (· ≠ '\n')

/-- A text without the one carriage return at its end, if there is one. -/
def stripCarriageReturn (line : List Char) : List Char :=
  if line.getLast? = some '\r' then line.dropLast else line

/-- The input after the current line and the line feed that ends it. -/
def afterLine (buf : PeekableReadBuffer) : List Char :=
  (buf.rest.dropWhile (· ≠ '\n')).drop 1

/-- A sample expression with one group: it matches the text `abc` only. -/
def RE2.sample : RE2 :=
  { NumberOfCapturingGroups := 1,
    FullMatchN := fun text => if text = ['a', 'b', 'c'] then some (fun _ => text) else none }

/-- A sample extractor over `RE2.sample` that does not skip unmatched lines. -/
def RegexpFieldExtractor.sample : RegexpFieldExtractor :=
  { regexp_str := "(abc)", regexp := RE2.sample, matched_fields := [[]],
    skip_unmatched := false }

/-- A sample input in two pieces: the line `abc` with a DOS line ending, then `d`. -/
def PeekableReadBuffer.sample : PeekableReadBuffer :=
  { available := ['a', 'b'], pending := [['c', '\r', '\n', 'd']] }

/-! ### The columns between the calls of `readField` -/

namespace RegexpRowInputFormat

/-- The columns after `readField` has been called for the indices below `k`, one call
after the other; a call that throws is taken to leave the columns as they were. -/
def columnsAfter (fmt : RegexpRowInputFormat) (columns : MutableColumns) : Nat → MutableColumns
  | 0 => columns
  | k + 1 =>
    match fmt.readField k (columnsAfter fmt columns k) with
    | .ok (_, next) => next
    | .error _ => columnsAfter fmt columns k

/-- A sample format over two columns whose deserialization rejects the field `x`. -/
def sample : RegexpRowInputFormat :=
  { field_extractor :=
      { regexp_str := "(.) (.)",
        regexp := { NumberOfCapturingGroups := 2, FullMatchN := fun _ => none },
        matched_fields := [['x'], ['1']], skip_unmatched := false },
    column_names := ["a", "b"],
    deserialize := fun _ field column =>
      if field = ['x'] then .error ⟨.other 6, "Cannot parse"⟩
      else .ok (true, column ++ [field]) }

/-- The sample format after a line whose fields are both accepted. -/
def sampleGood : RegexpRowInputFormat :=
  { sample with
    field_extractor := { sample.field_extractor with matched_fields := [['2'], ['1']] } }

end RegexpRowInputFormat

/-! ## The syntax tree around `ASTFunction` -/

/-- Modelled from the spec: the kinds of value of a `Field` (`Field::Types::Which`),
declared outside the sources.  The kinds that `ASTFunction.cpp` tells apart are
named; `other` stands for every other kind. -/
inductive FieldType where
  | Null
  | UInt64
  | Int64
  | String
  | Array
  | Tuple
  | other (id : Nat)
deriving DecidableEq, Repr

/-- Modelled from the spec: the value of a literal (`Field`), declared outside the
sources.  An `Array` and a `Tuple` are sequences of values; `other` stands for a
value of any other kind. -/
inductive Field where
  | null
  | uint64 (value : Nat)
  | int64 (value : Int)
  | string (value : String)
  | array (elements : List Field)
  | tuple (elements : List Field)
  | other (id : Nat)
deriving Repr

/-- The member `getType()` of a `Field`. -/
def Field.getType : Field → FieldType
  | .null => .Null
  | .uint64 _ => .UInt64
  | .int64 _ => .Int64
  | .string _ => .String
  | .array _ => .Array
  | .tuple _ => .Tuple
  | .other id => .other id

/-- The function `isInt64OrUInt64FieldType`. -/
def isInt64OrUInt64FieldType (t : FieldType) : Bool :=
  t = .Int64 || t = .UInt64

/-- The value `safeGet<Int64>()` of a field of an integer type: an unsigned value is
read as a signed one of 64 bits. -/
def Field.safeGetInt64 : Field → Int
  | .uint64 value => if value % 2 ^ 64 < 2 ^ 63 then value % 2 ^ 64 else value % 2 ^ 64 - 2 ^ 64
  | .int64 value => value
  | _ => 0

/-- Modelled from the spec: the enumeration `NullsAction`, declared outside the
sources. -/
inductive NullsAction where
  | EMPTY
  | RESPECT_NULLS
  | IGNORE_NULLS
deriving DecidableEq, Repr

/-- Modelled from the spec: the enumeration `ASTFunction::Kind`, declared outside the
sources. -/
inductive Kind where
  | ORDINARY_FUNCTION
  | WINDOW_FUNCTION
  | LAMBDA_FUNCTION
  | TABLE_ENGINE
  | DATABASE_ENGINE
  | BACKUP_NAME
  | CODEC
  | STATISTICS
deriving DecidableEq, Repr

/-- Modelled from the spec: the classes of the nodes are declared outside the sources.
A node of the syntax tree is told apart by the classes that `ASTFunction.cpp` casts
to; `other` stands for a node of any other class.  The constructor `ASTFunction`
carries the members of a function node: `arguments` and
`parameters` are the children of the expression list they point to, `none` for a
null pointer; `alias_` is the member `alias`. -/
inductive IAST where
  | ASTLiteral (value : Field)
  | ASTIdentifier (name : String)
  | ASTSubquery (id : Nat)
  | ASTSelectWithUnionQuery (id : Nat)
  | ASTSetQuery (id : Nat)
  | ASTAsterisk
  | other (id : Nat)
  | ASTFunction (name : String) (arguments : Option (List IAST))
      (parameters : Option (List IAST)) (window_definition : Option IAST)
      (alias_ : String) (kind : Kind) (nulls_action : NullsAction)
      (is_window_function : Bool) (window_name : String) (no_empty_args : Bool)
deriving Repr

/-- The members of an `ASTFunction` node that `ASTFunction.cpp` uses, as a record. -/
structure ASTFunction where
  name : String
  arguments : Option (List IAST) := none
  parameters : Option (List IAST) := none
  window_definition : Option IAST := none
  alias_ : String := ""
  kind : Kind := .ORDINARY_FUNCTION
  nulls_action : NullsAction := .EMPTY
  is_window_function : Bool := false
  window_name : String := ""
  no_empty_args : Bool := false
deriving Repr

/-- The node of a function. -/
def ASTFunction.toAST (f : ASTFunction) : IAST :=
  .ASTFunction f.name f.arguments f.parameters f.window_definition f.alias_ f.kind
    f.nulls_action f.is_window_function f.window_name f.no_empty_args

namespace IAST

/-- The cast `as<ASTLiteral>()`, to the value of the literal. -/
def asLiteral : IAST → Option Field
  | .ASTLiteral value => some value
  | _ => none

/-- The cast `as<ASTFunction>()`. -/
def asFunction : IAST → Option DB.ASTFunction
  | .ASTFunction name arguments parameters window_definition alias_ kind nulls_action
      is_window_function window_name no_empty_args =>
    some { name := name, arguments := arguments, parameters := parameters,
           window_definition := window_definition, alias_ := alias_, kind := kind,
           nulls_action := nulls_action, is_window_function := is_window_function,
           window_name := window_name, no_empty_args := no_empty_args }
  | _ => none

/-- Whether `as<ASTIdentifier>()` is not null. -/
def isIdentifier : IAST → Bool
  | .ASTIdentifier _ => true
  | _ => false

/-- Whether `as<ASTSubquery>()` is not null. -/
def isSubquery : IAST → Bool
  | .ASTSubquery _ => true
  | _ => false

/-- Whether `as<ASTSelectWithUnionQuery>()` is not null. -/
def isSelectWithUnionQuery : IAST → Bool
  | .ASTSelectWithUnionQuery _ => true
  | _ => false

/-- Whether `as<ASTSetQuery>()` is not null. -/
def isSetQuery : IAST → Bool
  | .ASTSetQuery _ => true
  | _ => false

/-- Whether `as<ASTAsterisk>()` is not null. -/
def isAsterisk : IAST → Bool
  | .ASTAsterisk => true
  | _ => false

end IAST

/-! ### `toLiteral` -/

mutual

/-- The member `ASTPtr toLiteral() const` of the node of a function: the value of the
literal it returns, `none` for the null pointer.  Only a function has this member;
for the other nodes the result is `none`. -/
def IAST.toLiteral : IAST → Option Field
  | .ASTFunction name (some arguments) _ _ _ _ _ _ _ _ =>
    if name = "array" then
      (createLiteral arguments []).map Field.array
    else if name = "tuple" then
      (createLiteral arguments []).map Field.tuple
    else
      none
  | _ => none

/-- The function template `createLiteral<Container>(arguments)`: the loop over the
arguments still to visit, with the container filled so far.  The result is the
container of the literal returned, `none` for the null pointer. -/
def createLiteral : List IAST → List Field → Option (List Field)
  | [], container => some container
  | .ASTLiteral value :: later, container => createLiteral later (container ++ [value])
  | .ASTFunction name arguments parameters window_definition alias_ kind nulls_action
      is_window_function window_name no_empty_args :: later, container =>
    match IAST.toLiteral (.ASTFunction name arguments parameters window_definition alias_
        kind nulls_action is_window_function window_name no_empty_args) with
    | some func_literal => createLiteral later (container ++ [func_literal])
    | none => none
  | _ :: _, _ => none

end

/-- The member `ASTPtr toLiteral() const`. -/
def ASTFunction.toLiteral (f : ASTFunction) : Option Field :=
  f.toAST.toLiteral

/-- The value an argument adds to the container in `createLiteral`: that of a
literal, or that of the literal a function converts to. -/
def literalValue (arg : IAST) : Option Field :=
  match arg.asLiteral with
  | some value => some value
  | none =>
    match arg.asFunction with
    | some func => func.toLiteral
    | none => none

/-! ### `appendColumnNameImpl` -/

/-- Text written to a `WriteBuffer`, piece after piece. -/
def writeAll (pieces : List String) : String :=
  String.join pieces

/-- Column names of a list of nodes, separated by commas: the loops over `parameters`
and over `arguments` in `appendColumnNameImpl`.  A child that throws ends the loop. -/
def appendColumnNames (appendColumnName : IAST → Except Exception String) :
    Bool → List IAST → Except Exception String
  | _, [] => .ok ""
  | first, it :: later =>
    match appendColumnName it with
    | .error e => .error e
    | .ok text =>
      match appendColumnNames appendColumnName false later with
      | .error e => .error e
      | .ok texts => .ok ((if first then "" else ", ") ++ text ++ texts)

/-- The member `void appendColumnNameImpl(WriteBuffer & ostr) const`: the exception it
throws or the text it writes.  `appendColumnName` is the member of that name of the
other nodes, and `formatWindow` the text that `window_definition->format` writes with
one-line settings, a fresh state and a fresh frame; neither is among the sources. -/
def ASTFunction.appendColumnNameImpl (appendColumnName : IAST → Except Exception String)
    (formatWindow : IAST → String) (f : ASTFunction) : Except Exception String :=
  if f.name = "view" ∨ f.name = "viewIfPermitted" ∨ f.name = "mysql" ∨ f.name = "postgresql"
      ∨ f.name = "mongodb" ∨ f.name = "s3" then
    .error ⟨.UNKNOWN_FUNCTION,
      "Table function '" ++ f.name ++ "' cannot be used as an expression"⟩
  else
    match f.toLiteral with
    | some literal => appendColumnName (.ASTLiteral literal)
    | none =>
      let parameters : Except Exception String :=
        match f.parameters with
        | some children =>
          match appendColumnNames appendColumnName true children with
          | .error e => .error e
          | .ok texts => .ok ("(" ++ texts ++ ")")
        | none => .ok ""
      let arguments : Except Exception String :=
        match f.arguments with
        | some children => appendColumnNames appendColumnName true children
        | none => .ok ""
      let nulls : String :=
        if f.nulls_action = .RESPECT_NULLS then " RESPECT NULLS"
        else if f.nulls_action = .IGNORE_NULLS then " IGNORE NULLS"
        else ""
      let window : String :=
        if f.is_window_function then
          " OVER " ++
            (if !f.window_name.isEmpty then f.window_name
             else
              match f.window_definition with
              | some definition => "(" ++ formatWindow definition ++ ")"
              | none => "()")
        else ""
      match parameters with
      | .error e => .error e
      | .ok ps =>
        match arguments with
        | .error e => .error e
        | .ok as => .ok (writeAll [f.name, ps, "(", as, ")", nulls, window])

/-! ### Formatting: settings, frames and written text -/

/-- Modelled from the spec: the members of `IAST::FormatSettings` that
`formatImplWithoutAlias` reads; the declaration is not among the sources. -/
structure FormatSettings where
  one_line : Bool := true
  show_secrets : Bool := true
deriving DecidableEq, Repr

/-- Modelled from the spec: the members of `IAST::FormatStateStacked` that
`formatImplWithoutAlias` reads or writes; the declaration is not among the sources. -/
structure FormatStateStacked where
  indent : Nat := 0
  need_parens : Bool := false
  expression_list_prepend_whitespace : Bool := false
  allow_operators : Bool := true
  list_element_index : Nat := 0
deriving DecidableEq, Repr

/-- What a piece of formatting code does, given the `FormatState` it finds: the text
it appends to `ostr` and the state it leaves.  The type `σ` of the state is that of
`IAST::FormatState`, which is not among the sources. -/
abbrev Formatted (σ : Type) := σ → String × σ

namespace Formatted

/-- The statement `ostr << s`. -/
def text {σ : Type} (s : String) : Formatted σ :=
  fun state => (s, state)

/-- Nothing is written. -/
def nothing {σ : Type} : Formatted σ :=
  fun state => ("", state)

/-- One piece of formatting code after another. -/
def andThen {σ : Type} (a b : Formatted σ) : Formatted σ :=
  fun state => ((a state).1 ++ (b (a state).2).1, (b (a state).2).2)

/-- Pieces of formatting code, one after the other. -/
def seq {σ : Type} : List (Formatted σ) → Formatted σ
  | [] => nothing
  | a :: later => andThen a (seq later)

/-- A piece of formatting code under an `if`. -/
def onlyIf {σ : Type} (condition : Bool) (a : Formatted σ) : Formatted σ :=
  if condition then a else nothing

end Formatted

/-- Modelled from the spec: the members of `FunctionSecretArgumentsFinder::Result`,
declared outside the sources. -/
structure SecretArguments where
  start : Nat := 2 ^ 64 - 1
  count : Nat := 0
  are_named : Bool := false
  nested_maps : List String := []
  replacement : String := ""
deriving DecidableEq, Repr

/-- The code outside `ASTFunction.cpp` that formatting a function calls: `format` of a
child node, `format` of the expression list that `arguments` or `parameters` points
to, given by its children, the function `backQuoteIfNeed`, and the result of
`FunctionSecretArgumentsFinderAST` for a function. -/
structure FormatEnvironment (σ : Type) where
  format : IAST → FormatSettings → FormatStateStacked → Formatted σ
  formatList : List IAST → FormatSettings → FormatStateStacked → Formatted σ
  backQuoteIfNeed : String → String
  secretArguments : ASTFunction → SecretArguments

/-- The C string `s.c_str()`: the characters before the first zero. -/
def c_str (s : String) : List Char :=
  s.toList.takeWhile (· ≠ Char.ofNat 0)

/-- The function `strcasecmp` of the C library on two C strings, as far as the result
being zero goes: zero when the two are equal up to the case of the letters. -/
def strcasecmp (a b : List Char) : Int :=
  if a.map Char.toLower = b.map Char.toLower then 0 else 1

/-- The string `std::string(n, ' ')`. -/
def spaces (n : Nat) : String :=
  String.mk (List.replicate n ' ')

namespace ASTFunction

/-- The member `finishFormatWithWindow`.  A null `window_definition` is not
dereferenced here: nothing is written for it. -/
def finishFormatWithWindow {σ : Type} (env : FormatEnvironment σ) (f : ASTFunction)
    (settings : FormatSettings) (frame : FormatStateStacked) : Formatted σ :=
  .seq [
    if f.nulls_action = .RESPECT_NULLS then .text " RESPECT NULLS"
    else if f.nulls_action = .IGNORE_NULLS then .text " IGNORE NULLS"
    else .nothing,
    if !f.is_window_function then .nothing
    else
      .seq [.text " OVER ",
        if !f.window_name.isEmpty then .text (env.backQuoteIfNeed f.window_name)
        else
          .seq [.text "(",
            match f.window_definition with
            | some definition => env.format definition settings frame
            | none => .nothing,
            .text ")"]]]

/-- The member `tryGetQueryArgument`. -/
def tryGetQueryArgument (f : ASTFunction) : Option IAST :=
  match f.arguments with
  | some [child] => if child.isSelectWithUnionQuery then some child else none
  | _ => none

/-- The function `isAcceptableArgumentsForLambdaExpression`. -/
def isAcceptableArgumentsForLambdaExpression (arguments : List IAST) : Bool :=
  match arguments with
  | [first_argument, _] =>
    if first_argument.isIdentifier then true
    else
      match first_argument.asFunction with
      | some first_argument_function =>
        match first_argument_function.arguments with
        | some tuple_args =>
          first_argument_function.name = "tuple" && tuple_args.all IAST.isIdentifier
        | none => false
      | none => false
  | _ => false

/-- The function `formatNamedArgWithHiddenValue`: `none` when it returns false, else
what it writes.  The null `arguments` of an `equals` function is not dereferenced
here: the function returns false for it. -/
def formatNamedArgWithHiddenValue {σ : Type} (env : FormatEnvironment σ) (arg : IAST)
    (settings : FormatSettings) (frame : FormatStateStacked) : Option (Formatted σ) :=
  match arg.asFunction with
  | none => none
  | some equals_func =>
    if equals_func.name ≠ "equals" then none
    else
      match equals_func.arguments with
      | some [left, _] =>
        some (.seq [env.format left settings frame, .text " = ", .text "'[HIDDEN]'"])
      | _ => none

/-- The table of the unary prefix operators. -/
def unaryPrefixOperators : List (String × String) :=
  [("negate", "-"), ("not", "NOT ")]

/-- The table of the unary postfix operators. -/
def unaryPostfixOperators : List (String × String) :=
  [("isNull", " IS NULL"), ("isNotNull", " IS NOT NULL")]

/-- The table of the binary operators. -/
def binaryOperators : List (String × String) :=
  [("multiply", " * "), ("divide", " / "), ("modulo", " % "), ("plus", " + "),
   ("minus", " - "), ("notEquals", " != "), ("lessOrEquals", " <= "),
   ("greaterOrEquals", " >= "), ("less", " < "), ("greater", " > "), ("equals", " = "),
   ("isNotDistinctFrom", " <=> "), ("like", " LIKE "), ("ilike", " ILIKE "),
   ("notLike", " NOT LIKE "), ("notILike", " NOT ILIKE "), ("in", " IN "),
   ("notIn", " NOT IN "), ("globalIn", " GLOBAL IN "), ("globalNotIn", " GLOBAL NOT IN ")]

/-- The table of the operators of any number of arguments. -/
def multiOperators : List (String × String) :=
  [("and", " AND "), ("or", " OR ")]

/-- The block "Unary prefix operators" for the one argument `child`: `none` when the
loop ends with `written` still false, else what the block writes.  The loop stops at
the first entry of the table that `strcasecmp` matches. -/
def formatUnaryPrefix {σ : Type} (env : FormatEnvironment σ) (f : ASTFunction)
    (arguments : List IAST) (child : IAST) (settings : FormatSettings)
    (frame : FormatStateStacked) : Option (Formatted σ) :=
  match unaryPrefixOperators.find? (fun func => strcasecmp (c_str f.name) (c_str func.1) == 0) with
  | none => none
  | some func =>
    let literal := child.asLiteral
    let function := child.asFunction
    let subquery := child.isSubquery
    let is_tuple : Bool :=
      (match literal with
        | some value => value.getType = .Tuple
        | none => false)
      || (match function with
        | some g =>
          g.name = "tuple" &&
            (match g.arguments with
              | some children => children.length > 1
              | none => false)
        | none => false)
    let is_array : Bool :=
      (match literal with
        | some value => value.getType = .Array
        | none => false)
      || (match function with
        | some g => g.name = "array"
        | none => false)
    let literal_need_parens : Bool := literal.isSome && !is_tuple && !is_array
    let inside_parens : Bool :=
      (f.name = "negate" &&
        (literal_need_parens ||
          (match function with
            | some g => g.name = "negate"
            | none => false)))
      || (subquery && f.name = "not") || (is_tuple && f.name = "not")
    let outside_parens : Bool := frame.need_parens && !inside_parens
    let nested_need_parens : FormatStateStacked :=
      { frame with need_parens := if inside_parens then false else true }
    some (.seq [
      .onlyIf outside_parens (.text "("),
      .text func.2,
      .onlyIf inside_parens (.text "("),
      env.formatList arguments settings nested_need_parens,
      .onlyIf inside_parens (.text ")"),
      .onlyIf outside_parens (.text ")")])

/-- The block "Unary postfix operators". -/
def formatUnaryPostfix {σ : Type} (env : FormatEnvironment σ) (f : ASTFunction)
    (arguments : List IAST) (settings : FormatSettings)
    (frame : FormatStateStacked) : Option (Formatted σ) :=
  match unaryPostfixOperators.find? (fun func => strcasecmp (c_str f.name) (c_str func.1) == 0) with
  | none => none
  | some func =>
    some (.seq [
      .onlyIf frame.need_parens (.text "("),
      env.formatList arguments settings { frame with need_parens := true },
      .text func.2,
      .onlyIf frame.need_parens (.text ")")])

/-- What the body of the loop over the binary operators writes for the entry `func`
of the table, once the name is equal to `func[0]`. -/
def formatBinaryOperator {σ : Type} (env : FormatEnvironment σ) (f : ASTFunction)
    (left right : IAST) (func : String × String) (settings : FormatSettings)
    (frame : FormatStateStacked) : Formatted σ :=
  let nested_need_parens : FormatStateStacked := { frame with need_parens := true }
  let nested_dont_need_parens : FormatStateStacked := { frame with need_parens := false }
  let second_arg_func := right.asFunction
  let second_arg_literal := right.asLiteral
  let extra_parents_around_in_rhs : Bool :=
    (f.name = "in" || f.name = "notIn" || f.name = "globalIn" || f.name = "globalNotIn")
    && !second_arg_func.isSome
    && !(match second_arg_literal with
          | some value => value.getType = .Tuple || value.getType = .Array
          | none => false)
    && !right.isSubquery
  .seq [
    .onlyIf frame.need_parens (.text "("),
    env.format left settings nested_need_parens,
    .text func.2,
    .onlyIf extra_parents_around_in_rhs
      (.seq [.text "(", env.format right settings nested_dont_need_parens, .text ")"]),
    .onlyIf (!extra_parents_around_in_rhs) (env.format right settings nested_need_parens),
    .onlyIf frame.need_parens (.text ")")]

/-- The loop over the table of the binary operators, which has no `break`: what it
has written after the entries given, `none` while `written` is false. -/
def formatBinary {σ : Type} (env : FormatEnvironment σ) (f : ASTFunction)
    (left right : IAST) (settings : FormatSettings) (frame : FormatStateStacked) :
    List (String × String) → Option (Formatted σ) → Option (Formatted σ)
  | [], written => written
  | func :: later, written =>
    if f.name = func.1 then
      formatBinary env f left right settings frame later
        (some (.seq [written.getD .nothing,
          formatBinaryOperator env f left right func settings frame]))
    else
      formatBinary env f left right settings frame later written

/-- The block for `arrayElement`. -/
def formatArrayElement {σ : Type} (env : FormatEnvironment σ) (f : ASTFunction)
    (left right : IAST) (settings : FormatSettings)
    (frame : FormatStateStacked) : Option (Formatted σ) :=
  if f.name = "arrayElement" then
    some (.seq [
      .onlyIf frame.need_parens (.text "("),
      env.format left settings { frame with need_parens := true },
      .text "[",
      env.format right settings { frame with need_parens := false },
      .text "]",
      .onlyIf frame.need_parens (.text ")")])
  else none

/-- The block for `tupleElement`. -/
def formatTupleElement {σ : Type} (env : FormatEnvironment σ) (f : ASTFunction)
    (left right : IAST) (settings : FormatSettings)
    (frame : FormatStateStacked) : Option (Formatted σ) :=
  if f.name = "tupleElement" then
    let lit_left := left.asLiteral
    let lit_right := right.asLiteral
    let tuple_arguments_valid : Bool :=
      !left.isAsterisk &&
        (match lit_left with
          | some value => !(value.getType ≠ .Tuple && value.getType ≠ .Array)
          | none => true)
    match lit_right with
    | some value =>
      if tuple_arguments_valid && isInt64OrUInt64FieldType value.getType
          && decide (value.safeGetInt64 ≥ 0) then
        some (.seq [
          .onlyIf frame.need_parens (.text "("),
          env.format left settings { frame with need_parens := true },
          .text ".",
          env.format right settings { frame with need_parens := false },
          .onlyIf frame.need_parens (.text ")")])
      else none
    | none => none
  else none

/-- The block for `lambda`, the operator `->`. -/
def formatLambda {σ : Type} (env : FormatEnvironment σ) (f : ASTFunction)
    (arguments : List IAST) (first_argument right : IAST) (settings : FormatSettings)
    (frame : FormatStateStacked) : Option (Formatted σ) :=
  if f.name = "lambda" && isAcceptableArgumentsForLambdaExpression arguments then
    let nested_need_parens : FormatStateStacked := { frame with need_parens := true }
    let first_argument_function := first_argument.asFunction
    let parens : Bool := frame.need_parens || decide (frame.list_element_index > 0)
    let tuple_arguments : Option (List IAST) :=
      match first_argument_function with
      | some g => if g.name = "tuple" then g.arguments else none
      | none => none
    some (.seq [
      .onlyIf parens (.text "("),
      (match tuple_arguments with
        | some [element] => env.format element settings nested_need_parens
        | some [] => .text "()"
        | _ => env.format first_argument settings nested_need_parens),
      .text " -> ",
      env.format right settings nested_need_parens,
      .onlyIf parens (.text ")")])
  else none

/-- The block for `viewIfPermitted`, which returns from the function. -/
def formatViewIfPermitted {σ : Type} (env : FormatEnvironment σ) (f : ASTFunction)
    (left right : IAST) (settings : FormatSettings)
    (frame : FormatStateStacked) : Formatted σ :=
  let nl_or_nothing : String := if settings.one_line then "" else "\n"
  let indent0 : String := if settings.one_line then "" else spaces (4 * frame.indent)
  let indent1 : String := if settings.one_line then "" else spaces (4 * (frame.indent + 1))
  let indent2 : String := if settings.one_line then "" else spaces (4 * (frame.indent + 2))
  let frame_nested : FormatStateStacked :=
    { frame with need_parens := false, indent := frame.indent + 2 }
  .seq [
    .text f.name, .text "(", .text nl_or_nothing,
    env.format left settings frame_nested,
    .text nl_or_nothing, .text indent1, .text (if settings.one_line then " " else ""),
    .text "ELSE ", .text nl_or_nothing, .text indent2,
    env.format right settings frame_nested,
    .text nl_or_nothing, .text indent0, .text ")"]

/-- The loops over the children in the blocks for the operators of any number of
arguments and for `array`, `tuple` and `map`: the children from index `i` on, written
with the separator between them.  With `set_index` the frame of child `i` has
`list_element_index = i`. -/
def formatChildren {σ : Type} (env : FormatEnvironment σ) (separator : String)
    (set_index : Bool) (settings : FormatSettings) (frame : FormatStateStacked) :
    Nat → List IAST → Formatted σ
  | _, [] => .nothing
  | i, child :: later =>
    .seq [
      .onlyIf (i != 0) (.text separator),
      .onlyIf child.isSetQuery (.text "SETTINGS "),
      env.format child settings
        (if set_index then { frame with list_element_index := i } else frame),
      formatChildren env separator set_index settings frame (i + 1) later]

/-- The loop over the table of the operators of any number of arguments, which has
no `break`. -/
def formatMulti {σ : Type} (env : FormatEnvironment σ) (f : ASTFunction)
    (arguments : List IAST) (settings : FormatSettings) (frame : FormatStateStacked) :
    List (String × String) → Option (Formatted σ) → Option (Formatted σ)
  | [], written => written
  | func :: later, written =>
    if f.name = func.1 then
      formatMulti env f arguments settings frame later
        (some (.seq [written.getD .nothing,
          .onlyIf frame.need_parens (.text "("),
          formatChildren env func.2 false settings { frame with need_parens := true } 0
            arguments,
          .onlyIf frame.need_parens (.text ")")]))
    else
      formatMulti env f arguments settings frame later written

/-- The blocks for `array`, `tuple` and `map`, in this order. -/
def formatContainer {σ : Type} (env : FormatEnvironment σ) (f : ASTFunction)
    (arguments : List IAST) (settings : FormatSettings)
    (frame : FormatStateStacked) : Option (Formatted σ) :=
  let nested_dont_need_parens : FormatStateStacked := { frame with need_parens := false }
  if f.name = "array" then
    some (.seq [.text "[",
      formatChildren env ", " true settings nested_dont_need_parens 0 arguments, .text "]"])
  else if arguments.length ≥ 2 && f.name = "tuple" then
    some (.seq [.text (if frame.need_parens && !f.alias_.isEmpty then "tuple" else ""),
      .text "(",
      formatChildren env ", " true settings nested_dont_need_parens 0 arguments, .text ")"])
  else if f.name = "map" then
    some (.seq [.text "map(",
      formatChildren env ", " true settings nested_dont_need_parens 0 arguments, .text ")"])
  else none

/-- How the block "Should this function to be written as operator?" ends. -/
inductive OperatorForm (σ : Type) where
  | notWritten
  | written (out : Formatted σ)
  | returned (out : Formatted σ)

/-- The block "Should this function to be written as operator?", for the frame as the
head of the function has set it. -/
def formatAsOperator {σ : Type} (env : FormatEnvironment σ) (f : ASTFunction)
    (settings : FormatSettings) (frame : FormatStateStacked) : OperatorForm σ :=
  match f.arguments with
  | none => .notWritten
  | some arguments =>
    if f.parameters.isNone && frame.allow_operators && f.nulls_action = .EMPTY then
      let unary : Option (Formatted σ) :=
        match arguments with
        | [child] =>
          (formatUnaryPrefix env f arguments child settings frame).orElse fun _ =>
            formatUnaryPostfix env f arguments settings frame
        | _ => none
      match unary with
      | some out => .written out
      | none =>
        let binary : Option (Formatted σ) :=
          match arguments with
          | [left, right] =>
            (formatBinary env f left right settings frame binaryOperators none).orElse fun _ =>
            (formatArrayElement env f left right settings frame).orElse fun _ =>
            (formatTupleElement env f left right settings frame).orElse fun _ =>
              formatLambda env f arguments left right settings frame
          | _ => none
        match binary with
        | some out => .written out
        | none =>
          let view : Option (Formatted σ) :=
            match arguments with
            | [left, right] =>
              if f.name = "viewIfPermitted" then
                some (formatViewIfPermitted env f left right settings frame)
              else none
            | _ => none
          match view with
          | some out => .returned out
          | none =>
            let multi : Option (Formatted σ) :=
              if arguments.length ≥ 2 then
                formatMulti env f arguments settings frame multiOperators none
              else none
            match multi.orElse fun _ => formatContainer env f arguments settings frame with
            | some out => .written out
            | none => .notWritten
    else .notWritten

end ASTFunction

namespace ASTFunction

/-- The inner loop of the generic form over the arguments of a function named in
`nested_maps`, from index `j` on. -/
def formatNestedMap {σ : Type} (env : FormatEnvironment σ) (settings : FormatSettings)
    (frame : FormatStateStacked) : Nat → List IAST → Formatted σ
  | _, [] => .nothing
  | j, inner_arg :: later =>
    .seq [
      .onlyIf (j != 0) (.text ", "),
      (match formatNamedArgWithHiddenValue env inner_arg settings frame with
        | some out => out
        | none => env.format inner_arg settings frame),
      formatNestedMap env settings frame (j + 1) later]

/-- The loop of the generic form over the arguments, from index `i` on, with the frame
`nested_dont_need_parens` as the earlier rounds have left it; `size` is the number of
all arguments.  For a secret named argument that is a function without a first
argument nothing is written where the source dereferences it. -/
def formatArguments {σ : Type} (env : FormatEnvironment σ) (settings : FormatSettings)
    (secret_arguments : SecretArguments) (size : Nat) :
    Nat → List IAST → FormatStateStacked → Formatted σ
  | _, [], _ => .nothing
  | i, argument :: later, nested_dont_need_parens =>
    let head : Formatted σ :=
      .seq [.onlyIf (i != 0) (.text ", "), .onlyIf argument.isSetQuery (.text "SETTINGS ")]
    let secret_end : Nat := (secret_arguments.start + secret_arguments.count) % 2 ^ 64
    if !settings.show_secrets && decide (secret_arguments.start ≤ i) && decide (i < secret_end) then
      .seq [head,
        .onlyIf secret_arguments.are_named
          (.seq [
            (match argument.asFunction with
              | some func_ast =>
                match func_ast.arguments with
                | some (first :: _) => env.format first settings nested_dont_need_parens
                | _ => .nothing
              | none => env.format argument settings nested_dont_need_parens),
            .text " = "]),
        (if !secret_arguments.replacement.isEmpty then
          .seq [.text "'", .text secret_arguments.replacement, .text "'"]
        else .text "'[HIDDEN]'"),
        (if decide (size ≤ secret_end) && !secret_arguments.are_named then .nothing
        else
          formatArguments env settings secret_arguments size (i + 1) later
            nested_dont_need_parens)]
    else
      let nested_map : Option (String × List IAST) :=
        match argument.asFunction with
        | some function =>
          match function.arguments with
          | some children =>
            if !settings.show_secrets && secret_arguments.nested_maps.count function.name != 0
            then some (function.name, children)
            else none
          | none => none
        | none => none
      match nested_map with
      | some (name, children) =>
        .seq [head, .text name, .text "(",
          formatNestedMap env settings nested_dont_need_parens 0 children, .text ")",
          formatArguments env settings secret_arguments size (i + 1) later
            nested_dont_need_parens]
      | none =>
        .seq [head,
          env.format argument settings { nested_dont_need_parens with list_element_index := i },
          formatArguments env settings secret_arguments size (i + 1) later
            { nested_dont_need_parens with list_element_index := i }]

/-- The generic form `name(parameters)(arguments)` at the end of
`formatImplWithoutAlias`, for the frame as the head of the function has set it. -/
def formatGeneric {σ : Type} (env : FormatEnvironment σ) (f : ASTFunction)
    (settings : FormatSettings) (frame : FormatStateStacked) : Formatted σ :=
  let nested_dont_need_parens : FormatStateStacked := { frame with need_parens := false }
  let parens : Bool :=
    (match f.arguments with
      | some children => !children.isEmpty
      | none => false) || !f.no_empty_args
  let secret_arguments : SecretArguments :=
    if !settings.show_secrets then env.secretArguments f else {}
  .seq [
    .text f.name,
    (match f.parameters with
      | some children =>
        .seq [.text "(", env.formatList children settings nested_dont_need_parens, .text ")"]
      | none => .nothing),
    .onlyIf parens (.text "("),
    (match f.arguments with
      | some children =>
        formatArguments env settings secret_arguments children.length 0 children
          nested_dont_need_parens
      | none => .nothing),
    .onlyIf parens (.text ")"),
    finishFormatWithWindow env f settings frame]

/-- The member `formatImplWithoutAlias`. -/
def formatImplWithoutAlias {σ : Type} (env : FormatEnvironment σ) (f : ASTFunction)
    (settings : FormatSettings) (frame_ : FormatStateStacked) : Formatted σ :=
  let frame : FormatStateStacked :=
    { frame_ with
      expression_list_prepend_whitespace := false,
      allow_operators :=
        if f.kind = .CODEC ∨ f.kind = .STATISTICS ∨ f.kind = .BACKUP_NAME then false
        else frame_.allow_operators }
  match f.tryGetQueryArgument with
  | some query =>
    let nl_or_nothing : String := if settings.one_line then "" else "\n"
    let indent_str : String := if settings.one_line then "" else spaces (4 * frame.indent)
    .seq [
      .text f.name, .text "(", .text nl_or_nothing,
      env.format query settings { frame with need_parens := false, indent := frame.indent + 1 },
      .text nl_or_nothing, .text indent_str, .text ")"]
  | none =>
    match formatAsOperator env f settings frame with
    | .returned out => out
    | .written out => .seq [out, finishFormatWithWindow env f settings frame]
    | .notWritten => formatGeneric env f settings frame

end ASTFunction

/-! ### A sample environment -/

/-- The text of a value in the sample environment. -/
def Field.sampleText : Field → String
  | .null => "NULL"
  | .uint64 value => toString value
  | .int64 value => toString value
  | .string value => "'" ++ value ++ "'"
  | .array _ => "[...]"
  | .tuple _ => "(...)"
  | .other _ => "?"

/-- The format of a node in the sample environment, for trees of depth below `depth`:
a literal is written as its value, an identifier as its name, a function by
`formatImplWithoutAlias`, and a list with commas between its elements, element
`i` with `list_element_index = i`. -/
def sampleEnvironment : Nat → FormatEnvironment Unit
  | 0 =>
    { format := fun _ _ _ => .text "...",
      formatList := fun _ _ _ => .text "...",
      backQuoteIfNeed := id,
      secretArguments := fun _ => {} }
  | depth + 1 =>
    let format : IAST → FormatSettings → FormatStateStacked → Formatted Unit :=
      fun node settings frame =>
        match node with
        | .ASTLiteral value => .text value.sampleText
        | .ASTIdentifier name => .text name
        | .ASTSubquery _ => .text "(SELECT 1)"
        | .ASTSelectWithUnionQuery _ => .text "SELECT 1"
        | .ASTSetQuery _ => .text "a = 1"
        | .ASTAsterisk => .text "*"
        | .other _ => .text "?"
        | .ASTFunction name arguments parameters window_definition alias_ kind nulls_action
            is_window_function window_name no_empty_args =>
          ASTFunction.formatImplWithoutAlias (sampleEnvironment depth)
            { name := name, arguments := arguments, parameters := parameters,
              window_definition := window_definition, alias_ := alias_, kind := kind,
              nulls_action := nulls_action, is_window_function := is_window_function,
              window_name := window_name, no_empty_args := no_empty_args }
            settings frame
    { format := format,
      formatList := fun children settings frame =>
        ASTFunction.formatChildren
          { format := format, formatList := fun _ _ _ => .nothing, backQuoteIfNeed := id,
            secretArguments := fun _ => {} }
          ", " true settings frame 0 children,
      backQuoteIfNeed := id,
      secretArguments := fun _ => {} }

/-- The sample function `NEGATE(1)`. -/
def ASTFunction.upperNegate : ASTFunction :=
  { name := "NEGATE", arguments := some [.ASTLiteral (.uint64 1)] }

/-- The sample function `negate(1)`. -/
def ASTFunction.lowerNegate : ASTFunction :=
  { name := "negate", arguments := some [.ASTLiteral (.uint64 1)] }

/-- The sample function `NEGATE(negate(1))`. -/
def ASTFunction.upperNegateOfNegate : ASTFunction :=
  { name := "NEGATE", arguments := some [ASTFunction.lowerNegate.toAST] }

/-! ### Words of the claims about formatting -/

/-- A node that is a function. -/
def IAST.isFunction (node : IAST) : Bool :=
  node.asFunction.isSome

/-- A node that is a literal of type `Tuple` or `Array`. -/
def IAST.isTupleOrArrayLiteral : IAST → Bool
  | .ASTLiteral (.tuple _) => true
  | .ASTLiteral (.array _) => true
  | _ => false

/-- The frame of a child inside an operator: that of the function, with
`expression_list_prepend_whitespace` cleared as the head of `formatImplWithoutAlias`
does, and with `need_parens` as given. -/
def FormatStateStacked.nested (frame : FormatStateStacked) (need_parens : Bool) :
    FormatStateStacked :=
  { frame with expression_list_prepend_whitespace := false, need_parens := need_parens }

/-- The sample function `array(1, tuple('a'))`. -/
def ASTFunction.sampleArray : ASTFunction :=
  { name := "array",
    arguments := some [.ASTLiteral (.uint64 1),
      ASTFunction.toAST { name := "tuple", arguments := some [.ASTLiteral (.string "a")] }] }

/-- A sample of the member `appendColumnName` of the other nodes: the text of a
literal in the sample environment. -/
def sampleColumnName : IAST → Except Exception String
  | .ASTLiteral value => .ok value.sampleText
  | _ => .ok "?"

/-- The left side of `->`: `()` for the function `tuple` of no argument, the argument
for the function `tuple` of one argument, and the node as it is otherwise. -/
def lambdaLeft {σ : Type} (env : FormatEnvironment σ) (first_argument : IAST)
    (settings : FormatSettings) (frame : FormatStateStacked) : Formatted σ :=
  match first_argument.asFunction with
  | some g =>
    if g.name = "tuple" then
      match g.arguments with
      | some [] => .text "()"
      | some [element] => env.format element settings frame
      | _ => env.format first_argument settings frame
    else env.format first_argument settings frame
  | none => env.format first_argument settings frame

/-- The sample function `in(x, 1)`. -/
def ASTFunction.sampleIn : ASTFunction :=
  { name := "in", arguments := some [.ASTIdentifier "x", .ASTLiteral (.uint64 1)] }

/-- The sample function `lambda(x, 1)`. -/
def ASTFunction.sampleLambda : ASTFunction :=
  { name := "lambda", arguments := some [.ASTIdentifier "x", .ASTLiteral (.uint64 1)] }

/-- The sample function `lambda(tuple(x), 1)`. -/
def ASTFunction.sampleLambdaTuple : ASTFunction :=
  { name := "lambda",
    arguments := some [ASTFunction.toAST
      { name := "tuple", arguments := some [.ASTIdentifier "x"] }, .ASTLiteral (.uint64 1)] }

/-! ### The atomic actions of the two threads -/

namespace PushingAsyncPipelineExecutor

/-- One atomic action of the bridge: a step of the worker thread, or one of the
atomic actions that the calls of the caller are made of. -/
inductive Atom where
  /-- a step of `threadFunction` -/
  | worker (ev : WorkerEvent)
  /-- the call `start()` -/
  | start
  /-- the body of `pushing_source->setData(chunk)` under the mutex -/
  | setData (chunk : Chunk)
  /-- the exchange `has_exception.exchange(false)` of `rethrowExceptionIfHas` -/
  | exchange
  /-- the assignment `finished = true` -/
  | setFinished
  /-- the call `pushing_source->finish()` -/
  | sourceFinish
  /-- the return of `data->thread.join()` -/
  | join
  /-- the first statement of `cancel()` -/
  | requestCancel
deriving DecidableEq, Repr

/-- The state after one atomic action; `none` when the action cannot be taken: a
`setData` whose wait condition is false, an exchange on a null `data`, a `join`
while the worker thread has not exited. -/
def atom (b : PushingAsyncPipelineExecutor) : Atom → Option PushingAsyncPipelineExecutor
  | .worker ev => some (b.threadFunctionStep ev)
  | .start => some b.start
  | .setData chunk =>
    (b.pushing_source.setData chunk).map fun r => { b with pushing_source := r.2 }
  | .exchange =>
    b.data.map fun d => { b with data := some d.rethrowExceptionIfHas.2 }
  | .setFinished => some { b with finished := true }
  | .sourceFinish => some { b with pushing_source := b.pushing_source.finish }
  | .join =>
    match b.data with
    | some d =>
      if d.thread = .running .exited then
        some { b with data := some { d with thread := .empty } }
      else none
    | none => none
  | .requestCancel => some b.requestCancel

/-- The state after a sequence of atomic actions, in any order that can be taken. -/
def atoms (b : PushingAsyncPipelineExecutor) :
    List Atom → Option PushingAsyncPipelineExecutor
  | [] => some b
  | a :: as => (b.atom a).bind fun b1 => atoms b1 as

/-- The state `x` is reached from `b` by atomic actions of the two threads. -/
def Linked (b x : PushingAsyncPipelineExecutor) : Prop :=
  ∃ as : List Atom, b.atoms as = some x

/-- The states that the two threads reach on a constructed bridge, also in the middle
of a call of the caller. -/
def AtomicReachable (b : PushingAsyncPipelineExecutor) : Prop :=
  Linked init b

/-- What holds after every sequence of atomic actions on a constructed bridge. -/
structure Sound (b : PushingAsyncPipelineExecutor) : Prop where
  unstarted : b.started = false → b.data = none
  started : b.started = true → ∃ d, b.data = some d ∧ d.source = true
  captured : ∀ d, b.data = some d → d.has_exception = true →
    d.thread ≠ .running .executing
  source_finished : ∀ d, b.data = some d →
    d.thread = .running .completing ∨ d.thread = .running .exited ∨ d.thread = .empty →
    b.pushing_source.is_finished = true
  is_finished : ∀ d, b.data = some d →
    d.thread = .running .exited ∨ d.thread = .empty →
    d.is_finished = true ∧ d.finish_event = true

/-- The worker has left the `try`/`catch` of `threadFunction` after `execute` ended
as `fin` says: the flag `has_exception` is set only if `execute` threw, and the
exception that `execute` threw is the stored one. -/
def LeftExecute (fin : ExecuteEnd) (b : PushingAsyncPipelineExecutor) : Prop :=
  b.started = true ∧
  ∃ d, b.data = some d ∧ d.thread ≠ .running .executing ∧
    (d.has_exception = true → ∃ e, fin = .throws e) ∧
    (∀ e, fin = .throws e → d.exception = some e)

/-- A sample state: the engine threw, the next `push` exchanged the flag and raised
the failure, and the worker thread then ran to the end of `threadFunction`. -/
def afterExchange : PushingAsyncPipelineExecutor :=
  ((init.start.runWorker [.throws Exception.sample]).push Chunk.one []).2.runWorker
    [.advance, .advance]

end PushingAsyncPipelineExecutor

/-! # Theorems -/

/-! ## The source: single calls -/

namespace PushingAsyncSource

theorem clean_init : Clean init := by
  intro _; rfl

theorem clean_call {s s1 : PushingAsyncSource} {c : Call}
    (hs : Clean s) (hc : s.call c = some s1) : Clean s1 := by
  cases c with
  | setData chunk =>
    simp only [call, setData, Option.map_eq_some'] at hc
    obtain ⟨r, hr, rfl⟩ := hc
    split at hr
    · split at hr
      · cases hr; exact hs
      · cases hr; intro h; simp at h
    · cases hr
  | generate =>
    simp only [call, generate, Option.map_eq_some'] at hc
    obtain ⟨r, hr, rfl⟩ := hc
    split at hr
    · cases hr; intro _; rfl
    · cases hr
  | finish =>
    simp only [call, finish, Option.some.injEq] at hc
    subst hc
    exact hs

theorem clean_calls {cs : List Call} {s s1 : PushingAsyncSource}
    (hs : Clean s) (hc : s.calls cs = some s1) : Clean s1 := by
  induction cs generalizing s with
  | nil =>
    simp only [calls, Option.some.injEq] at hc
    subst hc
    exact hs
  | cons c cs ih =>
    simp only [calls, Option.bind_eq_some] at hc
    obtain ⟨s2, h2, h3⟩ := hc
    exact ih (clean_call hs h2) h3

theorem clean_of_reachable {s : PushingAsyncSource} (h : Reachable s) : Clean s := by
  obtain ⟨cs, hcs⟩ := h
  exact clean_calls clean_init hcs

/-- C6: on a slot whose finished flag is set, with or without a pending batch,
`setData(b)` returns `false` and leaves the stored batch, `has_data` and the
finished flag as they were. -/
theorem setData_finished (s : PushingAsyncSource) (b : Chunk)
    (hfin : s.is_finished = true) :
    s.setData b = some (false, s) := by
  simp [setData, setDataReady, hfin]

/-- C6 at a finished slot that still holds a batch. -/
theorem setData_finished_witness :
    (PushingAsyncSource.mk Chunk.one true true).is_finished = true ∧
    (PushingAsyncSource.mk Chunk.one true true).setData Chunk.two
      = some (false, PushingAsyncSource.mk Chunk.one true true) :=
  ⟨rfl, setData_finished _ _ rfl⟩

/-- C7: on a slot that is not finished and holds no batch, `setData(b)` returns
`true` and the slot then stores `b` with `has_data` set and the finished flag
still clear; on a slot that holds a pending batch `setData` stores nothing: it
waits, or (finished) returns `false` with the slot unchanged. -/
theorem setData_stores (s : PushingAsyncSource) (b : Chunk) :
    (s.is_finished = false → s.has_data = false →
      s.setData b = some (true, { data := b, has_data := true, is_finished := false })) ∧
    (s.has_data = true →
      s.setData b = none ∨ s.setData b = some (false, s)) := by
  constructor
  · intro hfin hd
    simp [setData, setDataReady, hfin, hd]
  · intro hd
    cases hfin : s.is_finished
    · left; simp [setData, setDataReady, hfin, hd]
    · right; simp [setData, setDataReady, hfin]

/-- C7 at the empty slot and at a slot that holds a batch. -/
theorem setData_stores_witness :
    (init.is_finished = false ∧ init.has_data = false ∧
      init.setData Chunk.two = some (true, PushingAsyncSource.mk Chunk.two true false)) ∧
    ((PushingAsyncSource.mk Chunk.one true false).has_data = true ∧
      ((PushingAsyncSource.mk Chunk.one true false).setData Chunk.two = none ∨
       (PushingAsyncSource.mk Chunk.one true false).setData Chunk.two
         = some (false, PushingAsyncSource.mk Chunk.one true false))) :=
  ⟨⟨rfl, rfl, (setData_stores init Chunk.two).1 rfl rfl⟩,
   ⟨rfl, (setData_stores (PushingAsyncSource.mk Chunk.one true false) Chunk.two).2 rfl⟩⟩

/-- C8: on a reachable slot whose wait condition for `generate` holds,
`generate` returns the pending batch when `has_data` is set and the empty batch
when the slot is finished with nothing pending; afterwards `has_data` is clear,
the stored batch is empty and the finished flag is as before. -/
theorem generate_returns (s : PushingAsyncSource)
    (hreach : Reachable s) (hready : s.generateReady = true) :
    s.generate = some
      (if s.has_data then s.data else Chunk.empty,
       { data := Chunk.empty, has_data := false, is_finished := s.is_finished }) := by
  have hclean := clean_of_reachable hreach
  cases hd : s.has_data
  · simp [generate, hready, hclean hd]
  · simp [generate, hready]

/-- C8 at the slot reached by `setData` of a one-row batch followed by `finish`. -/
theorem generate_returns_witness :
    Reachable (PushingAsyncSource.mk Chunk.one true true) ∧
    (PushingAsyncSource.mk Chunk.one true true).generateReady = true ∧
    (PushingAsyncSource.mk Chunk.one true true).generate
      = some (if (PushingAsyncSource.mk Chunk.one true true).has_data
                then (PushingAsyncSource.mk Chunk.one true true).data else Chunk.empty,
              PushingAsyncSource.mk Chunk.empty false true) :=
  ⟨⟨[.setData Chunk.one, .finish], rfl⟩, rfl,
    generate_returns _ ⟨[.setData Chunk.one, .finish], rfl⟩ rfl⟩

end PushingAsyncSource


namespace Handoff

theorem inv_start (bs : List Chunk) : Inv bs (start bs) := by
  refine ⟨⟨[], 0, ?_, ?_, ?_⟩, ?_, rfl, ?_⟩
  · rfl
  · simp [start, PushingAsyncSource.inSlot]
  · intro h; omega
  · intro _; rfl
  · intro h; simp [start] at h

theorem inv_step {bs : List Chunk} {h h1 : Handoff} {t : Turn}
    (hi : Inv bs h) (hs : h.step t = some h1) : Inv bs h1 := by
  obtain ⟨⟨pre, m, hgen, hbs, hm⟩, hclean, hfin, hdone⟩ := hi
  obtain ⟨⟨data, has_data, fin⟩, pending, done, gen⟩ := h
  simp only at hgen hbs hm hfin hdone
  simp only [PushingAsyncSource.Clean] at hclean
  subst hfin
  cases t with
  | producer =>
    cases pending with
    | nil =>
      cases fin
      · simp only [step, PushingAsyncSource.finish] at hs
        simp at hs
        subst hs
        refine ⟨⟨pre, m, hgen, ?_, ?_⟩, hclean, rfl, fun _ => rfl⟩
        · simpa [PushingAsyncSource.inSlot] using hbs
        · intro h0
          have := hm h0
          simp at this
      · simp [step] at hs
    | cons b rest =>
      cases fin
      · cases has_data
        · simp [step, PushingAsyncSource.setData, PushingAsyncSource.setDataReady] at hs
          subst hs
          have hm0 : m = 0 := by
            by_contra hne
            have := hm (Nat.pos_of_ne_zero hne)
            simp at this
          subst hm0
          refine ⟨⟨pre, 0, hgen, ?_, ?_⟩, ?_, rfl, ?_⟩
          · simpa [PushingAsyncSource.inSlot] using hbs
          · intro h0; omega
          · intro h0; simp at h0
          · intro h0; simp at h0
        · simp [step, PushingAsyncSource.setData, PushingAsyncSource.setDataReady] at hs
      · have := hdone rfl
        simp at this
  | consumer =>
    cases has_data
    · cases fin
      · simp [step, PushingAsyncSource.generate, PushingAsyncSource.generateReady] at hs
      · simp [step, PushingAsyncSource.generate, PushingAsyncSource.generateReady] at hs
        subst hs
        have hp := hdone rfl
        simp only at hp
        subst hp
        have hd := hclean rfl
        simp only at hd
        subst hd
        refine ⟨⟨pre, m + 1, ?_, ?_, ?_⟩, fun _ => rfl, rfl, fun _ => rfl⟩
        · simp [hgen, List.replicate_succ']
        · simpa [PushingAsyncSource.inSlot] using hbs
        · intro _; exact ⟨rfl, rfl, rfl⟩
    · simp [step, PushingAsyncSource.generate, PushingAsyncSource.generateReady] at hs
      subst hs
      have hm0 : m = 0 := by
        by_contra hne
        have := hm (Nat.pos_of_ne_zero hne)
        simp at this
      subst hm0
      refine ⟨⟨pre ++ [data], 0, ?_, ?_, ?_⟩, fun _ => rfl, rfl, hdone⟩
      · simp [hgen]
      · simpa [PushingAsyncSource.inSlot] using hbs
      · intro h0; omega

theorem inv_run {bs : List Chunk} {sched : List Turn} {h h1 : Handoff}
    (hi : Inv bs h) (hr : h.run sched = some h1) : Inv bs h1 := by
  induction sched generalizing h with
  | nil =>
    simp only [run, Option.some.injEq] at hr
    subst hr
    exact hi
  | cons t ts ih =>
    simp only [run, Option.bind_eq_some] at hr
    obtain ⟨h2, h3, h4⟩ := hr
    exact ih (inv_step hi h3) h4

theorem progress_step {h h1 : Handoff} {t : Turn} (hs : h.step t = some h1) :
    h1.progress + h.pending.length = h.progress + h1.pending.length + 1 := by
  obtain ⟨src, pending, done, gen⟩ := h
  cases t with
  | producer =>
    cases pending with
    | nil =>
      cases done
      · simp [step] at hs
        subst hs
        simp [progress]
      · simp [step] at hs
    | cons b rest =>
      simp only [step, Option.map_eq_some'] at hs
      obtain ⟨r, _, rfl⟩ := hs
      simp [progress]
      omega
  | consumer =>
    simp only [step, Option.map_eq_some'] at hs
    obtain ⟨r, _, rfl⟩ := hs
    simp [progress]
    omega

theorem progress_run {sched : List Turn} {h h1 : Handoff} (hr : h.run sched = some h1) :
    h1.progress + h.pending.length = h.progress + h1.pending.length + sched.length := by
  induction sched generalizing h with
  | nil =>
    simp only [run, Option.some.injEq] at hr
    subst hr
    simp
  | cons t ts ih =>
    simp only [run, Option.bind_eq_some] at hr
    obtain ⟨h2, h3, h4⟩ := hr
    have e1 := progress_step h3
    have e2 := ih h4
    simp only [List.length_cons]
    omega

theorem inv_enabled {bs : List Chunk} {h : Handoff} (hi : Inv bs h) :
    (h.step .producer).isSome = true ∨ (h.step .consumer).isSome = true := by
  obtain ⟨_, _, hfin, hdone⟩ := hi
  obtain ⟨⟨data, has_data, fin⟩, pending, done, gen⟩ := h
  simp only at hfin hdone
  subst hfin
  cases has_data
  · cases fin
    · left
      cases pending <;>
        simp [step, PushingAsyncSource.setData, PushingAsyncSource.setDataReady]
    · right
      simp [step, PushingAsyncSource.generate, PushingAsyncSource.generateReady]
  · right
    simp [step, PushingAsyncSource.generate, PushingAsyncSource.generateReady]

/-- C1: in every interleaving of a producer doing `setData(b1)`, ...,
`setData(bn)`, `finish()` with a consumer doing `generate()` repeatedly, each
call taken only when its wait condition holds, what `generate` has returned is
always a prefix of `b1, ..., bn, empty, empty, ...`; an empty end-of-input
batch is returned only after the producer finished; some thread can always
proceed; and once `2n + 2` calls were made, `b1..bn` and the end-of-input
batch have all been returned. -/
theorem run_delivers (bs : List Chunk) (sched : List Turn) (h : Handoff)
    (hrun : (start bs).run sched = some h) :
    h.generated <+: bs ++ List.replicate h.generated.length Chunk.empty ∧
    (bs.length < h.generated.length → h.producer_done = true) ∧
    ((h.step .producer).isSome = true ∨ (h.step .consumer).isSome = true) ∧
    (2 * bs.length + 2 ≤ sched.length → bs ++ [Chunk.empty] <+: h.generated) := by
  have hi := inv_run (inv_start bs) hrun
  have hp := progress_run hrun
  obtain ⟨pre, m, hgen, hbs, hm⟩ := hi.split
  have key : (m = 0 ∧ h.generated = pre ∧ pre.length ≤ bs.length) ∨
      (0 < m ∧ h.generated = bs ++ List.replicate m Chunk.empty ∧
        h.producer_done = true) := by
    rcases Nat.eq_zero_or_pos m with h0 | h0
    · left
      subst h0
      refine ⟨rfl, by simpa using hgen, ?_⟩
      rw [hbs]
      simp only [List.length_append]
      omega
    · right
      obtain ⟨h1, h2, h3⟩ := hm h0
      have : bs = pre := by
        simpa [PushingAsyncSource.inSlot, h1, h2] using hbs
      subst this
      exact ⟨h0, hgen, h3⟩
  refine ⟨?_, ?_, inv_enabled hi, ?_⟩
  · rcases key with ⟨_, hg, _⟩ | ⟨_, hg, _⟩
    · rw [hg, hbs, List.append_assoc, List.append_assoc]
      exact List.prefix_append _ _
    · rw [hg]
      simp only [List.length_append, List.length_replicate]
      rw [Nat.add_comm, List.replicate_add, ← List.append_assoc]
      exact List.prefix_append _ _
  · intro hlt
    rcases key with ⟨_, hg, hle⟩ | ⟨_, _, hd⟩
    · rw [hg] at hlt; omega
    · exact hd
  · intro hlen
    have hstart : (start bs).progress = 0 ∧ (start bs).pending.length = bs.length := by
      simp [start, progress]
    rcases key with ⟨_, hg, hle⟩ | ⟨h0, hg, _⟩
    · exfalso
      have hpl : h.pending.length ≤ bs.length := by
        rw [hbs]
        simp only [List.length_append]
        omega
      have hgl : h.generated.length = pre.length := by rw [hg]
      have hpr : h.progress ≤ h.generated.length + 1 := by
        simp only [progress]
        split <;> omega
      have hcount : h.progress + h.pending.length + pre.length ≤ bs.length + 1 := by
        have hsl : (PushingAsyncSource.inSlot h.source).length ≤ 1 := by
          simp only [PushingAsyncSource.inSlot]
          split <;> simp
        have hbl : bs.length
            = pre.length + (PushingAsyncSource.inSlot h.source).length + h.pending.length := by
          conv_lhs => rw [hbs]
          simp only [List.length_append]
        omega
      omega
    · rw [hg]
      obtain ⟨k, rfl⟩ : ∃ k, m = k + 1 := ⟨m - 1, by omega⟩
      rw [List.replicate_succ]
      exact (List.prefix_append_right_inj bs).2
        ⟨List.replicate k Chunk.empty, rfl⟩

/-- C1 at the two sample batches, with `finish` called while the second batch is
still in the slot. -/
theorem run_delivers_witness :
    (start [Chunk.one, Chunk.two]).run
        [.producer, .consumer, .producer, .producer, .consumer, .consumer]
      = some (Handoff.mk (PushingAsyncSource.mk Chunk.empty false true) [] true
          [Chunk.one, Chunk.two, Chunk.empty]) ∧
    [Chunk.one, Chunk.two] ++ [Chunk.empty]
      <+: (Handoff.mk (PushingAsyncSource.mk Chunk.empty false true) [] true
          [Chunk.one, Chunk.two, Chunk.empty]).generated :=
  ⟨rfl, (run_delivers [Chunk.one, Chunk.two]
      [.producer, .consumer, .producer, .producer, .consumer, .consumer] _ rfl).2.2.2
      (by decide)⟩

end Handoff

namespace PushingAsyncPipelineExecutor

theorem runWorker_nil (b : PushingAsyncPipelineExecutor) : b.runWorker [] = b := rfl

theorem runWorker_cons (b : PushingAsyncPipelineExecutor) (ev : WorkerEvent) (w : Window) :
    b.runWorker (ev :: w) = (b.threadFunctionStep ev).runWorker w := rfl

theorem wf_init : WF init := by
  refine ⟨?_, ?_, ?_, ?_, ?_, ?_, ?_, ?_⟩ <;> simp [init, PushingAsyncSource.Clean]

theorem wf_step {b : PushingAsyncPipelineExecutor} (ev : WorkerEvent) (h : WF b) :
    WF (b.threadFunctionStep ev) := by
  obtain ⟨⟨sd, shd, sfin⟩, started, finished, data⟩ := b
  cases data with
  | none => simpa [threadFunctionStep] using h
  | some d =>
    obtain ⟨ex, exc, so, isf, hasx, th, fe⟩ := d
    obtain ⟨h1, h2, h3, h4, h5, h6, h7, h8⟩ := h
    simp only [PushingAsyncSource.Clean] at h3
    simp only [Option.some.injEq, forall_eq', exists_eq_left', reduceCtorEq, false_and,
      imp_false, Bool.not_eq_false] at h1 h2 h4 h5 h6 h7 h8
    subst h1
    simp only [true_implies] at h2
    obtain ⟨h2, rfl⟩ := h2
    cases th with
    | empty =>
      refine ⟨?_, ?_, ?_, ?_, ?_, ?_, ?_, ?_⟩ <;>
        simp_all [threadFunctionStep, PushingAsyncSource.Clean]
    | running pc =>
      cases pc with
      | executing =>
        simp at h5 h6 h7 h8
        cases ev with
        | pull =>
          cases shd <;> cases sfin <;>
          simp only [threadFunctionStep, PushingAsyncSource.generate,
            PushingAsyncSource.generateReady] <;>
          refine ⟨?_, ?_, ?_, ?_, ?_, ?_, ?_, ?_⟩ <;>
                simp_all [PushingAsyncSource.Clean]
        | _ =>
          simp only [threadFunctionStep]
          refine ⟨?_, ?_, ?_, ?_, ?_, ?_, ?_, ?_⟩ <;>
                simp_all [PushingAsyncSource.Clean]
      | finishing =>
        simp at h5 h6 h7 h8
        cases ev <;>
          simp only [threadFunctionStep, PushingAsyncSource.finish] <;>
          refine ⟨?_, ?_, ?_, ?_, ?_, ?_, ?_, ?_⟩ <;>
                simp_all [PushingAsyncSource.Clean]
      | completing =>
        simp at h5 h6 h7 h8
        cases ev <;>
          simp only [threadFunctionStep] <;>
          refine ⟨?_, ?_, ?_, ?_, ?_, ?_, ?_, ?_⟩ <;>
                simp_all [PushingAsyncSource.Clean]
      | exited =>
        simp at h5 h6 h7 h8
        cases ev <;>
          simp only [threadFunctionStep] <;>
          refine ⟨?_, ?_, ?_, ?_, ?_, ?_, ?_, ?_⟩ <;>
                simp_all [PushingAsyncSource.Clean]

theorem wf_runWorker {b : PushingAsyncPipelineExecutor} (w : Window) (h : WF b) :
    WF (b.runWorker w) := by
  induction w generalizing b with
  | nil => exact h
  | cons ev w ih => exact ih (wf_step ev h)


theorem step_setFinished (b : PushingAsyncPipelineExecutor) (f : Bool) (ev : WorkerEvent) :
    threadFunctionStep { b with finished := f } ev
      = { b.threadFunctionStep ev with finished := f } := by
  obtain ⟨src, started, finished, data⟩ := b
  cases data with
  | none => rfl
  | some d =>
    obtain ⟨ex, exc, so, isf, hasx, th, fe⟩ := d
    cases th with
    | empty => rfl
    | running pc =>
      cases pc <;> cases ev <;> first | rfl | (simp only [threadFunctionStep]; split <;> rfl)

theorem runWorker_setFinished (b : PushingAsyncPipelineExecutor) (f : Bool) (w : Window) :
    runWorker { b with finished := f } w = { b.runWorker w with finished := f } := by
  induction w generalizing b with
  | nil => rfl
  | cons ev w ih =>
    simp only [runWorker_cons, step_setFinished]
    exact ih _

theorem step_started (b : PushingAsyncPipelineExecutor) (ev : WorkerEvent) :
    (b.threadFunctionStep ev).started = b.started := by
  unfold threadFunctionStep
  repeat' split
  all_goals rfl

theorem step_finished (b : PushingAsyncPipelineExecutor) (ev : WorkerEvent) :
    (b.threadFunctionStep ev).finished = b.finished := by
  unfold threadFunctionStep
  repeat' split
  all_goals rfl

theorem step_source_finished (b : PushingAsyncPipelineExecutor) (ev : WorkerEvent)
    (h : b.pushing_source.is_finished = true) :
    (b.threadFunctionStep ev).pushing_source.is_finished = true := by
  unfold threadFunctionStep
  repeat' split
  all_goals first
    | exact h
    | (rename_i heq; simp only [PushingAsyncSource.generate] at heq; split at heq
       · cases heq; exact h
       · cases heq)
    | rfl


theorem runWorker_started (b : PushingAsyncPipelineExecutor) (w : Window) :
    (b.runWorker w).started = b.started := by
  induction w generalizing b with
  | nil => rfl
  | cons ev w ih => rw [runWorker_cons, ih, step_started]

theorem runWorker_finished (b : PushingAsyncPipelineExecutor) (w : Window) :
    (b.runWorker w).finished = b.finished := by
  induction w generalizing b with
  | nil => rfl
  | cons ev w ih => rw [runWorker_cons, ih, step_finished]

theorem runWorker_source_finished (b : PushingAsyncPipelineExecutor) (w : Window)
    (h : b.pushing_source.is_finished = true) :
    (b.runWorker w).pushing_source.is_finished = true := by
  induction w generalizing b with
  | nil => exact h
  | cons ev w ih => exact ih _ (step_source_finished b ev h)

theorem wf_start {b : PushingAsyncPipelineExecutor} (h : WF b) : WF b.start := by
  obtain ⟨⟨sd, shd, sfin⟩, started, finished, data⟩ := b
  obtain ⟨h1, h2, h3, h4, h5, h6, h7, h8⟩ := h
  cases started
  · simp only [true_implies] at h1
    obtain ⟨rfl, h1⟩ := h1
    subst h1
    simp only [start]
    refine ⟨?_, ?_, ?_, ?_, ?_, ?_, ?_, ?_⟩ <;> simp_all [PushingAsyncSource.Clean]
  · exact ⟨h1, h2, h3, h4, h5, h6, h7, h8⟩

theorem wf_pushEnter {b : PushingAsyncPipelineExecutor} (w : Window) (h : WF b) :
    WF (b.pushEnter w) := by
  unfold pushEnter
  split
  · exact wf_runWorker w (wf_start h)
  · exact wf_runWorker w h

theorem wf_setData {b : PushingAsyncPipelineExecutor} {chunk : Chunk} {p : Bool}
    {src : PushingAsyncSource} (h : WF b) (hst : b.started = true)
    (hs : b.pushing_source.setData chunk = some (p, src)) :
    WF { b with pushing_source := src } := by
  obtain ⟨⟨sd, shd, sfin⟩, started, finished, data⟩ := b
  obtain ⟨h1, h2, h3, h4, h5, h6, h7, h8⟩ := h
  simp only [PushingAsyncSource.setData, PushingAsyncSource.setDataReady] at hs
  cases sfin
  · cases shd
    · simp at hs
      obtain ⟨rfl, rfl⟩ := hs
      refine ⟨?_, ?_, ?_, ?_, ?_, ?_, ?_, ?_⟩ <;> simp_all [PushingAsyncSource.Clean]
    · simp at hs
  · simp at hs
    obtain ⟨rfl, rfl⟩ := hs
    exact ⟨h1, h2, h3, h4, h5, h6, h7, h8⟩


theorem pushCheck_none {b : PushingAsyncPipelineExecutor} (p : Bool) (w : Window)
    (hd : b.data = none) : pushCheck p b w = (.undefined, b) := by
  simp [pushCheck, hd]

theorem pushCheck_flag {b : PushingAsyncPipelineExecutor} {d : Data} {e : Exception}
    (p : Bool) (w : Window)
    (hd : b.data = some d) (hf : d.has_exception = true) (he : d.exception = some e) :
    pushCheck p b w = (.raised e, { b with data := some { d with has_exception := false } }) := by
  simp [pushCheck, hd, Data.rethrowExceptionIfHas, hf, he]

theorem pushCheck_flag_null {b : PushingAsyncPipelineExecutor} {d : Data}
    (p : Bool) (w : Window)
    (hd : b.data = some d) (hf : d.has_exception = true) (he : d.exception = none) :
    pushCheck p b w = (.undefined, { b with data := some { d with has_exception := false } }) := by
  simp [pushCheck, hd, Data.rethrowExceptionIfHas, hf, he]

theorem pushCheck_pushed {b : PushingAsyncPipelineExecutor} {d : Data} (w : Window)
    (hd : b.data = some d) (hf : d.has_exception = false) :
    pushCheck true b w = (.returned, b) := by
  obtain ⟨src, started, finished, data⟩ := b
  simp only at hd
  subst hd
  simp [pushCheck, Data.rethrowExceptionIfHas, hf]

theorem pushCheck_rejected {b : PushingAsyncPipelineExecutor} {d : Data} (w : Window)
    (hd : b.data = some d) (hf : d.has_exception = false) :
    pushCheck false b w =
      match (b.runWorker w).data.bind fun d3 => d3.executor with
      | some ex => (.raised (throwOnExecutionStatus ex.getExecutionStatus), b.runWorker w)
      | none => (.undefined, b.runWorker w) := by
  obtain ⟨src, started, finished, data⟩ := b
  simp only at hd
  subst hd
  simp [pushCheck, Data.rethrowExceptionIfHas, hf]


theorem wf_clearFlag {b : PushingAsyncPipelineExecutor} {d : Data} (h : WF b)
    (hd : b.data = some d) :
    WF { b with data := some { d with has_exception := false } } := by
  obtain ⟨src, started, finished, data⟩ := b
  simp only at hd
  subst hd
  obtain ⟨h1, h2, h3, h4, h5, h6, h7, h8⟩ := h
  refine ⟨?_, ?_, ?_, ?_, ?_, ?_, ?_, ?_⟩ <;> simp_all

theorem wf_pushCheck {b : PushingAsyncPipelineExecutor} (p : Bool) (w : Window)
    (h : WF b) : WF (pushCheck p b w).2 := by
  cases hd : b.data with
  | none => rw [pushCheck_none p w hd]; exact h
  | some d =>
    cases hf : d.has_exception with
    | false =>
      cases p with
      | true => rw [pushCheck_pushed w hd hf]; exact h
      | false =>
        rw [pushCheck_rejected w hd hf]
        split <;> exact wf_runWorker w h
    | true =>
      cases he : d.exception with
      | none => rw [pushCheck_flag_null p w hd hf he]; exact wf_clearFlag h hd
      | some e => rw [pushCheck_flag p w hd hf he]; exact wf_clearFlag h hd

theorem pushEnter_started (b : PushingAsyncPipelineExecutor) (w : Window) :
    (b.pushEnter w).started = true := by
  unfold pushEnter
  rw [runWorker_started]
  cases hs : b.started <;> simp [start, hs]

theorem wf_push {b : PushingAsyncPipelineExecutor} (chunk : Chunk) (sched : Schedule)
    (h : WF b) : WF (b.push chunk sched).2 := by
  unfold push
  simp only
  split
  · exact wf_pushEnter _ h
  · rename_i p src hs
    exact wf_pushCheck _ _
      (wf_runWorker _ (wf_setData (wf_pushEnter _ h) (pushEnter_started _ _) hs))

theorem wf_source_finish {b : PushingAsyncPipelineExecutor} (h : WF b) :
    WF { b with pushing_source := b.pushing_source.finish } := by
  obtain ⟨⟨sd, shd, sfin⟩, started, finished, data⟩ := b
  obtain ⟨h1, h2, h3, h4, h5, h6, h7, h8⟩ := h
  refine ⟨?_, ?_, ?_, ?_, ?_, ?_, ?_, ?_⟩ <;>
    simp_all [PushingAsyncSource.Clean, PushingAsyncSource.finish]


theorem finish_of_finished {b : PushingAsyncPipelineExecutor} (sched : Schedule)
    (hf : b.finished = true) : b.finish sched = (.returned, b) := by
  simp [finish, hf]

theorem finishEnter_eq (b : PushingAsyncPipelineExecutor) (sched : Schedule) :
    b.finishEnter sched =
      { runWorker { b.runWorker (sched.getD 0 []) with
          pushing_source := (b.runWorker (sched.getD 0 [])).pushing_source.finish }
          (sched.getD 1 []) with finished := true } := by
  simp only [finishEnter, runWorker_setFinished]
  exact runWorker_setFinished
    { b.runWorker (sched.getD 0 []) with
      pushing_source := (b.runWorker (sched.getD 0 [])).pushing_source.finish } true _

theorem finishEnter_finished (b : PushingAsyncPipelineExecutor) (sched : Schedule) :
    (b.finishEnter sched).finished = true := by
  rw [finishEnter_eq]

theorem finishEnter_source_finished (b : PushingAsyncPipelineExecutor) (sched : Schedule) :
    (b.finishEnter sched).pushing_source.is_finished = true := by
  rw [finishEnter_eq]
  exact runWorker_source_finished _ _ rfl

theorem wf_setFinished {b : PushingAsyncPipelineExecutor} (h : WF b)
    (hs : b.pushing_source.is_finished = true)
    (hd : ∀ d, b.data = some d → d.thread = .running .exited ∨ d.thread = .empty) :
    WF { b with finished := true } := by
  obtain ⟨h1, h2, h3, h4, h5, h6, h7, h8⟩ := h
  exact ⟨h1, h2, h3, fun _ => hs, h5, h6, h7, fun d h _ _ => hd d h⟩

theorem wf_join {b : PushingAsyncPipelineExecutor} {d : Data} (h : WF b)
    (hd : b.data = some d)
    (ht : d.thread = .running .exited ∨ d.thread = .empty) :
    WF { b with data := some { d with thread := .empty } } := by
  obtain ⟨src, started, finished, data⟩ := b
  simp only at hd
  subst hd
  obtain ⟨h1, h2, h3, h4, h5, h6, h7, h8⟩ := h
  refine ⟨?_, ?_, ?_, ?_, ?_, ?_, ?_, ?_⟩ <;> simp_all

theorem wf_rethrow {b : PushingAsyncPipelineExecutor} {d : Data} (h : WF b)
    (hd : b.data = some d) :
    WF { b with data := some d.rethrowExceptionIfHas.2 } := by
  unfold Data.rethrowExceptionIfHas
  split
  · split <;> exact wf_clearFlag h hd
  · obtain ⟨src, started, finished, data⟩ := b
    simp only at hd
    subst hd
    exact h

theorem rethrow_thread (d : Data) :
    d.rethrowExceptionIfHas.2.thread = d.thread := by
  unfold Data.rethrowExceptionIfHas
  split
  · split <;> rfl
  · rfl

theorem wf_finish_tail {y : PushingAsyncPipelineExecutor} {d : Data} (hy : WF y)
    (hys : y.pushing_source.is_finished = true) (hd : y.data = some d)
    (ht : d.thread = .running .exited ∨ d.thread = .empty) :
    WF { y with finished := true,
                data := some (Data.rethrowExceptionIfHas { d with thread := .empty }).2 } := by
  have hz := wf_rethrow (wf_join hy hd ht) rfl
  refine wf_setFinished hz hys ?_
  intro d1 hd1
  simp only [Option.some.injEq] at hd1
  subst hd1
  right
  rw [rethrow_thread]

theorem wf_finish {b : PushingAsyncPipelineExecutor} (sched : Schedule) (h : WF b)
    (hc : (b.finish sched).1.completed = true) : WF (b.finish sched).2 := by
  cases hf : b.finished with
  | true => rw [finish_of_finished sched hf]; exact h
  | false =>
    have hy : WF (runWorker { b.runWorker (sched.getD 0 []) with
        pushing_source := (b.runWorker (sched.getD 0 [])).pushing_source.finish }
        (sched.getD 1 [])) :=
      wf_runWorker _ (wf_source_finish (wf_runWorker _ h))
    have hys : (runWorker { b.runWorker (sched.getD 0 []) with
        pushing_source := (b.runWorker (sched.getD 0 [])).pushing_source.finish }
        (sched.getD 1 [])).pushing_source.is_finished = true :=
      runWorker_source_finished _ _ rfl
    simp only [finish, hf, Bool.false_eq_true, if_false, finishEnter_eq] at hc ⊢
    generalize runWorker { b.runWorker (sched.getD 0 []) with
        pushing_source := (b.runWorker (sched.getD 0 [])).pushing_source.finish }
        (sched.getD 1 []) = y at hy hys hc ⊢
    obtain ⟨ysrc, yst, yfin, ydata⟩ := y
    cases ydata with
    | none =>
      exact wf_setFinished hy hys (by simp)
    | some d =>
      obtain ⟨ex, exc, so, isf, hasx, th, fe⟩ := d
      cases th with
      | empty =>
        exact wf_finish_tail hy hys rfl (Or.inr rfl)
      | running pc =>
        cases pc with
        | exited => exact wf_finish_tail hy hys rfl (Or.inl rfl)
        | executing => simp [Outcome.completed] at hc
        | finishing => simp [Outcome.completed] at hc
        | completing => simp [Outcome.completed] at hc

theorem wf_requestCancel {b : PushingAsyncPipelineExecutor} (h : WF b) :
    WF b.requestCancel := by
  obtain ⟨src, started, finished, data⟩ := b
  cases data with
  | none => exact h
  | some d =>
    obtain ⟨ex, exc, so, isf, hasx, th, fe⟩ := d
    obtain ⟨h1, h2, h3, h4, h5, h6, h7, h8⟩ := h
    cases isf
    · cases ex with
      | none => exact ⟨h1, h2, h3, h4, h5, h6, h7, h8⟩
      | some e =>
        simp only [requestCancel]
        refine ⟨?_, ?_, ?_, ?_, ?_, ?_, ?_, ?_⟩ <;> simp_all
    · exact ⟨h1, h2, h3, h4, h5, h6, h7, h8⟩

theorem wf_cancel {b : PushingAsyncPipelineExecutor} (sched : Schedule) (h : WF b)
    (hc : (b.cancel sched).1.completed = true) : WF (b.cancel sched).2 :=
  wf_finish _ (wf_requestCancel (wf_runWorker _ h)) hc

theorem wf_call {b : PushingAsyncPipelineExecutor} (c : Call) (sched : Schedule) (h : WF b)
    (hc : (b.call c sched).1.completed = true) : WF (b.call c sched).2 := by
  cases c with
  | start => exact wf_start h
  | push chunk => exact wf_push chunk sched h
  | finish => exact wf_finish sched h hc
  | cancel => exact wf_cancel sched h hc

theorem wf_act {b b1 : PushingAsyncPipelineExecutor} {a : Action} (h : WF b)
    (ha : b.act a = some b1) : WF b1 := by
  cases a with
  | call c sched =>
    simp only [act] at ha
    split at ha
    · rename_i hc
      cases ha
      exact wf_call c sched h hc
    · cases ha
  | worker w =>
    simp only [act, Option.some.injEq] at ha
    subst ha
    exact wf_runWorker w h

theorem wf_session {as : List Action} {b b1 : PushingAsyncPipelineExecutor} (h : WF b)
    (hs : b.session as = some b1) : WF b1 := by
  induction as generalizing b with
  | nil =>
    simp only [session, Option.some.injEq] at hs
    subst hs
    exact h
  | cons a as ih =>
    simp only [session, Option.bind_eq_some] at hs
    obtain ⟨b2, h2, h3⟩ := hs
    exact ih (wf_act h h2) h3

theorem wf_of_reachable {b : PushingAsyncPipelineExecutor} (h : Reachable b) : WF b := by
  obtain ⟨as, has⟩ := h
  exact wf_session wf_init has

theorem captured_step {b : PushingAsyncPipelineExecutor} {e : Exception} (ev : WorkerEvent)
    (h : Captured b e) : Captured (b.threadFunctionStep ev) e := by
  obtain ⟨src, started, finished, data⟩ := b
  obtain ⟨hs, d, hd, hf, he, ht⟩ := h
  simp only at hd hs
  subst hd hs
  obtain ⟨ex, exc, so, isf, hasx, th, fe⟩ := d
  simp only at hf he ht
  subst hf he
  cases th with
  | empty => exact ⟨rfl, _, rfl, rfl, rfl, ht⟩
  | running pc =>
    cases pc with
    | executing => exact absurd rfl ht
    | finishing =>
      cases ev <;> exact ⟨rfl, _, rfl, rfl, rfl, by simp⟩
    | completing =>
      cases ev <;> exact ⟨rfl, _, rfl, rfl, rfl, by simp⟩
    | exited =>
      cases ev <;> exact ⟨rfl, _, rfl, rfl, rfl, by simp⟩

theorem captured_runWorker {b : PushingAsyncPipelineExecutor} {e : Exception} (w : Window)
    (h : Captured b e) : Captured (b.runWorker w) e := by
  induction w generalizing b with
  | nil => exact h
  | cons ev w ih => exact ih (captured_step ev h)

theorem captured_setSource {b : PushingAsyncPipelineExecutor} {e : Exception}
    (src : PushingAsyncSource) (h : Captured b e) :
    Captured { b with pushing_source := src } e := h

theorem pushEnter_of_started {b : PushingAsyncPipelineExecutor} (w : Window)
    (h : b.started = true) : b.pushEnter w = b.runWorker w := by
  simp [pushEnter, h]

theorem setData_ready {s : PushingAsyncSource} (chunk : Chunk)
    (h : s.setDataReady = true) :
    s.setData chunk = some (!s.is_finished,
      if s.is_finished then s else { s with data := chunk, has_data := true }) := by
  cases hf : s.is_finished <;> simp [PushingAsyncSource.setData, h, hf]

theorem setData_of_finished {s : PushingAsyncSource} (chunk : Chunk)
    (h : s.is_finished = true) : s.setData chunk = some (false, s) := by
  simp [PushingAsyncSource.setData, PushingAsyncSource.setDataReady, h]

theorem setData_not_ready {s : PushingAsyncSource} (chunk : Chunk)
    (h : s.setDataReady = false) : s.setData chunk = none := by
  simp [PushingAsyncSource.setData, h]

theorem ready_of_source_finished {s : PushingAsyncSource} (h : s.is_finished = true) :
    s.setDataReady = true := by
  simp [PushingAsyncSource.setDataReady, h]

theorem captured_released {b : PushingAsyncPipelineExecutor} {e : Exception} (w : Window)
    (hw : WF b) (hc : Captured b e) (ha : WorkerEvent.advance ∈ w) :
    (b.runWorker w).pushing_source.is_finished = true := by
  induction w generalizing b with
  | nil => simp at ha
  | cons ev w ih =>
    rw [runWorker_cons]
    cases hfin : b.pushing_source.is_finished with
    | true => exact runWorker_source_finished _ _ (step_source_finished _ _ hfin)
    | false =>
      obtain ⟨hs, d, hd, hf, he, ht⟩ := hc
      obtain ⟨d1, hd1, _, hso⟩ := hw.started hs
      rw [hd] at hd1
      cases hd1
      have hsf := hw.source_finished d hd
      rw [hfin] at hsf
      obtain ⟨src, started, finished, data⟩ := b
      simp only at hd hs hfin
      subst hd
      obtain ⟨ex, exc, so, isf, hasx, th, fe⟩ := d
      simp only at hf he ht hso hsf
      subst hso
      cases th with
      | empty => simp at hsf
      | running pc =>
        cases pc with
        | executing => exact absurd rfl ht
        | completing => simp at hsf
        | exited => simp at hsf
        | finishing =>
          cases ev with
          | advance =>
            exact runWorker_source_finished _ _ rfl
          | pull =>
            exact ih hw ⟨hs, _, rfl, hf, he, ht⟩ (by simpa using ha)
          | status st =>
            exact ih hw ⟨hs, _, rfl, hf, he, ht⟩ (by simpa using ha)
          | returns =>
            exact ih hw ⟨hs, _, rfl, hf, he, ht⟩ (by simpa using ha)
          | throws e1 =>
            exact ih hw ⟨hs, _, rfl, hf, he, ht⟩ (by simpa using ha)

/-- C2: when the worker has captured an error `e` that no call has consumed,
`push` raises `e` as soon as `setData` returns, whether `setData` accepted the
batch or not and whatever the status of the engine is, and the flag is clear
afterwards; `push` waits only as long as the slot is full and not finished, and
the worker's next step ends that wait.  At the exchange of the flag, a set flag
always gives the stored error and a clear flag with an accepted batch gives a
normal return, so the status decides the error only when the flag is clear and
`setData` returned `false`. -/
theorem push_raises_captured (b : PushingAsyncPipelineExecutor) (chunk : Chunk)
    (sched : Schedule) (e : Exception) (hc : Captured b e) :
    ((b.pushEnter (sched.getD 0 [])).pushing_source.setDataReady = true →
      (b.push chunk sched).1 = .raised e ∧
      ∃ d, (b.push chunk sched).2.data = some d ∧ d.has_exception = false) ∧
    ((b.pushEnter (sched.getD 0 [])).pushing_source.setDataReady = false →
      (b.push chunk sched).1 = .blocked) ∧
    (WF b → WorkerEvent.advance ∈ sched.getD 0 [] →
      (b.pushEnter (sched.getD 0 [])).pushing_source.setDataReady = true) ∧
    (∀ (is_pushed : Bool) (b2 : PushingAsyncPipelineExecutor) (w : Window) (d : Data)
        (e2 : Exception),
      b2.data = some d → d.has_exception = true → d.exception = some e2 →
      pushCheck is_pushed b2 w
        = (.raised e2, { b2 with data := some { d with has_exception := false } })) ∧
    (∀ (b2 : PushingAsyncPipelineExecutor) (w : Window) (d : Data),
      b2.data = some d → d.has_exception = false →
      pushCheck true b2 w = (.returned, b2)) := by
  have hst : b.started = true := hc.1
  refine ⟨?_, ?_, ?_, ?_, ?_⟩
  · intro hready
    have hc1 : Captured (b.pushEnter (sched.getD 0 [])) e := by
      rw [pushEnter_of_started _ hst]
      exact captured_runWorker _ hc
    simp only [push, setData_ready chunk hready]
    obtain ⟨_, d, hd, hf, he, _⟩ := captured_runWorker (sched.getD 1 [])
      (captured_setSource
        (if (b.pushEnter (sched.getD 0 [])).pushing_source.is_finished = true
          then (b.pushEnter (sched.getD 0 [])).pushing_source
          else { (b.pushEnter (sched.getD 0 [])).pushing_source with
                  data := chunk, has_data := true }) hc1)
    rw [pushCheck_flag _ _ hd hf he]
    exact ⟨rfl, _, rfl, rfl⟩
  · intro hready
    simp only [push, setData_not_ready chunk hready]
  · intro hw ha
    rw [pushEnter_of_started _ hst]
    exact ready_of_source_finished (captured_released _ hw hc ha)
  · intro p b2 w d e2 hd hf he
    exact pushCheck_flag p w hd hf he
  · intro b2 w d hd hf
    exact pushCheck_pushed w hd hf

/-- C2 at `afterFailure`: the slot is full, the worker's next step releases the
caller, `setData` returns `false` and `push` raises the captured failure. -/
theorem push_raises_captured_witness :
    Captured afterFailure Exception.sample ∧
    (afterFailure.pushEnter [.advance]).pushing_source.setDataReady = true ∧
    (afterFailure.push Chunk.two [[.advance]]).1 = .raised Exception.sample :=
  ⟨⟨rfl, _, rfl, rfl, rfl, by decide⟩, rfl,
    ((push_raises_captured afterFailure Chunk.two [[.advance]] Exception.sample
      ⟨rfl, _, rfl, rfl, rfl, by decide⟩).1 rfl).1⟩

theorem idle_step {b : PushingAsyncPipelineExecutor} {d : Data} (ev : WorkerEvent)
    (hd : b.data = some d)
    (ht : d.thread = .running .exited ∨ d.thread = .empty) :
    b.threadFunctionStep ev = b := by
  obtain ⟨src, started, finished, data⟩ := b
  simp only at hd
  subst hd
  obtain ⟨ex, exc, so, isf, hasx, th, fe⟩ := d
  simp only at ht
  rcases ht with rfl | rfl
  · cases ev <;> rfl
  · cases ev <;> rfl

theorem idle_runWorker {b : PushingAsyncPipelineExecutor} {d : Data} (w : Window)
    (hd : b.data = some d)
    (ht : d.thread = .running .exited ∨ d.thread = .empty) :
    b.runWorker w = b := by
  induction w with
  | nil => rfl
  | cons ev w ih => rw [runWorker_cons, idle_step ev hd ht, ih]

theorem settled_push {b : PushingAsyncPipelineExecutor} {st : ExecutionStatus}
    (chunk : Chunk) (sched : Schedule) (h : Settled b st) :
    b.push chunk sched = (.raised (throwOnExecutionStatus st), b) := by
  obtain ⟨hs, hsf, d, hd, hf, ht, _, ex, hex, hst⟩ := h
  have e0 : b.pushEnter (sched.getD 0 []) = b := by
    rw [pushEnter_of_started _ hs, idle_runWorker _ hd ht]
  have e1 : b.pushing_source.setData chunk = some (false, b.pushing_source) :=
    setData_of_finished chunk hsf
  simp only [push, e0, e1]
  rw [idle_runWorker _ hd ht, pushCheck_rejected _ hd hf, idle_runWorker _ hd ht]
  simp [hd, hex, hst]

theorem settled_finish {b : PushingAsyncPipelineExecutor} {st : ExecutionStatus}
    (sched : Schedule) (h : Settled b st) :
    (b.finish sched).1 = .returned ∧ Settled (b.finish sched).2 st := by
  cases hfin : b.finished with
  | true => rw [finish_of_finished _ hfin]; exact ⟨rfl, h⟩
  | false =>
    obtain ⟨hs, hsf, d, hd, hf, ht, hif, ex, hex, hst⟩ := h
    have e0 : b.finishEnter sched = { b with finished := true } := by
      rw [finishEnter_eq, idle_runWorker _ hd ht]
      have : b.pushing_source.finish = b.pushing_source := by
        obtain ⟨⟨sd, shd, sfin⟩, started, finished, data⟩ := b
        simp only at hsf
        subst hsf
        rfl
      rw [this]
      have e2 : ({ b with pushing_source := b.pushing_source } : PushingAsyncPipelineExecutor)
          = b := rfl
      rw [e2, idle_runWorker _ hd ht]
    have e3 : ∀ d1 : Data, d1.has_exception = false →
        d1.rethrowExceptionIfHas = (.returned, d1) := by
      intro d1 h1
      simp [Data.rethrowExceptionIfHas, h1]
    simp only [finish, hfin, Bool.false_eq_true, if_false, e0, hd]
    rcases ht with ht | ht
    · rw [ht]
      simp only
      rw [e3 { d with thread := .empty } hf]
      exact ⟨rfl, hs, hsf, _, rfl, hf, Or.inr rfl, hif, ex, hex, hst⟩
    · rw [ht]
      simp only
      rw [e3 _ hf]
      exact ⟨rfl, hs, hsf, _, rfl, hf, Or.inr ht, hif, ex, hex, hst⟩

theorem settled_requestCancel {b : PushingAsyncPipelineExecutor} {st : ExecutionStatus}
    (h : Settled b st) : b.requestCancel = b := by
  obtain ⟨_, _, d, hd, _, _, hif, _⟩ := h
  simp [requestCancel, hd, hif]

theorem settled_cancel {b : PushingAsyncPipelineExecutor} {st : ExecutionStatus}
    (sched : Schedule) (h : Settled b st) :
    (b.cancel sched).1 = .returned ∧ Settled (b.cancel sched).2 st := by
  have e0 : b.runWorker (sched.getD 0 []) = b := by
    obtain ⟨_, _, d, hd, _, ht, _⟩ := h
    exact idle_runWorker _ hd ht
  simp only [cancel, e0, settled_requestCancel h]
  exact settled_finish _ h

theorem settled_call {b : PushingAsyncPipelineExecutor} {st : ExecutionStatus}
    (c : Call) (sched : Schedule) (h : Settled b st) :
    (b.call c sched).1 = settledOutcome st c ∧ Settled (b.call c sched).2 st := by
  cases c with
  | start =>
    have : b.start = b := by simp [start, h.1]
    simp only [call, this]
    exact ⟨rfl, h⟩
  | push chunk =>
    simp only [call, settled_push chunk sched h]
    exact ⟨rfl, h⟩
  | finish => exact settled_finish sched h
  | cancel => exact settled_cancel sched h

theorem settled_outcomes {st : ExecutionStatus} (cs : List (Call × Schedule))
    {b : PushingAsyncPipelineExecutor} (h : Settled b st) :
    b.outcomes cs = cs.map fun c => settledOutcome st c.1 := by
  induction cs generalizing b with
  | nil => rfl
  | cons c cs ih =>
    obtain ⟨c, sched⟩ := c
    simp only [outcomes, List.map_cons]
    rw [(settled_call c sched h).1, ih (settled_call c sched h).2]

theorem terminated_push {b : PushingAsyncPipelineExecutor} {e : Exception}
    (chunk : Chunk) (sched : Schedule) (h : TerminatedWith b e) :
    (b.push chunk sched).1 = .raised e ∧
    ∀ d ex, b.data = some d → d.executor = some ex →
      Settled (b.push chunk sched).2 ex.getExecutionStatus := by
  obtain ⟨hs, hsf, d, hd, hf, he, ht, hif, hex⟩ := h
  have e0 : b.pushEnter (sched.getD 0 []) = b := by
    rw [pushEnter_of_started _ hs, idle_runWorker _ hd (Or.inl ht)]
  have e1 : b.pushing_source.setData chunk = some (false, b.pushing_source) :=
    setData_of_finished chunk hsf
  simp only [push, e0, e1]
  rw [idle_runWorker _ hd (Or.inl ht), pushCheck_flag _ _ hd hf he]
  refine ⟨rfl, ?_⟩
  intro d1 ex hd1 hex1
  rw [hd] at hd1
  cases hd1
  exact ⟨hs, hsf, _, rfl, rfl, Or.inl ht, hif, ex, hex1, rfl⟩

theorem terminated_finish {b : PushingAsyncPipelineExecutor} {e : Exception}
    (sched : Schedule) (h : TerminatedWith b e) (hfin : b.finished = false) :
    (b.finish sched).1 = .raised e ∧
    ∀ d ex, b.data = some d → d.executor = some ex →
      Settled (b.finish sched).2 ex.getExecutionStatus := by
  obtain ⟨hs, hsf, d, hd, hf, he, ht, hif, hex⟩ := h
  have e0 : b.finishEnter sched = { b with finished := true } := by
    rw [finishEnter_eq, idle_runWorker _ hd (Or.inl ht)]
    have : b.pushing_source.finish = b.pushing_source := by
      obtain ⟨⟨sd, shd, sfin⟩, started, finished, data⟩ := b
      simp only at hsf
      subst hsf
      rfl
    rw [this]
    have e2 : ({ b with pushing_source := b.pushing_source } : PushingAsyncPipelineExecutor)
        = b := rfl
    rw [e2, idle_runWorker _ hd (Or.inl ht)]
  have e3 : Data.rethrowExceptionIfHas { d with thread := .empty }
      = (.raised e, { d with thread := .empty, has_exception := false }) := by
    simp [Data.rethrowExceptionIfHas, hf, he]
  simp only [finish, hfin, Bool.false_eq_true, if_false, e0, hd]
  rw [ht]
  simp only
  rw [e3]
  refine ⟨rfl, ?_⟩
  intro d1 ex hd1 hex1
  cases hd1
  exact ⟨hs, hsf, _, rfl, rfl, Or.inr rfl, hif, ex, hex1, rfl⟩

/-- C3 as stated fails: on a bridge that was finished before it was started, the
worker can end with a captured failure while `finished` is already set; the next
`finish` then returns normally without raising the failure, which stays
pending. -/
theorem finish_skips_captured_error :
    Reachable afterLateFailure ∧
    TerminatedWith afterLateFailure Exception.sample ∧
    afterLateFailure.finish [] = (.returned, afterLateFailure) ∧
    (afterLateFailure.finish []).1 ≠ .raised Exception.sample :=
  ⟨⟨[.call .finish [],
      .call (.push Chunk.one) [[], [], [.throws Exception.sample, .advance, .advance]]], rfl⟩,
    ⟨rfl, rfl, _, rfl, rfl, rfl, rfl, rfl, rfl⟩, rfl, by decide⟩

/-- C3, amended: `rethrowExceptionIfHas` raises the stored error exactly when the
flag was set and always leaves the flag clear.  Once the worker has terminated
with a captured error `e`, a `push` raises `e`, and so does `finish` when the
bridge's `finished` member is still clear (when it is set, `finish` returns
normally and changes nothing).  After the call that raised `e`, every later
`push` raises the error derived from the status and every later `start`,
`finish` or `cancel` returns normally. -/
theorem captured_error_raised_once (b : PushingAsyncPipelineExecutor) (e : Exception)
    (d : Data) (ex : PipelineExecutor)
    (ht : TerminatedWith b e) (hd : b.data = some d) (hex : d.executor = some ex) :
    (∀ d1 : Data, d1.rethrowExceptionIfHas.2.has_exception = false ∧
      (d1.has_exception = false → d1.rethrowExceptionIfHas.1 = .returned) ∧
      (∀ e1, d1.has_exception = true → d1.exception = some e1 →
        d1.rethrowExceptionIfHas.1 = .raised e1)) ∧
    (∀ (chunk : Chunk) (sched : Schedule) (later : List (Call × Schedule)),
      (b.push chunk sched).1 = .raised e ∧
      (b.push chunk sched).2.outcomes later
        = later.map fun c => settledOutcome ex.getExecutionStatus c.1) ∧
    (b.finished = false →
      ∀ (sched : Schedule) (later : List (Call × Schedule)),
        (b.finish sched).1 = .raised e ∧
        (b.finish sched).2.outcomes later
          = later.map fun c => settledOutcome ex.getExecutionStatus c.1) ∧
    (b.finished = true → ∀ sched : Schedule, b.finish sched = (.returned, b)) := by
  refine ⟨?_, ?_, ?_, ?_⟩
  · intro d1
    refine ⟨?_, ?_, ?_⟩
    · unfold Data.rethrowExceptionIfHas
      split
      · split <;> rfl
      · rename_i h; simpa using h
    · intro h; simp [Data.rethrowExceptionIfHas, h]
    · intro e1 h1 h2; simp [Data.rethrowExceptionIfHas, h1, h2]
  · intro chunk sched later
    have h := terminated_push chunk sched ht
    exact ⟨h.1, settled_outcomes later (h.2 d ex hd hex)⟩
  · intro hfin sched later
    have h := terminated_finish sched ht hfin
    exact ⟨h.1, settled_outcomes later (h.2 d ex hd hex)⟩
  · intro hfin sched
    exact finish_of_finished sched hfin

/-- C3, amended, at `afterExit`: `finish` raises the captured failure, and the
`push`, `finish` and `cancel` that follow do not. -/
theorem captured_error_raised_once_witness :
    TerminatedWith afterExit Exception.sample ∧
    afterExit.finished = false ∧
    (afterExit.finish []).1 = .raised Exception.sample ∧
    (afterExit.finish []).2.outcomes [(.push Chunk.two, []), (.finish, []), (.cancel, [])]
      = [.raised (throwOnExecutionStatus .Running), .returned, .returned] :=
  ⟨⟨rfl, rfl, _, rfl, rfl, rfl, rfl, rfl, rfl⟩, rfl,
    ((captured_error_raised_once afterExit Exception.sample _ {}
      ⟨rfl, rfl, _, rfl, rfl, rfl, rfl, rfl, rfl⟩ rfl rfl).2.2.1 rfl [] []).1,
    ((captured_error_raised_once afterExit Exception.sample _ {}
      ⟨rfl, rfl, _, rfl, rfl, rfl, rfl, rfl, rfl⟩ rfl rfl).2.2.1 rfl []
      [(.push Chunk.two, []), (.finish, []), (.cancel, [])]).2⟩

theorem frozen_step {b : PushingAsyncPipelineExecutor} (ev : WorkerEvent) (h : WF b)
    (hf : b.finished = true) :
    (b.threadFunctionStep ev).pushing_source = b.pushing_source := by
  obtain ⟨⟨sd, shd, sfin⟩, started, finished, data⟩ := b
  simp only at hf
  subst hf
  cases data with
  | none => rfl
  | some d =>
    obtain ⟨ex, exc, so, isf, hasx, th, fe⟩ := d
    obtain ⟨h1, h2, h3, h4, h5, h6, h7, h8⟩ := h
    simp only [PushingAsyncSource.Clean] at h3
    simp only [Option.some.injEq, forall_eq', true_implies] at h4 h8
    subst h4
    cases th with
    | empty => rfl
    | running pc =>
      cases pc with
      | executing =>
        cases ev with
        | pull =>
          cases shd with
          | true => simp at h8
          | false =>
            simp only [true_implies] at h3
            subst h3
            rfl
        | _ => rfl
      | finishing =>
        cases ev with
        | advance => cases so <;> rfl
        | _ => rfl
      | completing => cases ev <;> rfl
      | exited => cases ev <;> rfl

theorem frozen_runWorker {b : PushingAsyncPipelineExecutor} (w : Window) (h : WF b)
    (hf : b.finished = true) :
    (b.runWorker w).pushing_source = b.pushing_source := by
  induction w generalizing b with
  | nil => rfl
  | cons ev w ih =>
    rw [runWorker_cons, ih (wf_step ev h) (by rw [step_finished]; exact hf),
      frozen_step ev h hf]

/-- C4: `throwOnExecutionStatus` throws for every status: the cancellation error
exactly for `CancelledByUser` and `CancelledByTimeout`, the logic error for
every other status.  After `setData` returned, `push` throws what
`throwOnExecutionStatus` gives for the engine's status when `setData` returned
`false` and no captured error was pending; when the batch was accepted and the
flag is clear it returns, and when the flag is set its outcome is that of
`rethrowExceptionIfHas`, so the status is not consulted in those cases. -/
theorem throwOnExecutionStatus_cases (st : ExecutionStatus) (is_pushed : Bool)
    (b2 : PushingAsyncPipelineExecutor) (w : Window) (d : Data)
    (hd : b2.data = some d) :
    ((throwOnExecutionStatus st).code = .QUERY_WAS_CANCELLED ↔
      (st = .CancelledByUser ∨ st = .CancelledByTimeout)) ∧
    ((throwOnExecutionStatus st).code = .LOGICAL_ERROR ↔
      ¬(st = .CancelledByUser ∨ st = .CancelledByTimeout)) ∧
    (is_pushed = false → d.has_exception = false →
      ∀ ex, ((b2.runWorker w).data.bind fun d3 => d3.executor) = some ex →
        pushCheck is_pushed b2 w
          = (.raised (throwOnExecutionStatus ex.getExecutionStatus), b2.runWorker w)) ∧
    (is_pushed = true → d.has_exception = false →
      pushCheck is_pushed b2 w = (.returned, b2)) ∧
    (d.has_exception = true →
      pushCheck is_pushed b2 w
        = (d.rethrowExceptionIfHas.1, { b2 with data := some d.rethrowExceptionIfHas.2 })) := by
  refine ⟨?_, ?_, ?_, ?_, ?_⟩
  · cases st <;> simp [throwOnExecutionStatus]
  · cases st <;> simp [throwOnExecutionStatus]
  · intro hp hf ex hex
    subst hp
    rw [pushCheck_rejected w hd hf, hex]
  · intro hp hf
    subst hp
    exact pushCheck_pushed w hd hf
  · intro hf
    cases he : d.exception with
    | none =>
      rw [pushCheck_flag_null is_pushed w hd hf he]
      simp [Data.rethrowExceptionIfHas, hf, he]
    | some e =>
      rw [pushCheck_flag is_pushed w hd hf he]
      simp [Data.rethrowExceptionIfHas, hf, he]

/-- C4 on the bridge finished before its first `push`, with the engine reporting
a cancellation by the user while the caller is between the exchange and the
read of the status. -/
theorem throwOnExecutionStatus_cases_witness :
    ((init.finish []).2.start).data
      = some { executor := some {}, source := true, thread := .running .executing } ∧
    pushCheck false (init.finish []).2.start [.status .CancelledByUser]
      = (.raised { code := .QUERY_WAS_CANCELLED, message := "Query was cancelled" },
         (init.finish []).2.start.runWorker [.status .CancelledByUser]) :=
  ⟨rfl, (throwOnExecutionStatus_cases .CancelledByUser false (init.finish []).2.start
      [.status .CancelledByUser] _ rfl).2.2.1 rfl rfl
        { status := .CancelledByUser, cancel_requests := 0 } rfl⟩

theorem start_finished (b : PushingAsyncPipelineExecutor) :
    b.start.finished = b.finished := by
  unfold start; split <;> rfl

theorem start_source (b : PushingAsyncPipelineExecutor) :
    b.start.pushing_source = b.pushing_source := by
  unfold start; split <;> rfl

/-- C5: on a reachable bridge on which `finish()` was already called, started or
not, `push` raises an error under every schedule (the error derived from the
engine's status, or the stored error of the worker) and the slot is after the
call as it was before: the batch is not stored. -/
theorem push_after_finish (b : PushingAsyncPipelineExecutor) (chunk : Chunk)
    (sched : Schedule) (hr : Reachable b) (hf : b.finished = true) :
    (∃ e, (b.push chunk sched).1 = .raised e ∧
      ((∃ st, e = throwOnExecutionStatus st) ∨
        ∃ d, (b.push chunk sched).2.data = some d ∧ d.exception = some e)) ∧
    (b.push chunk sched).2.pushing_source.data = b.pushing_source.data ∧
    (b.push chunk sched).2.pushing_source.has_data = b.pushing_source.has_data := by
  have hw := wf_of_reachable hr
  have hw0 : WF (if (!b.started) = true then b.start else b) := by
    split
    · exact wf_start hw
    · exact hw
  have hf0 : (if (!b.started) = true then b.start else b).finished = true := by
    split
    · rw [start_finished]; exact hf
    · exact hf
  have hs0 : (if (!b.started) = true then b.start else b).pushing_source
      = b.pushing_source := by
    split
    · rw [start_source]
    · rfl
  have hw1 : WF (b.pushEnter (sched.getD 0 [])) := wf_pushEnter _ hw
  have hf1 : (b.pushEnter (sched.getD 0 [])).finished = true := by
    unfold pushEnter
    rw [runWorker_finished]; exact hf0
  have hs1 : (b.pushEnter (sched.getD 0 [])).pushing_source = b.pushing_source := by
    unfold pushEnter
    rw [frozen_runWorker _ hw0 hf0, hs0]
  have hfin1 : (b.pushEnter (sched.getD 0 [])).pushing_source.is_finished = true :=
    hw1.finished_source hf1
  have e1 : (b.pushEnter (sched.getD 0 [])).pushing_source.setData chunk
      = some (false, (b.pushEnter (sched.getD 0 [])).pushing_source) :=
    setData_of_finished chunk hfin1
  have e2 : ({ b.pushEnter (sched.getD 0 []) with
      pushing_source := (b.pushEnter (sched.getD 0 [])).pushing_source }
        : PushingAsyncPipelineExecutor) = b.pushEnter (sched.getD 0 []) := rfl
  simp only [push, e1, e2]
  have hw2 : WF ((b.pushEnter (sched.getD 0 [])).runWorker (sched.getD 1 [])) :=
    wf_runWorker _ hw1
  have hf2 : ((b.pushEnter (sched.getD 0 [])).runWorker (sched.getD 1 [])).finished = true := by
    rw [runWorker_finished]; exact hf1
  have hs2 : ((b.pushEnter (sched.getD 0 [])).runWorker (sched.getD 1 [])).pushing_source
      = b.pushing_source := by
    rw [frozen_runWorker _ hw1 hf1, hs1]
  have hst2 : ((b.pushEnter (sched.getD 0 [])).runWorker (sched.getD 1 [])).started = true := by
    rw [runWorker_started]; exact pushEnter_started _ _
  generalize (b.pushEnter (sched.getD 0 [])).runWorker (sched.getD 1 []) = b2
    at hw2 hf2 hs2 hst2
  obtain ⟨d, hd, _, _⟩ := hw2.started hst2
  cases hfl : d.has_exception with
  | true =>
    obtain ⟨hsome, _⟩ := hw2.captured d hd hfl
    obtain ⟨e, he⟩ := Option.isSome_iff_exists.1 hsome
    rw [pushCheck_flag _ _ hd hfl he]
    exact ⟨⟨e, rfl, Or.inr ⟨_, rfl, he⟩⟩, by rw [← hs2], by rw [← hs2]⟩
  | false =>
    rw [pushCheck_rejected _ hd hfl]
    have hw3 : WF (b2.runWorker (sched.getD 2 [])) := wf_runWorker _ hw2
    have hs3 : (b2.runWorker (sched.getD 2 [])).pushing_source = b.pushing_source := by
      rw [frozen_runWorker _ hw2 hf2, hs2]
    obtain ⟨d3, hd3, hex3, _⟩ := hw3.started (by rw [runWorker_started]; exact hst2)
    obtain ⟨ex, hex⟩ := Option.isSome_iff_exists.1 hex3
    simp only [hd3, Option.some_bind, hex]
    exact ⟨⟨_, rfl, Or.inl ⟨_, rfl⟩⟩, by rw [← hs3], by rw [← hs3]⟩

/-- C5 on the bridge finished before it was started: `push` starts the worker and
raises the logic error, and the slot stays empty. -/
theorem push_after_finish_witness :
    Reachable (init.finish []).2 ∧ (init.finish []).2.finished = true ∧
    (∃ e, ((init.finish []).2.push Chunk.one []).1 = .raised e ∧
      ((∃ st, e = throwOnExecutionStatus st) ∨
        ∃ d, ((init.finish []).2.push Chunk.one []).2.data = some d ∧
          d.exception = some e)) :=
  ⟨⟨[.call .finish []], rfl⟩, rfl,
    (push_after_finish (init.finish []).2 Chunk.one [] ⟨[.call .finish []], rfl⟩ rfl).1⟩

theorem finish_finished (b : PushingAsyncPipelineExecutor) (sched : Schedule) :
    (b.finish sched).2.finished = true := by
  cases hf : b.finished with
  | true => rw [finish_of_finished _ hf]; exact hf
  | false =>
    have h := finishEnter_finished b sched
    simp only [finish, hf, Bool.false_eq_true, if_false]
    split
    · exact h
    · split <;> exact h

/-- C9: after a first `finish()`, whether it returned or raised the captured
error, a second `finish()` returns normally under every schedule and leaves the
whole state as it is: no second signal to the source, no second `join`, no
error. -/
theorem finish_idempotent (b : PushingAsyncPipelineExecutor) (sched sched2 : Schedule) :
    (b.finish sched).2.finish sched2 = (.returned, (b.finish sched).2) :=
  finish_of_finished sched2 (finish_finished b sched)

/-- C9 at `afterFailure`: the first `finish` joins the worker and raises the
captured failure, the second returns and changes nothing. -/
theorem finish_idempotent_witness :
    (afterFailure.finish [[], [.advance, .advance]]).1 = .raised Exception.sample ∧
    (afterFailure.finish [[], [.advance, .advance]]).2.finish []
      = (.returned, (afterFailure.finish [[], [.advance, .advance]]).2) :=
  ⟨rfl, finish_idempotent afterFailure [[], [.advance, .advance]] []⟩

theorem step_joinable (b : PushingAsyncPipelineExecutor) (ev : WorkerEvent) :
    (b.threadFunctionStep ev).data.map (fun d => d.thread.joinable)
      = b.data.map fun d => d.thread.joinable := by
  obtain ⟨src, started, finished, data⟩ := b
  cases data with
  | none => rfl
  | some d =>
    obtain ⟨ex, exc, so, isf, hasx, th, fe⟩ := d
    cases th with
    | empty => rfl
    | running pc =>
      cases pc <;> cases ev <;> first | rfl | (simp only [threadFunctionStep]; split <;> rfl)

theorem runWorker_joinable (b : PushingAsyncPipelineExecutor) (w : Window) :
    (b.runWorker w).data.map (fun d => d.thread.joinable)
      = b.data.map fun d => d.thread.joinable := by
  induction w generalizing b with
  | nil => rfl
  | cons ev w ih => rw [runWorker_cons, ih, step_joinable]

theorem requestCancel_joinable (b : PushingAsyncPipelineExecutor) :
    b.requestCancel.data.map (fun d => d.thread.joinable)
      = b.data.map fun d => d.thread.joinable := by
  unfold requestCancel
  split
  · rfl
  · rename_i d hd
    split
    · split
      · simp [hd]
      · rfl
    · rfl

theorem requestCancel_finished (b : PushingAsyncPipelineExecutor) :
    b.requestCancel.finished = b.finished := by
  unfold requestCancel
  repeat' split
  all_goals rfl

/-- C10: after a first `cancel()`, whether it returned or raised, a second
`cancel()` returns normally under every schedule: it only
repeats the request to the engine when the run has not completed, `finish()`
inside it is a no-op, so the thread handle is not joined again and no captured
error is raised. -/
theorem cancel_idempotent (b : PushingAsyncPipelineExecutor) (sched sched2 : Schedule) :
    (b.cancel sched).2.cancel sched2
      = (.returned, ((b.cancel sched).2.runWorker (sched2.getD 0 [])).requestCancel) ∧
    ((b.cancel sched).2.cancel sched2).2.data.map (fun d => d.thread.joinable)
      = (b.cancel sched).2.data.map fun d => d.thread.joinable := by
  have h : (b.cancel sched).2.cancel sched2
      = (.returned, ((b.cancel sched).2.runWorker (sched2.getD 0 [])).requestCancel) := by
    unfold cancel
    apply finish_of_finished
    rw [requestCancel_finished, runWorker_finished]
    exact finish_finished _ _
  refine ⟨h, ?_⟩
  rw [h]
  simp only
  rw [requestCancel_joinable, runWorker_joinable]

/-- C10 at `afterFailure`: the first `cancel` asks the engine to stop, joins the
worker and raises the captured failure; the second returns and changes
nothing. -/
theorem cancel_idempotent_witness :
    (afterFailure.cancel [[], [], [.advance, .advance]]).1 = .raised Exception.sample ∧
    (afterFailure.cancel [[], [], [.advance, .advance]]).2.cancel []
      = (.returned, (afterFailure.cancel [[], [], [.advance, .advance]]).2) :=
  ⟨rfl, (cancel_idempotent afterFailure [[], [], [.advance, .advance]] []).1⟩

end PushingAsyncPipelineExecutor

/-! ## The source: finish -/

namespace PushingAsyncSource

/-- C16: `finish()` of the source sets the finished flag and leaves the stored
batch and `has_data` as they are, and it is idempotent: `finish (finish s)` is
`finish s` for every slot state `s`. -/
theorem source_finish_idempotent (s : PushingAsyncSource) :
    s.finish.is_finished = true ∧ s.finish.data = s.data ∧
    s.finish.has_data = s.has_data ∧ s.finish.finish = s.finish :=
  ⟨rfl, rfl, rfl, rfl⟩

/-- C20: on every slot that holds a pending batch, after `finish()` the next
`generate()` proceeds and returns that batch itself, and the `generate()` after
it proceeds and returns the empty batch. -/
theorem pending_batch_survives_finish (s : PushingAsyncSource)
    (hd : s.has_data = true) :
    s.finish.generate
      = some (s.data, { data := Chunk.empty, has_data := false, is_finished := true }) ∧
    (s.finish.generate.bind fun r => r.2.generate)
      = some (Chunk.empty, { data := Chunk.empty, has_data := false, is_finished := true }) := by
  have h : s.finish.generate
      = some (s.data, { data := Chunk.empty, has_data := false, is_finished := true }) := by
    simp [generate, generateReady, finish, hd]
  refine ⟨h, ?_⟩
  rw [h]
  rfl

/-- C20 at the slot that holds the one-row sample batch. -/
theorem pending_batch_survives_finish_witness :
    (PushingAsyncSource.mk Chunk.one true false).has_data = true ∧
    (PushingAsyncSource.mk Chunk.one true false).finish.generate
      = some (Chunk.one, PushingAsyncSource.mk Chunk.empty false true) ∧
    Chunk.one ≠ Chunk.empty :=
  ⟨rfl, (pending_batch_survives_finish (PushingAsyncSource.mk Chunk.one true false) rfl).1,
    by decide⟩

end PushingAsyncSource

/-! ## The bridge: cancel before start, and start -/

namespace PushingAsyncPipelineExecutor

/-- C12 as stated fails: `cancel()` on the freshly constructed bridge does not run
`start()` (`started` stays clear, `data` stays null, so there is no engine to ask),
and it returns normally instead of ending with a cancellation error. -/
theorem cancel_before_start_does_not_start :
    (init.cancel []).1 = .returned ∧
    (init.cancel []).2.started = false ∧
    (init.cancel []).2.data = none ∧
    init.spawns [(.cancel, [])] = 0 :=
  ⟨rfl, rfl, rfl, rfl⟩

theorem nodata_runWorker {x : PushingAsyncPipelineExecutor} (w : Window)
    (hx : x.data = none) : x.runWorker w = x := by
  induction w with
  | nil => rfl
  | cons ev w ih =>
    have : x.threadFunctionStep ev = x := by simp [threadFunctionStep, hx]
    rw [runWorker_cons, this, ih]

theorem nodata_finish {x : PushingAsyncPipelineExecutor} (sched : Schedule)
    (hx : x.data = none) (hf : x.finished = false) :
    x.finish sched
      = (.returned, { x with finished := true, pushing_source := x.pushing_source.finish }) := by
  have e : x.finishEnter sched
      = { x with finished := true, pushing_source := x.pushing_source.finish } := by
    rw [finishEnter_eq, nodata_runWorker _ hx]
    have h2 : ({ x with pushing_source := x.pushing_source.finish }
        : PushingAsyncPipelineExecutor).data = none := hx
    rw [nodata_runWorker (sched.getD 1 []) h2]
  simp only [finish, hf, Bool.false_eq_true, if_false, e, hx]

/-- C12, amended: `cancel()` on the freshly constructed bridge, under every
schedule, returns normally; it does not run `start()` and creates no engine
(`started` stays clear and `data` stays null), it sets `finished` and finishes
the source, and touches nothing else. -/
theorem cancel_before_start (sched : Schedule) :
    init.cancel sched
      = (.returned, { init with finished := true,
                                pushing_source := init.pushing_source.finish }) ∧
    init.startRuns .cancel = 0 ∧
    (init.cancel sched).2.started = false ∧
    (init.cancel sched).2.data = none ∧
    (init.cancel sched).2.cancelRequests = 0 := by
  have e : init.cancel sched
      = (.returned, { init with finished := true,
                                pushing_source := init.pushing_source.finish }) := by
    unfold cancel
    rw [nodata_runWorker _ rfl]
    exact nodata_finish _ rfl rfl
  rw [e]
  exact ⟨rfl, rfl, rfl, rfl, rfl⟩

theorem pushCheck_started (p : Bool) (b : PushingAsyncPipelineExecutor) (w : Window) :
    (pushCheck p b w).2.started = b.started := by
  cases hd : b.data with
  | none => rw [pushCheck_none p w hd]
  | some d =>
    cases hf : d.has_exception with
    | false =>
      cases p with
      | true => rw [pushCheck_pushed w hd hf]
      | false =>
        rw [pushCheck_rejected w hd hf]
        split <;> exact runWorker_started _ _
    | true =>
      cases he : d.exception with
      | none => rw [pushCheck_flag_null p w hd hf he]
      | some e => rw [pushCheck_flag p w hd hf he]

theorem push_started (b : PushingAsyncPipelineExecutor) (chunk : Chunk) (sched : Schedule) :
    (b.push chunk sched).2.started = true := by
  unfold push
  simp only
  split
  · exact pushEnter_started _ _
  · rw [pushCheck_started, runWorker_started]
    exact pushEnter_started _ _

theorem finish_started (b : PushingAsyncPipelineExecutor) (sched : Schedule) :
    (b.finish sched).2.started = b.started := by
  cases hf : b.finished with
  | true => rw [finish_of_finished _ hf]
  | false =>
    have h : (b.finishEnter sched).started = b.started := by
      rw [finishEnter_eq]
      simp only
      rw [runWorker_started]
      simp only
      rw [runWorker_started]
    simp only [finish, hf, Bool.false_eq_true, if_false]
    split
    · exact h
    · split <;> exact h

theorem requestCancel_started (b : PushingAsyncPipelineExecutor) :
    b.requestCancel.started = b.started := by
  unfold requestCancel
  repeat' split
  all_goals rfl

theorem cancel_started (b : PushingAsyncPipelineExecutor) (sched : Schedule) :
    (b.cancel sched).2.started = b.started := by
  unfold cancel
  rw [finish_started, requestCancel_started, runWorker_started]

theorem start_started (b : PushingAsyncPipelineExecutor) : b.start.started = true := by
  cases h : b.started <;> simp [start, h]

theorem call_started (b : PushingAsyncPipelineExecutor) (c : Call) (sched : Schedule)
    (h : b.started = true ∨ 0 < b.startRuns c) : (b.call c sched).2.started = true := by
  cases c with
  | start => exact start_started b
  | push chunk => exact push_started b chunk sched
  | finish =>
    simp only [call, finish_started]
    rcases h with h | h
    · exact h
    · simp [startRuns] at h
  | cancel =>
    simp only [call, cancel_started]
    rcases h with h | h
    · exact h
    · simp [startRuns] at h

theorem spawns_of_started (cs : List (Call × Schedule)) {b : PushingAsyncPipelineExecutor}
    (h : b.started = true) : b.spawns cs = 0 := by
  induction cs generalizing b with
  | nil => rfl
  | cons c cs ih =>
    obtain ⟨c, sched⟩ := c
    simp only [spawns]
    rw [ih (call_started b c sched (Or.inl h))]
    cases c <;> simp [startRuns, h]

theorem spawns_le_one (cs : List (Call × Schedule)) (b : PushingAsyncPipelineExecutor) :
    b.spawns cs ≤ 1 := by
  induction cs generalizing b with
  | nil => simp [spawns]
  | cons c cs ih =>
    obtain ⟨c, sched⟩ := c
    simp only [spawns]
    by_cases h : 0 < b.startRuns c
    · rw [spawns_of_started cs (call_started b c sched (Or.inr h))]
      have h1 : b.startRuns c ≤ 1 := by
        cases c <;> simp only [startRuns] <;> first | omega | (split <;> omega)
      omega
    · have h0 : b.startRuns c = 0 := by omega
      rw [h0, Nat.zero_add]
      exact ih _

/-- C17: `start()` is idempotent: on a started bridge it changes nothing, and after
any `start()` a second one changes nothing.  `push` on a started bridge does not
run `start()`.  Over any sequence of calls the body of `start()`, which alone
creates `Data` and the worker thread, runs at most once, and not at all when the
bridge is already started. -/
theorem start_idempotent (b : PushingAsyncPipelineExecutor) (cs : List (Call × Schedule)) :
    (b.started = true → b.start = b) ∧
    b.start.start = b.start ∧
    (b.started = true → ∀ w : Window, b.pushEnter w = b.runWorker w) ∧
    b.spawns cs ≤ 1 ∧
    (b.started = true → b.spawns cs = 0) := by
  refine ⟨?_, ?_, ?_, spawns_le_one cs b, fun h => spawns_of_started cs h⟩
  · intro h; simp [start, h]
  · have h := start_started b
    generalize b.start = x at h
    simp [start, h]
  · intro h w; exact pushEnter_of_started w h

/-- C17 on the started sample bridge, and the count on the fresh bridge. -/
theorem start_idempotent_witness :
    afterPush.started = true ∧ afterPush.start = afterPush ∧
    init.spawns [(.push Chunk.one, []), (.start, []), (.push Chunk.two, [[.pull]])] = 1 :=
  ⟨rfl, (start_idempotent afterPush []).1 rfl, rfl⟩

theorem runWorker_append (b : PushingAsyncPipelineExecutor) (w1 w2 : Window) :
    b.runWorker (w1 ++ w2) = (b.runWorker w1).runWorker w2 := by
  simp [runWorker, List.foldl_append]

theorem engineStep_executing {x : PushingAsyncPipelineExecutor} {d : Data} (es : EngineStep)
    (hd : x.data = some d) (ht : d.thread = .running .executing) :
    ∃ d1, (x.threadFunctionStep es.event).data = some d1 ∧
      d1.thread = .running .executing ∧ d1.source = d.source ∧
      d1.has_exception = d.has_exception ∧ d1.exception = d.exception ∧
      d1.is_finished = d.is_finished := by
  obtain ⟨src, started, finished, data⟩ := x
  simp only at hd
  subst hd
  obtain ⟨ex, exc, so, isf, hasx, th, fe⟩ := d
  simp only at ht
  subst ht
  cases es with
  | pull =>
    simp only [EngineStep.event, threadFunctionStep]
    split <;> exact ⟨_, rfl, rfl, rfl, rfl, rfl, rfl⟩
  | status st => exact ⟨_, rfl, rfl, rfl, rfl, rfl, rfl⟩

theorem during_executing (during : List EngineStep) {x : PushingAsyncPipelineExecutor}
    {d : Data} (hd : x.data = some d) (ht : d.thread = .running .executing) :
    ∃ d1, (x.runWorker (during.map EngineStep.event)).data = some d1 ∧
      d1.thread = .running .executing ∧ d1.source = d.source ∧
      d1.has_exception = d.has_exception ∧ d1.exception = d.exception ∧
      d1.is_finished = d.is_finished := by
  induction during generalizing x d with
  | nil => exact ⟨d, hd, ht, rfl, rfl, rfl, rfl⟩
  | cons es during ih =>
    obtain ⟨d1, h1, h2, h3, h4, h5, h6⟩ := engineStep_executing es hd ht
    obtain ⟨d2, k1, k2, k3, k4, k5, k6⟩ := ih h1 h2
    refine ⟨d2, ?_, k2, k3.trans h3, k4.trans h4, k5.trans h5, k6.trans h6⟩
    simpa [List.map_cons, runWorker_cons] using k1

theorem tail_executing {x : PushingAsyncPipelineExecutor} {d : Data} (fin : ExecuteEnd)
    (hd : x.data = some d) (ht : d.thread = .running .executing)
    (hs : d.source = true) (hf : d.has_exception = false) :
    ∃ d1, (x.runWorker [fin.event, .advance, .advance]).data = some d1 ∧
      d1.thread = .running .exited ∧
      (x.runWorker [fin.event, .advance, .advance]).pushing_source.is_finished = true ∧
      d1.is_finished = true ∧ d1.finish_event = true ∧
      (d1.has_exception = true ↔ ∃ e, fin = .throws e) ∧
      (∀ e, fin = .throws e → d1.exception = some e) := by
  obtain ⟨src, started, finished, data⟩ := x
  simp only at hd
  subst hd
  obtain ⟨ex, exc, so, isf, hasx, th, fe⟩ := d
  simp only at ht hs hf
  subst ht hs hf
  cases fin with
  | returns =>
    refine ⟨_, rfl, rfl, rfl, rfl, rfl, ?_, ?_⟩
    · simp
    · intro e h; cases h
  | throws e =>
    refine ⟨_, rfl, rfl, rfl, rfl, rfl, ?_, ?_⟩
    · simp
    · intro e1 h; cases h; rfl

theorem exit_runWorker (x : PushingAsyncPipelineExecutor) (d : Data)
    (hd : (x.runWorker exitWindow).data = some d) :
    d.thread = .running .exited ∨ d.thread = .empty := by
  obtain ⟨src, started, finished, data⟩ := x
  cases data with
  | none => cases hd
  | some d0 =>
    obtain ⟨ex, exc, so, isf, hasx, th, fe⟩ := d0
    cases th with
    | empty => cases hd; exact Or.inr rfl
    | running pc =>
      cases pc <;> cases hd <;> exact Or.inl rfl

theorem destroyData_exit (x : PushingAsyncPipelineExecutor) :
    (x.destroyData exitWindow).1 = .returned := by
  have h := exit_runWorker x
  unfold destroyData
  simp only
  cases hd : (x.runWorker exitWindow).data with
  | none => rfl
  | some d =>
    rcases h d hd with ht | ht <;> simp [ht]

theorem rethrow_completed {d : Data}
    (h : d.has_exception = true → d.exception.isSome = true) :
    d.rethrowExceptionIfHas.1.completed = true := by
  unfold Data.rethrowExceptionIfHas
  split
  · rename_i hf
    cases he : d.exception with
    | none => simp [he] at h; simp [hf] at h
    | some e => rfl
  · rfl

theorem finish_completes {x : PushingAsyncPipelineExecutor} (sched : Schedule)
    (hw : WF x) (hs : sched.getD 1 [] = exitWindow) :
    (x.finish sched).1.completed = true := by
  cases hf : x.finished with
  | true => rw [finish_of_finished _ hf]; rfl
  | false =>
    have hy : WF (runWorker { x.runWorker (sched.getD 0 []) with
        pushing_source := (x.runWorker (sched.getD 0 [])).pushing_source.finish }
        (sched.getD 1 [])) :=
      wf_runWorker _ (wf_source_finish (wf_runWorker _ hw))
    have he := exit_runWorker { x.runWorker (sched.getD 0 []) with
        pushing_source := (x.runWorker (sched.getD 0 [])).pushing_source.finish }
    rw [← hs] at he
    simp only [finish, hf, Bool.false_eq_true, if_false, finishEnter_eq]
    generalize runWorker { x.runWorker (sched.getD 0 []) with
        pushing_source := (x.runWorker (sched.getD 0 [])).pushing_source.finish }
        (sched.getD 1 []) = y at hy he
    obtain ⟨ysrc, yst, yfin, ydata⟩ := y
    cases ydata with
    | none => rfl
    | some d =>
      have hcap := hy.captured d rfl
      rcases he d rfl with ht | ht
      · simp only [ht]
        exact rethrow_completed (d := { d with thread := .empty }) fun h => (hcap h).1
      · simp only [ht]
        exact rethrow_completed fun h => (hcap h).1

theorem rethrow_flag (d : Data) : d.rethrowExceptionIfHas.2.has_exception = false := by
  unfold Data.rethrowExceptionIfHas
  split
  · split <;> rfl
  · rename_i h; simpa using h

theorem rethrow_is_finished (d : Data) :
    d.rethrowExceptionIfHas.2.is_finished = d.is_finished := by
  unfold Data.rethrowExceptionIfHas
  split
  · split <;> rfl
  · rfl

theorem rethrow_joined (d : Data) :
    (Data.rethrowExceptionIfHas { d with thread := .empty }).1 = d.rethrowExceptionIfHas.1 := by
  unfold Data.rethrowExceptionIfHas
  simp only
  split
  · split <;> rfl
  · rfl

/-- C14: on a reachable bridge that is started and not yet finished, a `finish()`
that returns or raises leaves the worker terminated: `is_finished` is set and
the thread handle is not joinable.  It comes to an end exactly when the worker
has exited by the end of the wait in `join()`, which it has whenever `execute`
ends there; and its outcome is that of `rethrowExceptionIfHas` on the flag as it
stands after the join, so the flag is clear afterwards. -/
theorem finish_joins_worker (b : PushingAsyncPipelineExecutor) (sched : Schedule)
    (hr : Reachable b) (hs : b.started = true) (hf : b.finished = false) :
    ((b.finish sched).1.completed = true →
      ∃ d, (b.finish sched).2.data = some d ∧ d.thread.joinable = false ∧
        d.is_finished = true ∧ d.has_exception = false) ∧
    ((b.finish sched).1.completed = true →
      ∃ d, (b.finishEnter sched).data = some d ∧
        (d.thread = .running .exited ∨ d.thread = .empty) ∧
        (b.finish sched).1 = d.rethrowExceptionIfHas.1) ∧
    (sched.getD 1 [] = exitWindow → (b.finish sched).1.completed = true) := by
  have hw := wf_of_reachable hr
  refine ⟨?_, ?_, finish_completes sched hw⟩
  all_goals
    have hy : WF (runWorker { b.runWorker (sched.getD 0 []) with
        pushing_source := (b.runWorker (sched.getD 0 [])).pushing_source.finish }
        (sched.getD 1 [])) :=
      wf_runWorker _ (wf_source_finish (wf_runWorker _ hw))
    have hys : (runWorker { b.runWorker (sched.getD 0 []) with
        pushing_source := (b.runWorker (sched.getD 0 [])).pushing_source.finish }
        (sched.getD 1 [])).started = true := by
      rw [runWorker_started]
      simp only
      rw [runWorker_started]
      exact hs
    simp only [finish, hf, Bool.false_eq_true, if_false, finishEnter_eq]
    generalize runWorker { b.runWorker (sched.getD 0 []) with
        pushing_source := (b.runWorker (sched.getD 0 [])).pushing_source.finish }
        (sched.getD 1 []) = y at hy hys
    obtain ⟨d, hd, _, _⟩ := hy.started hys
    have hif := hy.is_finished d hd
    obtain ⟨ysrc, yst, yfin, ydata⟩ := y
    simp only at hd
    subst hd
    simp only
    intro hc
  · cases ht : d.thread with
    | empty =>
      simp only [ht] at hc ⊢
      refine ⟨_, rfl, ?_, ?_, rethrow_flag d⟩
      · rw [rethrow_thread, ht]; rfl
      · rw [rethrow_is_finished]; exact hif.2 (Or.inr ht)
    | running pc =>
      cases pc with
      | exited =>
        simp only [ht] at hc ⊢
        refine ⟨_, rfl, ?_, ?_, rethrow_flag _⟩
        · rw [rethrow_thread]; rfl
        · rw [rethrow_is_finished]; exact hif.2 (Or.inl ht)
      | executing => simp [ht, Outcome.completed] at hc
      | finishing => simp [ht, Outcome.completed] at hc
      | completing => simp [ht, Outcome.completed] at hc
  · cases ht : d.thread with
    | empty =>
      simp only [ht]
      exact ⟨d, rfl, Or.inr ht, rfl⟩
    | running pc =>
      cases pc with
      | exited =>
        simp only [ht]
        exact ⟨d, rfl, Or.inl ht, rethrow_joined d⟩
      | executing => simp [ht, Outcome.completed] at hc
      | finishing => simp [ht, Outcome.completed] at hc
      | completing => simp [ht, Outcome.completed] at hc

/-- C14 at `afterFailure`: `finish` joins the worker, raises the captured failure,
and leaves the handle not joinable and `is_finished` set. -/
theorem finish_joins_worker_witness :
    Reachable afterFailure ∧ afterFailure.started = true ∧ afterFailure.finished = false ∧
    (afterFailure.finish [[], exitWindow]).1 = .raised Exception.sample ∧
    ∃ d, (afterFailure.finish [[], exitWindow]).2.data = some d ∧
      d.thread.joinable = false ∧ d.is_finished = true ∧ d.has_exception = false :=
  ⟨⟨[.call (.push Chunk.one) [], .worker [.throws Exception.sample]], rfl⟩, rfl, rfl, rfl,
    (finish_joins_worker afterFailure [[], exitWindow]
      ⟨[.call (.push Chunk.one) [], .worker [.throws Exception.sample]], rfl⟩ rfl rfl).1 rfl⟩

theorem destroyData_not_raised (x : PushingAsyncPipelineExecutor) (w : Window)
    (e : Exception) : (x.destroyData w).1 ≠ .raised e := by
  unfold destroyData
  simp only
  split
  · simp
  · split <;> simp

theorem finish_raised_joined {x : PushingAsyncPipelineExecutor} {sched : Schedule}
    {e : Exception} (h : (x.finish sched).1 = .raised e) :
    ∃ d, (x.finish sched).2.data = some d ∧ d.thread = .empty := by
  cases hf : x.finished with
  | true => rw [finish_of_finished _ hf] at h; cases h
  | false =>
    simp only [finish, hf, Bool.false_eq_true, if_false] at h ⊢
    generalize x.finishEnter sched = y at h ⊢
    obtain ⟨ysrc, yst, yfin, ydata⟩ := y
    cases ydata with
    | none => cases h
    | some d =>
      cases ht : d.thread with
      | empty =>
        simp only [ht]
        exact ⟨_, rfl, by rw [rethrow_thread, ht]⟩
      | running pc =>
        cases pc with
        | exited =>
          simp only [ht]
          exact ⟨_, rfl, by rw [rethrow_thread]⟩
        | executing => simp [ht] at h
        | finishing => simp [ht] at h
        | completing => simp [ht] at h

theorem destroyData_joined {x : PushingAsyncPipelineExecutor} {d : Data} (w : Window)
    (hd : x.data = some d) (ht : d.thread = .empty) :
    x.destroyData w = (.returned, { x with data := none }) := by
  unfold destroyData
  simp only [idle_runWorker w hd (Or.inr ht), hd, ht]

/-- C11: for every bridge state and every schedule the destructor raises no
error, whatever the implicit `cancel()` does: when `cancel()` raises (also when
`finish()` inside it rethrows a captured failure of the engine) the handler
swallows it and the destructor returns.  On every reachable bridge the
destructor returns as soon as `execute` ends while the caller waits in
`join()`. -/
theorem destructor_never_raises (b : PushingAsyncPipelineExecutor) (sched : Schedule) :
    (∀ e, (b.destructor sched).1 ≠ .raised e) ∧
    (∀ e, (b.cancel sched).1 = .raised e → (b.destructor sched).1 = .returned) ∧
    (Reachable b → ∀ w0 w1 : Window,
      (b.destructor [w0, w1, exitWindow, exitWindow]).1 = .returned) := by
  refine ⟨?_, ?_, ?_⟩
  · intro e
    unfold destructor
    cases hc : (b.cancel sched).1 with
    | returned => simp only [destructorCatch]; exact destroyData_not_raised _ _ e
    | raised e1 => simp only [destructorCatch]; exact destroyData_not_raised _ _ e
    | blocked => simp [destructorCatch]
    | undefined => simp [destructorCatch]
  · intro e he
    have hj : ∃ d, (b.cancel sched).2.data = some d ∧ d.thread = .empty :=
      finish_raised_joined he
    obtain ⟨d, hd, ht⟩ := hj
    unfold destructor
    simp only [he, destructorCatch]
    rw [destroyData_joined _ hd ht]
  · intro hr w0 w1
    have hw := wf_of_reachable hr
    have hc : (b.cancel [w0, w1, exitWindow, exitWindow]).1.completed = true :=
      finish_completes _ (wf_requestCancel (wf_runWorker _ hw)) rfl
    unfold destructor
    cases ho : (b.cancel [w0, w1, exitWindow, exitWindow]).1 with
    | returned => simp only [destructorCatch]; exact destroyData_exit _
    | raised e1 => simp only [destructorCatch]; exact destroyData_exit _
    | blocked => rw [ho] at hc; cases hc
    | undefined => rw [ho] at hc; cases hc

/-- C11 at `afterFailure`: the implicit `cancel()` raises the captured failure and
the destructor returns. -/
theorem destructor_never_raises_witness :
    (afterFailure.cancel [[], [], exitWindow]).1 = .raised Exception.sample ∧
    (afterFailure.destructor [[], [], exitWindow]).1 = .returned :=
  ⟨rfl, (destructor_never_raises afterFailure [[], [], exitWindow]).2.1 _ rfl⟩

theorem finish_after_join {x : PushingAsyncPipelineExecutor} (sched : Schedule)
    (hw : WF x) (hs : x.started = true) (hf : x.finished = false)
    (hc : (x.finish sched).1.completed = true) :
    ∃ d, (x.finishEnter sched).data = some d ∧
      (d.thread = .running .exited ∨ d.thread = .empty) ∧
      (x.finish sched).1 = d.rethrowExceptionIfHas.1 := by
  have hy : WF (runWorker { x.runWorker (sched.getD 0 []) with
      pushing_source := (x.runWorker (sched.getD 0 [])).pushing_source.finish }
      (sched.getD 1 [])) :=
    wf_runWorker _ (wf_source_finish (wf_runWorker _ hw))
  have hys : (runWorker { x.runWorker (sched.getD 0 []) with
      pushing_source := (x.runWorker (sched.getD 0 [])).pushing_source.finish }
      (sched.getD 1 [])).started = true := by
    rw [runWorker_started]
    simp only
    rw [runWorker_started]
    exact hs
  simp only [finish, hf, Bool.false_eq_true, if_false, finishEnter_eq] at hc ⊢
  generalize runWorker { x.runWorker (sched.getD 0 []) with
      pushing_source := (x.runWorker (sched.getD 0 [])).pushing_source.finish }
      (sched.getD 1 []) = y at hy hys hc ⊢
  obtain ⟨d, hd, _, _⟩ := hy.started hys
  obtain ⟨ysrc, yst, yfin, ydata⟩ := y
  simp only at hd
  subst hd
  simp only at hc ⊢
  cases ht : d.thread with
  | empty =>
    simp only [ht]
    exact ⟨d, rfl, Or.inr ht, rfl⟩
  | running pc =>
    cases pc with
    | exited =>
      simp only [ht]
      exact ⟨d, rfl, Or.inl ht, rethrow_joined d⟩
    | executing => simp [ht, Outcome.completed] at hc
    | finishing => simp [ht, Outcome.completed] at hc
    | completing => simp [ht, Outcome.completed] at hc

/-- C15 as stated fails: on a bridge whose `finished` is already set while the
worker has ended with a captured failure, `cancel()` sends no request, its
`finish()` does nothing, and it returns normally: the captured failure is not
propagated and stays pending. -/
theorem cancel_skips_captured_error :
    Reachable afterLateFailure ∧
    TerminatedWith afterLateFailure Exception.sample ∧
    afterLateFailure.cancel [] = (.returned, afterLateFailure) ∧
    (afterLateFailure.cancel []).2.data.map (fun d => d.has_exception) = some true :=
  ⟨⟨[.call .finish [],
      .call (.push Chunk.one) [[], [], [.throws Exception.sample, .advance, .advance]]], rfl⟩,
    ⟨rfl, rfl, _, rfl, rfl, rfl, rfl, rfl, rfl⟩, rfl, rfl⟩

/-- C15, amended: on every reachable bridge `cancel()` runs its first statement
and then `finish()`.  The first statement sends one request to the engine
exactly when the bridge is started and `is_finished` is clear, and changes
nothing otherwise.  When `finished` was clear, a `cancel()` that comes to an end
on a started bridge has the outcome of `rethrowExceptionIfHas` after the join,
so it raises a captured error; when `finished` was set, `finish()` inside it
does nothing and `cancel()` returns normally. -/
theorem cancel_requests_then_finishes (b : PushingAsyncPipelineExecutor) (sched : Schedule)
    (hr : Reachable b) :
    b.cancel sched
      = (b.runWorker (sched.getD 0 [])).requestCancel.finish (sched.drop 1) ∧
    (b.started = true →
      ∃ d, (b.runWorker (sched.getD 0 [])).data = some d ∧
        (d.is_finished = false →
          (b.runWorker (sched.getD 0 [])).requestCancel.cancelRequests
            = (b.runWorker (sched.getD 0 [])).cancelRequests + 1) ∧
        (d.is_finished = true →
          (b.runWorker (sched.getD 0 [])).requestCancel = b.runWorker (sched.getD 0 []))) ∧
    (b.started = false →
      (b.runWorker (sched.getD 0 [])).requestCancel = b.runWorker (sched.getD 0 [])) ∧
    (b.finished = false → b.started = true → (b.cancel sched).1.completed = true →
      ∃ d, ((b.runWorker (sched.getD 0 [])).requestCancel.finishEnter (sched.drop 1)).data
          = some d ∧
        (d.thread = .running .exited ∨ d.thread = .empty) ∧
        (b.cancel sched).1 = d.rethrowExceptionIfHas.1) ∧
    (b.finished = true →
      b.cancel sched = (.returned, (b.runWorker (sched.getD 0 [])).requestCancel)) := by
  have hw := wf_of_reachable hr
  have hx : WF (b.runWorker (sched.getD 0 [])) := wf_runWorker _ hw
  have hxs : (b.runWorker (sched.getD 0 [])).started = b.started := runWorker_started _ _
  have hxf : (b.runWorker (sched.getD 0 [])).finished = b.finished := runWorker_finished _ _
  have hcancel : b.cancel sched
      = (b.runWorker (sched.getD 0 [])).requestCancel.finish (sched.drop 1) := rfl
  rw [hcancel]
  generalize b.runWorker (sched.getD 0 []) = x at hx hxs hxf
  refine ⟨rfl, ?_, ?_, ?_, ?_⟩
  · intro hs
    obtain ⟨d, hd, hex, _⟩ := hx.started (hxs.trans hs)
    obtain ⟨ex, hex⟩ := Option.isSome_iff_exists.1 hex
    refine ⟨d, hd, ?_, ?_⟩
    · intro hif
      simp [requestCancel, cancelRequests, hd, hif, hex, PipelineExecutor.cancel]
    · intro hif
      simp [requestCancel, hd, hif]
  · intro hs
    have hd := (hx.unstarted (hxs.trans hs)).1
    simp [requestCancel, hd]
  · intro hf hs hc
    exact finish_after_join _ (wf_requestCancel hx)
      (by rw [requestCancel_started]; exact hxs.trans hs)
      (by rw [requestCancel_finished]; exact hxf.trans hf) hc
  · intro hf
    exact finish_of_finished _ (by rw [requestCancel_finished]; exact hxf.trans hf)

/-- C15, amended, at `afterFailure`: `cancel()` sends a request, joins the worker
and raises the captured failure. -/
theorem cancel_requests_then_finishes_witness :
    Reachable afterFailure ∧ afterFailure.started = true ∧ afterFailure.finished = false ∧
    afterFailure.requestCancel.cancelRequests = afterFailure.cancelRequests + 1 ∧
    (afterFailure.cancel [[], [], exitWindow]).1 = .raised Exception.sample ∧
    ∃ d, (afterFailure.requestCancel.finishEnter [[], exitWindow]).data = some d ∧
      (d.thread = .running .exited ∨ d.thread = .empty) ∧
      (afterFailure.cancel [[], [], exitWindow]).1 = d.rethrowExceptionIfHas.1 :=
  ⟨⟨[.call (.push Chunk.one) [], .worker [.throws Exception.sample]], rfl⟩, rfl, rfl, rfl, rfl,
    (cancel_requests_then_finishes afterFailure [[], [], exitWindow]
      ⟨[.call (.push Chunk.one) [], .worker [.throws Exception.sample]], rfl⟩).2.2.2.1
      rfl rfl rfl⟩

theorem captured_push {x : PushingAsyncPipelineExecutor} {e : Exception} (chunk : Chunk)
    (sched : Schedule) (hc : Captured x e)
    (hready : (x.pushEnter (sched.getD 0 [])).pushing_source.setDataReady = true) :
    (x.push chunk sched).1 = .raised e := by
  have hc1 : Captured (x.pushEnter (sched.getD 0 [])) e := by
    rw [pushEnter_of_started _ hc.1]
    exact captured_runWorker _ hc
  simp only [push, setData_ready chunk hready]
  obtain ⟨_, d, hd, hf, he, _⟩ := captured_runWorker (sched.getD 1 [])
    (captured_setSource
      (if (x.pushEnter (sched.getD 0 [])).pushing_source.is_finished = true
        then (x.pushEnter (sched.getD 0 [])).pushing_source
        else { (x.pushEnter (sched.getD 0 [])).pushing_source with
                data := chunk, has_data := true }) hc1)
  rw [pushCheck_flag _ _ hd hf he]

theorem captured_finishEnter {x : PushingAsyncPipelineExecutor} {e : Exception}
    (sched : Schedule) (hc : Captured x e) : Captured (x.finishEnter sched) e := by
  rw [finishEnter_eq]
  exact captured_runWorker _ (captured_setSource _ (captured_runWorker _ hc))

theorem captured_finish {x : PushingAsyncPipelineExecutor} {e : Exception}
    (sched : Schedule) (hw : WF x) (hc : Captured x e) (hf : x.finished = false)
    (hcomp : (x.finish sched).1.completed = true) :
    (x.finish sched).1 = .raised e := by
  obtain ⟨d, hd, _, ho⟩ := finish_after_join sched hw hc.1 hf hcomp
  obtain ⟨_, d1, hd1, hfl, he, _⟩ := captured_finishEnter sched hc
  rw [hd] at hd1
  cases hd1
  rw [ho]
  simp [Data.rethrowExceptionIfHas, hfl, he]

theorem throws_captured {x : PushingAsyncPipelineExecutor} {d : Data}
    (during : List EngineStep) (e : Exception)
    (hs : x.started = true) (hd : x.data = some d) (ht : d.thread = .running .executing) :
    Captured (x.runWorker (during.map EngineStep.event ++ [.throws e])) e := by
  obtain ⟨d1, h1, h2, _⟩ := during_executing during hd ht
  rw [runWorker_append]
  have hs1 : (x.runWorker (during.map EngineStep.event)).started = true := by
    rw [runWorker_started]; exact hs
  generalize x.runWorker (during.map EngineStep.event) = y at h1 hs1
  obtain ⟨ysrc, yst, yfin, ydata⟩ := y
  simp only at h1 hs1
  subst h1 hs1
  obtain ⟨ex, exc, so, isf, hasx, th, fe⟩ := d1
  simp only at h2
  subst h2
  exact ⟨rfl, _, rfl, rfl, rfl, by simp⟩

/-- C18 as stated fails: the engine can pull the batch and fail between the
return of `setData` and the exchange of the flag in the same `push`; the `push`
that delivered the batch then raises the engine's error itself. -/
theorem delivering_push_can_raise :
    ((init.pushEnter []).pushing_source.setData Chunk.one).map Prod.fst = some true ∧
    (init.push Chunk.one [[], [.pull, .throws Exception.sample]]).1
      = .raised Exception.sample ∧
    (init.push Chunk.one [[], [.pull, .throws Exception.sample]]).1 ≠ .returned :=
  ⟨rfl, rfl, by decide⟩

/-- C18, amended: let `setData` accept the batch on a reachable bridge.  If no
failure is captured when `push` exchanges the flag, this `push` returns
normally; when the engine, still inside `execute`, then throws `e`, the next
`push` raises `e` as soon as its `setData` returns, and a `finish` that comes to
an end raises `e`.  If a failure is already captured at the exchange, the
delivering `push` itself raises it. -/
theorem push_then_engine_failure (b : PushingAsyncPipelineExecutor) (chunk : Chunk)
    (sched : Schedule) (src : PushingAsyncSource) (d : Data)
    (hr : Reachable b)
    (hacc : (b.pushEnter (sched.getD 0 [])).pushing_source.setData chunk = some (true, src))
    (hd : (runWorker { b.pushEnter (sched.getD 0 []) with pushing_source := src }
        (sched.getD 1 [])).data = some d) :
    (d.has_exception = false →
      b.push chunk sched
        = (.returned, runWorker { b.pushEnter (sched.getD 0 []) with pushing_source := src }
            (sched.getD 1 []))) ∧
    (∀ e, d.has_exception = true → d.exception = some e →
      (b.push chunk sched).1 = .raised e) ∧
    (d.has_exception = false → d.thread = .running .executing →
      ∀ (during : List EngineStep) (e : Exception) (chunk2 : Chunk) (sched2 : Schedule),
        ((((b.push chunk sched).2.runWorker
              (during.map EngineStep.event ++ [.throws e])).pushEnter
            (sched2.getD 0 [])).pushing_source.setDataReady = true →
          (((b.push chunk sched).2.runWorker
              (during.map EngineStep.event ++ [.throws e])).push chunk2 sched2).1
            = .raised e) ∧
        ((((b.push chunk sched).2.runWorker
              (during.map EngineStep.event ++ [.throws e])).finish sched2).1.completed = true →
          (((b.push chunk sched).2.runWorker
              (during.map EngineStep.event ++ [.throws e])).finish sched2).1
            = .raised e)) := by
  have hw := wf_of_reachable hr
  have hw1 : WF (b.pushEnter (sched.getD 0 [])) := wf_pushEnter _ hw
  have hs1 : (b.pushEnter (sched.getD 0 [])).started = true := pushEnter_started _ _
  have hnf : (b.pushEnter (sched.getD 0 [])).finished = false := by
    cases hf : (b.pushEnter (sched.getD 0 [])).finished with
    | false => rfl
    | true =>
      rw [setData_of_finished chunk (hw1.finished_source hf)] at hacc
      simp at hacc
  have hw2 : WF (runWorker { b.pushEnter (sched.getD 0 []) with pushing_source := src }
      (sched.getD 1 [])) := wf_runWorker _ (wf_setData hw1 hs1 hacc)
  have hs2 : (runWorker { b.pushEnter (sched.getD 0 []) with pushing_source := src }
      (sched.getD 1 [])).started = true := by
    rw [runWorker_started]; exact hs1
  have hf2 : (runWorker { b.pushEnter (sched.getD 0 []) with pushing_source := src }
      (sched.getD 1 [])).finished = false := by
    rw [runWorker_finished]; exact hnf
  have hpush : b.push chunk sched
      = pushCheck true (runWorker { b.pushEnter (sched.getD 0 []) with pushing_source := src }
          (sched.getD 1 [])) (sched.getD 2 []) := by
    simp only [push, hacc]
  rw [hpush]
  generalize runWorker { b.pushEnter (sched.getD 0 []) with pushing_source := src }
      (sched.getD 1 []) = b2 at hd hw2 hs2 hf2
  refine ⟨?_, ?_, ?_⟩
  · intro hfl
    exact pushCheck_pushed _ hd hfl
  · intro e hfl he
    rw [pushCheck_flag _ _ hd hfl he]
  · intro hfl ht during e chunk2 sched2
    rw [pushCheck_pushed _ hd hfl]
    simp only
    have hc := throws_captured during e hs2 hd ht
    refine ⟨fun hready => captured_push chunk2 sched2 hc hready, fun hcomp => ?_⟩
    exact captured_finish sched2 (wf_runWorker _ hw2) hc
      (by rw [runWorker_finished]; exact hf2) hcomp

/-- C18, amended, on the fresh bridge: the `push` of the batch returns normally;
the engine then pulls the batch and throws, and the next `push` raises the
failure. -/
theorem push_then_engine_failure_witness :
    Reachable init ∧
    (init.pushEnter []).pushing_source.setData Chunk.one
      = some (true, PushingAsyncSource.mk Chunk.one true false) ∧
    (init.push Chunk.one []).1 = .returned ∧
    (((init.push Chunk.one []).2.runWorker
        ([EngineStep.pull].map EngineStep.event ++ [.throws Exception.sample])).push
      Chunk.two []).1 = .raised Exception.sample :=
  ⟨⟨[], rfl⟩, rfl, rfl,
    ((push_then_engine_failure init Chunk.one [] (PushingAsyncSource.mk Chunk.one true false)
      _ ⟨[], rfl⟩ rfl rfl).2.2 rfl rfl [.pull] Exception.sample Chunk.two []).1 rfl⟩

end PushingAsyncPipelineExecutor

/-! ## The source: empty batches and the slot invariant -/

namespace PushingAsyncSource

theorem call_keeps_finished {s s1 : PushingAsyncSource} {c : Call}
    (hc : s.call c = some s1) (hf : s.is_finished = true) : s1.is_finished = true := by
  cases c with
  | setData chunk =>
    simp only [call, setData, Option.map_eq_some'] at hc
    obtain ⟨r, hr, rfl⟩ := hc
    split at hr
    · cases hr; exact hf
    · cases hr
  | generate =>
    simp only [call, generate, Option.map_eq_some'] at hc
    obtain ⟨r, hr, rfl⟩ := hc
    split at hr
    · cases hr; exact hf
    · cases hr
  | finish =>
    simp only [call, Option.some.injEq] at hc
    subst hc
    rfl

theorem calls_keep_finished {cs : List Call} {s s1 : PushingAsyncSource}
    (hc : s.calls cs = some s1) (hf : s.is_finished = true) : s1.is_finished = true := by
  induction cs generalizing s with
  | nil =>
    simp only [calls, Option.some.injEq] at hc
    subst hc
    exact hf
  | cons c cs ih =>
    simp only [calls, Option.bind_eq_some] at hc
    obtain ⟨s2, h2, h3⟩ := hc
    exact ih h3 (call_keeps_finished h2 hf)

/-- C21: `setData` accepts an empty batch.  On a slot that is not finished and holds
no batch, `setData` of the empty chunk returns `true`, and the `generate` that follows
returns the empty chunk, the value that also signals the end of the input, while
`is_finished` is still clear; from the initial slot this takes no call of `finish`. -/
theorem setData_accepts_empty (s : PushingAsyncSource)
    (hf : s.is_finished = false) (hd : s.has_data = false) :
    s.setData Chunk.empty
        = some (true, { s with data := Chunk.empty, has_data := true }) ∧
      generate { s with data := Chunk.empty, has_data := true }
        = some (Chunk.empty, { s with data := Chunk.empty, has_data := false }) ∧
      ({ s with data := Chunk.empty, has_data := false } : PushingAsyncSource).is_finished
        = false ∧
      (init.setData Chunk.empty).bind (fun r => r.2.generate) = some (Chunk.empty, init) := by
  refine ⟨?_, ?_, hf, rfl⟩
  · simp [setData, setDataReady, hf, hd]
  · simp [generate, generateReady]

theorem setData_accepts_empty_witness :
    init.setData Chunk.empty
        = some (true, { init with data := Chunk.empty, has_data := true }) ∧
      generate { init with data := Chunk.empty, has_data := true }
        = some (Chunk.empty, { init with data := Chunk.empty, has_data := false }) ∧
      ({ init with data := Chunk.empty, has_data := false } : PushingAsyncSource).is_finished
        = false ∧
      (init.setData Chunk.empty).bind (fun r => r.2.generate) = some (Chunk.empty, init) :=
  setData_accepts_empty init rfl rfl

/-- C22: the slot invariant.  In every state that a sequence of `setData`, `generate`
and `finish` calls reaches from the initial slot, each call taken only when its wait
condition holds, a clear `has_data` means that the stored chunk is the empty one; the
same holds after any further such calls, and these never clear `is_finished` once it
is set. -/
theorem slot_invariant (s s1 : PushingAsyncSource) (cs : List Call)
    (hr : Reachable s) (hc : s.calls cs = some s1) :
    (s.has_data = false → s.data = Chunk.empty) ∧
      (s1.has_data = false → s1.data = Chunk.empty) ∧
      (s.is_finished = true → s1.is_finished = true) := by
  have h0 : Clean s := clean_of_reachable hr
  exact ⟨h0, clean_calls h0 hc, calls_keep_finished hc⟩

theorem slot_invariant_witness :
    ((PushingAsyncSource.mk Chunk.one true true).has_data = false →
        (PushingAsyncSource.mk Chunk.one true true).data = Chunk.empty) ∧
      ((PushingAsyncSource.mk Chunk.empty false true).has_data = false →
        (PushingAsyncSource.mk Chunk.empty false true).data = Chunk.empty) ∧
      ((PushingAsyncSource.mk Chunk.one true true).is_finished = true →
        (PushingAsyncSource.mk Chunk.empty false true).is_finished = true) :=
  slot_invariant ⟨Chunk.one, true, true⟩ ⟨Chunk.empty, false, true⟩ [.generate]
    ⟨[.setData Chunk.one, .finish], rfl⟩ rfl

end PushingAsyncSource

/-! ## The bridge: the constructor -/

namespace PushingAsyncPipelineExecutor

/-- C23: the constructor throws if and only if the pipeline is not a pushing one, and
what it throws then is a `LOGICAL_ERROR`.  For a pushing pipeline it returns the fresh
bridge, and the processor list of the pipeline is the former list followed by exactly
one new entry, the source made over the header of the pipeline input. -/
theorem construct_cases (pipeline : QueryPipeline) :
    ((∃ e, construct pipeline = .error e) ↔ pipeline.pushing = false) ∧
      (∀ e, construct pipeline = .error e → e.code = .LOGICAL_ERROR) ∧
      (pipeline.pushing = true →
        ∃ p, construct pipeline = .ok (init, p) ∧
          p.processors
            = pipeline.processors ++ [.pushingAsyncSource pipeline.input.header] ∧
          p.processors.length = pipeline.processors.length + 1 ∧
          p.processors.take pipeline.processors.length = pipeline.processors) := by
  cases hp : pipeline.pushing
  · refine ⟨?_, ?_, ?_⟩
    · simp [construct, hp]
    · intro e he
      simp only [construct, hp, Bool.not_false, if_true, Except.error.injEq] at he
      subst he
      rfl
    · intro h
      cases h
  · refine ⟨?_, ?_, ?_⟩
    · simp [construct, hp]
    · intro e he
      simp [construct, hp] at he
    · intro _
      refine ⟨{ pipeline with
        input := { pipeline.input with connected := true },
        processors := pipeline.processors ++ [.pushingAsyncSource pipeline.input.header] },
        ?_, rfl, ?_, ?_⟩
      · simp only [construct, hp, Bool.not_true, Bool.false_eq_true, if_false]
        rfl
      · simp
      · simp

theorem construct_cases_witness :
    ((∃ e, construct QueryPipeline.sample = .error e)
        ↔ QueryPipeline.sample.pushing = false) ∧
      (∀ e, construct QueryPipeline.sample = .error e → e.code = .LOGICAL_ERROR) ∧
      (QueryPipeline.sample.pushing = true →
        ∃ p, construct QueryPipeline.sample = .ok (init, p) ∧
          p.processors
            = QueryPipeline.sample.processors
              ++ [.pushingAsyncSource QueryPipeline.sample.input.header] ∧
          p.processors.length = QueryPipeline.sample.processors.length + 1 ∧
          p.processors.take QueryPipeline.sample.processors.length
            = QueryPipeline.sample.processors) :=
  construct_cases QueryPipeline.sample

end PushingAsyncPipelineExecutor

/-! ## The `Regexp` input format: `parseRow` -/

theorem takeWhile_append_of_dropWhile_ne_nil {α : Type} (p : α → Bool) (l r : List α)
    (h : l.dropWhile p ≠ []) :
    (l ++ r).takeWhile p = l.takeWhile p ∧ (l ++ r).dropWhile p = l.dropWhile p ++ r := by
  induction l with
  | nil => simp at h
  | cons a l ih =>
    cases hp : p a
    · simp [List.takeWhile_cons, List.dropWhile_cons, hp]
    · simp only [List.dropWhile_cons, hp, if_true] at h
      simp [List.takeWhile_cons, List.dropWhile_cons, hp, ih h]

theorem takeWhile_append_of_dropWhile_eq_nil {α : Type} (p : α → Bool) (l r : List α)
    (h : l.dropWhile p = []) :
    (l ++ r).takeWhile p = l ++ r.takeWhile p ∧ (l ++ r).dropWhile p = r.dropWhile p ∧
      l.takeWhile p = l := by
  induction l with
  | nil => simp
  | cons a l ih =>
    cases hp : p a
    · simp [List.dropWhile_cons, hp] at h
    · simp only [List.dropWhile_cons, hp, if_true] at h
      simp [List.takeWhile_cons, List.dropWhile_cons, hp, ih h]

theorem head_dropWhile_not {α : Type} (p : α → Bool) (l : List α) (x : α) (xs : List α)
    (h : l.dropWhile p = x :: xs) : p x = false := by
  induction l with
  | nil => simp at h
  | cons a l ih =>
    cases hp : p a
    · simp only [List.dropWhile_cons, hp] at h
      simp only [Bool.false_eq_true, if_false, List.cons.injEq] at h
      rw [← h.1]; exact hp
    · simp only [List.dropWhile_cons, hp, if_true] at h
      exact ih h

namespace RegexpFieldExtractor

theorem scanLine_spec (pending : List (List Char)) :
    ∀ (line available : List Char),
      (scanLine line available pending).1
          = line ++ (available ++ pending.flatten).takeWhile (· ≠ '\n') ∧
        (scanLine line available pending).2.rest
          = (available ++ pending.flatten).dropWhile (· ≠ '\n') ∧
        ((scanLine line available pending).2.available = [] →
          (scanLine line available pending).2.pending = []) ∧
        (∀ x xs, (scanLine line available pending).2.available = x :: xs → x = '\n') := by
  induction pending with
  | nil =>
    intro line available
    refine ⟨by simp [scanLine], by simp [scanLine, PeekableReadBuffer.rest], by simp [scanLine],
      ?_⟩
    intro x xs h
    simp only [scanLine] at h
    simpa using head_dropWhile_not _ _ _ _ h
  | cons c pending ih =>
    intro line available
    by_cases hd : available.dropWhile (· ≠ '\n') = []
    · obtain ⟨h1, h2, h3⟩ := takeWhile_append_of_dropWhile_eq_nil _ available
        (c ++ pending.flatten) hd
      obtain ⟨i1, i2, i3, i4⟩ := ih (line ++ available.takeWhile (· ≠ '\n')) c
      simp only [scanLine, hd, if_true, List.flatten_cons]
      refine ⟨?_, ?_, i3, i4⟩
      · rw [i1, h1, h3, List.append_assoc]
      · rw [i2, h2]
    · obtain ⟨h1, h2⟩ := takeWhile_append_of_dropWhile_ne_nil _ available
        (c ++ pending.flatten) hd
      simp only [scanLine, hd, if_false, List.flatten_cons]
      refine ⟨by rw [h1], ?_, ?_, ?_⟩
      · rw [h2]; rfl
      · intro h; exact h.elim
      · intro x xs h
        simpa using head_dropWhile_not _ _ _ _ h

theorem take_lineToMatch (line : List Char) :
    line.take (lineToMatch line) = stripCarriageReturn line := by
  rcases List.eq_nil_or_concat line with rfl | ⟨l, a, rfl⟩
  · simp [lineToMatch, stripCarriageReturn]
  · by_cases ha : a = '\r'
    · subst ha
      simp [lineToMatch, stripCarriageReturn, List.getD_eq_getElem?_getD]
    · simp [lineToMatch, stripCarriageReturn, List.getD_eq_getElem?_getD, ha]

end RegexpFieldExtractor

namespace RegexpFieldExtractor

theorem finish_line (sc : PeekableReadBuffer) (m : Bool) (ext1 : RegexpFieldExtractor)
    (h3 : sc.available = [] → sc.pending = [])
    (h4 : ∀ x xs, sc.available = x :: xs → x = '\n') :
    ∃ buf1,
      (match sc.eof with
        | (true, buf1) => Except.ok (m, ext1, buf1)
        | (false, buf1) =>
          match checkChar '\n' buf1 with
          | (false, _) => Except.error (⟨.LOGICAL_ERROR, "No \\n at the end of line."⟩ : Exception)
          | (true, buf2) => Except.ok (m, ext1, buf2))
        = Except.ok (m, ext1, buf1) ∧
      buf1.rest = sc.rest.drop 1 := by
  obtain ⟨available, pending⟩ := sc
  cases available with
  | nil =>
    have hp : pending = [] := h3 rfl
    subst hp
    exact ⟨_, rfl, rfl⟩
  | cons x xs =>
    have hx : x = '\n' := h4 x xs rfl
    subst hx
    refine ⟨⟨xs, pending⟩, ?_, ?_⟩
    · simp [PeekableReadBuffer.eof, checkChar]
    · simp [PeekableReadBuffer.rest]

/-- C28: DOS line endings.  For every buffer, `parseRow` matches the expression against
the bytes of the current line, those before the first line feed of the input, without
one carriage return at their end.  It throws `INCORRECT_DATA` if and only if that text
does not match as a whole and `skip_unmatched` is off; otherwise it returns whether the
text matched and leaves the buffer just after the line and the line feed that ends it,
which is the end of the input when no line feed is left. -/
theorem parseRow_line (ext : RegexpFieldExtractor) (buf : PeekableReadBuffer) :
    (((ext.regexp.FullMatchN (stripCarriageReturn (currentLine buf))).isSome = false ∧
        ext.skip_unmatched = false) →
      ∃ message, ext.parseRow buf = .error ⟨.INCORRECT_DATA, message⟩) ∧
    (¬ ((ext.regexp.FullMatchN (stripCarriageReturn (currentLine buf))).isSome = false ∧
        ext.skip_unmatched = false) →
      ∃ ext1 buf1,
        ext.parseRow buf
          = .ok ((ext.regexp.FullMatchN (stripCarriageReturn (currentLine buf))).isSome,
              ext1, buf1) ∧
        buf1.rest = afterLine buf ∧
        ext1.getMatchedFieldsSize = ext.getMatchedFieldsSize) := by
  obtain ⟨h1, h2, h3, h4⟩ := scanLine_spec buf.pending [] buf.available
  have hline : (scanLine [] buf.available buf.pending).1 = currentLine buf := by
    rw [h1]; rfl
  have hrest : (scanLine [] buf.available buf.pending).2.rest.drop 1 = afterLine buf := by
    rw [h2]; rfl
  constructor
  · rintro ⟨hm, hs⟩
    refine ⟨"Line \"" ++ String.mk (stripCarriageReturn (currentLine buf))
      ++ "\" doesn't match the regexp: `" ++ ext.regexp_str ++ "`", ?_⟩
    simp only [parseRow, hline, take_lineToMatch, hm, hs, Bool.not_false, Bool.and_self,
      if_true]
  · intro hc
    have hc2 : (!(ext.regexp.FullMatchN (stripCarriageReturn (currentLine buf))).isSome
        && !ext.skip_unmatched) = false := by
      cases hm : (ext.regexp.FullMatchN (stripCarriageReturn (currentLine buf))).isSome
      · cases hs : ext.skip_unmatched
        · exact absurd ⟨hm, hs⟩ hc
        · rfl
      · rfl
    obtain ⟨buf1, hb, hr⟩ := finish_line (scanLine [] buf.available buf.pending).2
      (ext.regexp.FullMatchN (stripCarriageReturn (currentLine buf))).isSome
      (match ext.regexp.FullMatchN (stripCarriageReturn (currentLine buf)) with
        | some groups =>
          { ext with matched_fields := (List.range ext.matched_fields.length).map groups }
        | none => ext) h3 h4
    refine ⟨(match ext.regexp.FullMatchN (stripCarriageReturn (currentLine buf)) with
        | some groups =>
          { ext with matched_fields := (List.range ext.matched_fields.length).map groups }
        | none => ext), buf1, ?_, ?_, ?_⟩
    · simp only [parseRow, hline, take_lineToMatch, hc2, Bool.false_eq_true, if_false]
      exact hb
    · rw [hr, hrest]
    · cases ext.regexp.FullMatchN (stripCarriageReturn (currentLine buf)) with
      | none => rfl
      | some groups => simp [getMatchedFieldsSize]

theorem parseRow_line_witness :
    (((RegexpFieldExtractor.sample.regexp.FullMatchN
          (stripCarriageReturn (currentLine PeekableReadBuffer.sample))).isSome = false ∧
        RegexpFieldExtractor.sample.skip_unmatched = false) →
      ∃ message,
        RegexpFieldExtractor.sample.parseRow PeekableReadBuffer.sample
          = .error ⟨.INCORRECT_DATA, message⟩) ∧
    (¬ ((RegexpFieldExtractor.sample.regexp.FullMatchN
          (stripCarriageReturn (currentLine PeekableReadBuffer.sample))).isSome = false ∧
        RegexpFieldExtractor.sample.skip_unmatched = false) →
      ∃ ext1 buf1,
        RegexpFieldExtractor.sample.parseRow PeekableReadBuffer.sample
          = .ok ((RegexpFieldExtractor.sample.regexp.FullMatchN
                (stripCarriageReturn (currentLine PeekableReadBuffer.sample))).isSome,
              ext1, buf1) ∧
        buf1.rest = afterLine PeekableReadBuffer.sample ∧
        ext1.getMatchedFieldsSize = RegexpFieldExtractor.sample.getMatchedFieldsSize) :=
  parseRow_line RegexpFieldExtractor.sample PeekableReadBuffer.sample

end RegexpFieldExtractor

namespace RegexpFieldExtractor

theorem parseRow_sample :
    (RegexpFieldExtractor.sample.parseRow PeekableReadBuffer.sample).toOption.map
        (fun r => (r.1, r.2.1.matched_fields, r.2.2))
      = some (true, [['a', 'b', 'c']], { available := ['d'], pending := [] }) := by
  rfl

end RegexpFieldExtractor

/-! ## The `Regexp` input format: `readFieldsFromMatch` -/

namespace RegexpRowInputFormat

theorem columnsAfter_succ_ok {fmt : RegexpRowInputFormat} {columns : MutableColumns} {k : Nat}
    {v : Bool × MutableColumns} (h : fmt.readField k (columnsAfter fmt columns k) = .ok v) :
    v.2 = columnsAfter fmt columns (k + 1) := by
  obtain ⟨flag, next⟩ := v
  simp only [columnsAfter, h]

theorem readFieldsLoop_throws (fmt : RegexpRowInputFormat) (columns : MutableColumns)
    (k : Nat) (e : Exception)
    (hk : fmt.readField k (columnsAfter fmt columns k) = .error e) :
    ∀ (m i : Nat) (r : ReadFieldsResult), i ≤ k → k < i + m →
      r.columns = columnsAfter fmt columns i →
      (∀ j, i ≤ j → j < k → ∃ v, fmt.readField j (columnsAfter fmt columns j) = .ok v) →
      (readFieldsLoop fmt (List.range' i m) r).thrown = some e ∧
        (readFieldsLoop fmt (List.range' i m) r).calls
          = r.calls ++ List.range' i (k + 1 - i) := by
  intro m
  induction m with
  | zero => intro i r h1 h2; omega
  | succ m ih =>
    intro i r h1 h2 hc hok
    rw [List.range'_succ]
    by_cases hik : i = k
    · subst hik
      simp only [readFieldsLoop, hc, hk]
      simp
    · obtain ⟨v, hv⟩ := hok i (le_refl i) (by omega)
      have hv2 := columnsAfter_succ_ok hv
      obtain ⟨flag, next⟩ := v
      simp only [readFieldsLoop, hc, hv]
      obtain ⟨t1, t2⟩ := ih (i + 1)
        { r with columns := next,
                 ext := { read_columns := r.ext.read_columns.set i flag },
                 calls := r.calls ++ [i] }
        (by omega) (by omega) hv2 (fun j hj1 hj2 => hok j (by omega) hj2)
      refine ⟨t1, ?_⟩
      rw [t2]
      have : k + 1 - i = (k + 1 - (i + 1)) + 1 := by omega
      rw [this, List.range'_succ]
      simp

theorem readFieldsLoop_returns (fmt : RegexpRowInputFormat) (columns : MutableColumns) :
    ∀ (m i : Nat) (r : ReadFieldsResult),
      r.thrown = none →
      r.columns = columnsAfter fmt columns i →
      (∀ j, i ≤ j → j < i + m → ∃ v, fmt.readField j (columnsAfter fmt columns j) = .ok v) →
      (readFieldsLoop fmt (List.range' i m) r).thrown = none ∧
        (readFieldsLoop fmt (List.range' i m) r).calls = r.calls ++ List.range' i m ∧
        (readFieldsLoop fmt (List.range' i m) r).columns = columnsAfter fmt columns (i + m) ∧
        (readFieldsLoop fmt (List.range' i m) r).ext.read_columns.length
          = r.ext.read_columns.length ∧
        (∀ j, j < i →
          (readFieldsLoop fmt (List.range' i m) r).ext.read_columns.getD j false
            = r.ext.read_columns.getD j false) ∧
        (∀ j, i ≤ j → j < i + m → j < r.ext.read_columns.length →
          fmt.readField j (columnsAfter fmt columns j)
            = .ok ((readFieldsLoop fmt (List.range' i m) r).ext.read_columns.getD j false,
                columnsAfter fmt columns (j + 1))) := by
  intro m
  induction m with
  | zero =>
    intro i r h1 h2 h3
    refine ⟨h1, by simp [readFieldsLoop], h2, rfl, fun _ _ => rfl, ?_⟩
    intro j hj1 hj2
    omega
  | succ m ih =>
    intro i r h1 h2 h3
    obtain ⟨v, hv⟩ := h3 i (le_refl i) (by omega)
    have hv2 := columnsAfter_succ_ok hv
    obtain ⟨flag, next⟩ := v
    obtain ⟨t1, t2, t3, t4, t5, t6⟩ := ih (i + 1)
      { r with columns := next,
               ext := { read_columns := r.ext.read_columns.set i flag },
               calls := r.calls ++ [i] }
      h1 hv2 (fun j hj1 hj2 => h3 j (by omega) (by omega))
    rw [List.range'_succ]
    simp only [readFieldsLoop, h2, hv]
    refine ⟨t1, ?_, ?_, ?_, ?_, ?_⟩
    · rw [t2]; simp
    · rw [t3]; congr 1; omega
    · rw [t4]; simp
    · intro j hj
      rw [t5 j (by omega)]
      simp only [List.getD_eq_getElem?_getD]
      rw [List.getElem?_set_ne (by omega)]
    · intro j hj1 hj2 hj3
      by_cases hji : j = i
      · subst hji
        rw [t5 j (by omega)]
        simp only [List.getD_eq_getElem?_getD, List.getElem?_set_self hj3, Option.getD_some]
        rw [hv]
        simp only at hv2
        rw [hv2]
      · exact t6 j (by omega) (by omega) (by simpa using hj3)

end RegexpRowInputFormat

namespace RegexpRowInputFormat

/-- C29, as the claim states it, fails: with as many matched fields as columns, a
`readField` that throws for column 0 makes `readFieldsFromMatch` throw, and column 1 is
never read. -/
theorem readFieldsFromMatch_stops_at_throw :
    sample.field_extractor.getMatchedFieldsSize = ([[], []] : MutableColumns).length ∧
      (sample.readFieldsFromMatch [[], []] {}).thrown
        = some ⟨.other 6, "Cannot parse: (while reading the value of column a)"⟩ ∧
      (sample.readFieldsFromMatch [[], []] {}).calls = [0] := by
  refine ⟨rfl, ?_, ?_⟩
  · simp [readFieldsFromMatch, RegexpFieldExtractor.getMatchedFieldsSize, sample,
      readFieldsLoop, readField, RegexpFieldExtractor.getField, Exception.addMessage,
      List.range, List.range.loop]
  · simp [readFieldsFromMatch, RegexpFieldExtractor.getMatchedFieldsSize, sample,
      readFieldsLoop, readField, RegexpFieldExtractor.getField, Exception.addMessage,
      List.range, List.range.loop]

/-- C29, amended: `readFieldsFromMatch` throws its own `INCORRECT_DATA` exactly when the
number of matched fields differs from the number `n` of columns, and then calls
`readField` for no column.  Otherwise it calls `readField` for the indices from 0
upwards, in order and once each.  If the call for index `k` is the first that throws,
its exception leaves `readFieldsFromMatch` and the calls made are those for `0..k`.
If no call throws, the calls are those for `0..n-1`, and `read_columns` has `n`
entries, entry `i` being what `readField(i)` returned. -/
theorem readFieldsFromMatch_cases (fmt : RegexpRowInputFormat) (columns : MutableColumns)
    (ext : RowReadExtension) :
    (fmt.field_extractor.getMatchedFieldsSize ≠ columns.length →
      (∃ message, (fmt.readFieldsFromMatch columns ext).thrown
          = some ⟨.INCORRECT_DATA, message⟩) ∧
        (fmt.readFieldsFromMatch columns ext).calls = []) ∧
    (fmt.field_extractor.getMatchedFieldsSize = columns.length →
      (∀ k e, k < columns.length →
        (∀ j, j < k → ∃ v, fmt.readField j (columnsAfter fmt columns j) = .ok v) →
        fmt.readField k (columnsAfter fmt columns k) = .error e →
        (fmt.readFieldsFromMatch columns ext).thrown = some e ∧
          (fmt.readFieldsFromMatch columns ext).calls = List.range (k + 1)) ∧
      ((∀ j, j < columns.length →
          ∃ v, fmt.readField j (columnsAfter fmt columns j) = .ok v) →
        (fmt.readFieldsFromMatch columns ext).thrown = none ∧
          (fmt.readFieldsFromMatch columns ext).calls = List.range columns.length ∧
          (fmt.readFieldsFromMatch columns ext).ext.read_columns.length = columns.length ∧
          ∀ i, i < columns.length →
            fmt.readField i (columnsAfter fmt columns i)
              = .ok ((fmt.readFieldsFromMatch columns ext).ext.read_columns.getD i false,
                  columnsAfter fmt columns (i + 1)))) := by
  constructor
  · intro h
    rw [readFieldsFromMatch, if_pos h]
    exact ⟨⟨_, rfl⟩, rfl⟩
  · intro h
    have hloop : fmt.readFieldsFromMatch columns ext
        = readFieldsLoop fmt (List.range' 0 columns.length)
            { columns := columns,
              ext := { read_columns := List.replicate columns.length false } } := by
      simp only [readFieldsFromMatch, h, ne_eq, not_true_eq_false, if_false,
        List.range_eq_range']
    rw [hloop]
    constructor
    · intro k e hk hok he
      obtain ⟨t1, t2⟩ := readFieldsLoop_throws fmt columns k e he columns.length 0
        { columns := columns,
          ext := { read_columns := List.replicate columns.length false } }
        (Nat.zero_le k) (by omega) rfl (fun j _ hj => hok j hj)
      refine ⟨t1, ?_⟩
      rw [t2, List.range_eq_range']
      simp
    · intro hok
      obtain ⟨t1, t2, _, t4, _, t6⟩ := readFieldsLoop_returns fmt columns columns.length 0
        { columns := columns,
          ext := { read_columns := List.replicate columns.length false } }
        rfl rfl (fun j _ hj => hok j (by omega))
      refine ⟨t1, ?_, ?_, ?_⟩
      · rw [t2, List.range_eq_range']
        simp
      · rw [t4]; simp
      · intro i hi
        exact t6 i (Nat.zero_le i) (by omega) (by simpa using hi)

theorem readFieldsFromMatch_cases_witness :
    (sampleGood.readFieldsFromMatch [[], []] {}).thrown = none ∧
      (sampleGood.readFieldsFromMatch [[], []] {}).calls = List.range 2 ∧
      (sampleGood.readFieldsFromMatch [[], []] {}).ext.read_columns.length = 2 ∧
      ∀ i, i < 2 →
        sampleGood.readField i (columnsAfter sampleGood [[], []] i)
          = .ok ((sampleGood.readFieldsFromMatch [[], []] {}).ext.read_columns.getD i false,
              columnsAfter sampleGood [[], []] (i + 1)) :=
  ((readFieldsFromMatch_cases sampleGood [[], []] {}).2 rfl).2 (by
    intro j hj
    have hj1 : j < 2 := hj
    have hj2 : j = 0 ∨ j = 1 := by omega
    rcases hj2 with rfl | rfl
    · exact ⟨_, rfl⟩
    · exact ⟨_, rfl⟩)

theorem readFieldsFromMatch_sample :
    sampleGood.readFieldsFromMatch [[], []] {}
      = { columns := [[['2']], [['1']]], ext := { read_columns := [true, true] },
          calls := [0, 1], thrown := none } := by
  rfl

end RegexpRowInputFormat

/-! ## Formatting of functions -/

namespace Formatted

theorem nothing_andThen {σ : Type} (a : Formatted σ) : andThen nothing a = a := by
  funext state
  simp [andThen, nothing]

theorem andThen_nothing {σ : Type} (a : Formatted σ) : andThen a nothing = a := by
  funext state
  simp [andThen, nothing]

theorem andThen_assoc {σ : Type} (a b c : Formatted σ) :
    andThen (andThen a b) c = andThen a (andThen b c) := by
  funext state
  simp [andThen, String.append_assoc]

theorem seq_nil {σ : Type} : seq ([] : List (Formatted σ)) = nothing := rfl

theorem seq_cons {σ : Type} (a : Formatted σ) (later : List (Formatted σ)) :
    seq (a :: later) = andThen a (seq later) := rfl

theorem onlyIf_true {σ : Type} (a : Formatted σ) : onlyIf true a = a := rfl

theorem onlyIf_false {σ : Type} (a : Formatted σ) : onlyIf false a = nothing := rfl

end Formatted

namespace ASTFunction

theorem tryGetQueryArgument_two (f : ASTFunction) (left right : IAST)
    (h : f.arguments = some [left, right]) : f.tryGetQueryArgument = none := by
  simp [tryGetQueryArgument, h]

end ASTFunction

namespace ASTFunction

theorem find_negate :
    unaryPrefixOperators.find? (fun func => strcasecmp (c_str "negate") (c_str func.1) == 0)
      = some ("negate", "-") := by
  rfl

theorem formatAsOperator_negate {σ : Type} (env : FormatEnvironment σ) (f : ASTFunction)
    (child : IAST) (settings : FormatSettings) (frame : FormatStateStacked)
    (hname : f.name = "negate")
    (harguments : f.arguments = some [child])
    (hparameters : f.parameters = none)
    (hnulls : f.nulls_action = .EMPTY)
    (hoperators : frame.allow_operators = true)
    (hchild : (∃ g, child.asFunction = some g ∧ g.name = "negate") ∨
      (∃ value, child = .ASTLiteral value ∧ value.getType ≠ .Tuple ∧ value.getType ≠ .Array)) :
    formatAsOperator env f settings frame
      = .written (.seq [.text "-", .text "(",
          env.formatList [child] settings { frame with need_parens := false }, .text ")"]) := by
  have hinside : formatUnaryPrefix env f [child] child settings frame
      = some (.seq [.text "-", .text "(",
          env.formatList [child] settings { frame with need_parens := false },
          .text ")"]) := by
    rcases hchild with ⟨g, hg, hgn⟩ | ⟨value, rfl, h1, h2⟩
    · cases child <;> simp [IAST.asFunction] at hg
      subst hg
      simp only at hgn
      subst hgn
      simp [formatUnaryPrefix, hname, find_negate, IAST.asLiteral, IAST.asFunction,
        IAST.isSubquery, Formatted.seq_cons, Formatted.seq_nil,
        Formatted.nothing_andThen, Formatted.andThen_nothing, Formatted.onlyIf]
    · simp [formatUnaryPrefix, hname, find_negate, IAST.asLiteral, IAST.asFunction,
        IAST.isSubquery, Formatted.seq_cons, Formatted.seq_nil,
        Formatted.nothing_andThen, Formatted.andThen_nothing, Formatted.onlyIf, h1, h2]
  simp only [formatAsOperator, harguments, hparameters, hnulls, hoperators, hinside,
    Option.isNone_none, Bool.and_self, decide_True, Bool.true_and, if_true, Option.orElse]

theorem negate_exact_parens {σ : Type} (env : FormatEnvironment σ) (f : ASTFunction)
    (child : IAST) (settings : FormatSettings) (frame : FormatStateStacked)
    (hname : f.name = "negate")
    (harguments : f.arguments = some [child])
    (hparameters : f.parameters = none)
    (hnulls : f.nulls_action = .EMPTY)
    (hkind : f.kind ≠ .CODEC ∧ f.kind ≠ .STATISTICS ∧ f.kind ≠ .BACKUP_NAME)
    (hoperators : frame.allow_operators = true)
    (hchild : (∃ g, child.asFunction = some g ∧ g.name = "negate") ∨
      (∃ value, child = .ASTLiteral value ∧ value.getType ≠ .Tuple ∧ value.getType ≠ .Array)) :
    formatImplWithoutAlias env f settings frame
      = .seq [
          .text "-", .text "(",
          env.formatList [child] settings (frame.nested false),
          .text ")",
          finishFormatWithWindow env f settings
            { frame with expression_list_prepend_whitespace := false }] := by
  have hframe : ({ frame with
      expression_list_prepend_whitespace := false,
      allow_operators :=
        if f.kind = .CODEC ∨ f.kind = .STATISTICS ∨ f.kind = .BACKUP_NAME then false
        else frame.allow_operators } : FormatStateStacked)
      = { frame with expression_list_prepend_whitespace := false } := by
    simp [hkind.1, hkind.2.1, hkind.2.2]
  have hq : f.tryGetQueryArgument = none := by
    rcases hchild with ⟨g, hg, _⟩ | ⟨value, rfl, _⟩
    · cases child <;> simp [IAST.asFunction] at hg
      simp [tryGetQueryArgument, harguments, IAST.isSelectWithUnionQuery]
    · simp [tryGetQueryArgument, harguments, IAST.isSelectWithUnionQuery]
  have ho := formatAsOperator_negate env f child settings
    { frame with expression_list_prepend_whitespace := false } hname harguments hparameters
    hnulls hoperators hchild
  simp only [formatImplWithoutAlias, hframe, hq, ho]
  simp [FormatStateStacked.nested, Formatted.seq_cons, Formatted.seq_nil,
    Formatted.andThen_assoc, Formatted.andThen_nothing]

/-- C24: the code does not always put the argument of a unary minus between
parentheses.  The table of the unary operators is matched with `strcasecmp`, but
`inside_parens` compares the names with `==`: the function `NEGATE(1)` is written as
`-1`, and `NEGATE(negate(1))` as `--(1)`, while `negate(1)` is written as `-(1)`. -/
theorem negate_upper_case_without_parens :
    (formatImplWithoutAlias (sampleEnvironment 3) upperNegate {} {} ()).1 = "-1" ∧
      (formatImplWithoutAlias (sampleEnvironment 3) upperNegateOfNegate {} {} ()).1
        = "--(1)" ∧
      (formatImplWithoutAlias (sampleEnvironment 3) lowerNegate {} {} ()).1 = "-(1)" := by
  decide

theorem upperNegate_form {σ : Type} (env : FormatEnvironment σ) (settings : FormatSettings)
    (frame : FormatStateStacked) (hoperators : frame.allow_operators = true) :
    formatImplWithoutAlias env upperNegate settings frame
      = .seq [
          .onlyIf frame.need_parens (.text "("),
          .text "-",
          env.formatList [.ASTLiteral (.uint64 1)] settings (frame.nested true),
          .onlyIf frame.need_parens (.text ")")] := by
  have hfind : unaryPrefixOperators.find?
      (fun func => strcasecmp (c_str "NEGATE") (c_str func.1) == 0) = some ("negate", "-") := by
    rfl
  simp [formatImplWithoutAlias, upperNegate, tryGetQueryArgument, IAST.isSelectWithUnionQuery,
    formatAsOperator, hoperators, formatUnaryPrefix, hfind, IAST.asLiteral, IAST.asFunction,
    IAST.isSubquery, Field.getType, finishFormatWithWindow, FormatStateStacked.nested,
    Formatted.seq_cons, Formatted.seq_nil, Formatted.andThen_assoc,
    Formatted.nothing_andThen, Formatted.andThen_nothing, Formatted.onlyIf]

end ASTFunction

namespace ASTFunction

theorem formatBinary_in {σ : Type} (env : FormatEnvironment σ) (f : ASTFunction)
    (left right : IAST) (settings : FormatSettings) (frame : FormatStateStacked)
    (op : String)
    (hname : (f.name, op) ∈ [("in", " IN "), ("notIn", " NOT IN "),
      ("globalIn", " GLOBAL IN "), ("globalNotIn", " GLOBAL NOT IN ")]) :
    formatBinary env f left right settings frame binaryOperators none
      = some (.seq [.nothing,
          formatBinaryOperator env f left right (f.name, op) settings frame]) := by
  obtain ⟨name, arguments, parameters, window_definition, alias_, kind, nulls_action,
    is_window_function, window_name, no_empty_args⟩ := f
  simp only [List.mem_cons, Prod.mk.injEq, List.mem_singleton, List.not_mem_nil,
    or_false] at hname
  rcases hname with ⟨h1, h2⟩ | ⟨h1, h2⟩ | ⟨h1, h2⟩ | ⟨h1, h2⟩ <;>
    · subst h1 h2
      simp [formatBinary, binaryOperators]

end ASTFunction

namespace ASTFunction

theorem formatAsOperator_in {σ : Type} (env : FormatEnvironment σ) (f : ASTFunction)
    (left right : IAST) (settings : FormatSettings) (frame : FormatStateStacked)
    (op : String)
    (hname : (f.name, op) ∈ [("in", " IN "), ("notIn", " NOT IN "),
      ("globalIn", " GLOBAL IN "), ("globalNotIn", " GLOBAL NOT IN ")])
    (harguments : f.arguments = some [left, right])
    (hparameters : f.parameters = none)
    (hnulls : f.nulls_action = .EMPTY)
    (hoperators : frame.allow_operators = true) :
    formatAsOperator env f settings frame
      = .written (.seq [.nothing,
          formatBinaryOperator env f left right (f.name, op) settings frame]) := by
  have hb := formatBinary_in env f left right settings frame op hname
  simp only [formatAsOperator, harguments, hparameters, hnulls, hoperators, hb,
    Option.isNone_none, Bool.and_self, decide_True, Bool.true_and, if_true, Option.orElse]

/-- C25: `x IN 1` is formatted as `x IN (1)`.  A function of two arguments named `in`,
`notIn`, `globalIn` or `globalNotIn` that is written as an operator (no parameters,
operators allowed, empty nulls action) is written as the left operand, the text of the
operator once, and the right operand, between parentheses if the frame needs them.  The
right operand is put between one more pair of parentheses, and written with
`need_parens` clear, exactly when it is not a function, not a literal of type `Tuple`
or `Array`, and not a subquery; otherwise it is written as it is, with `need_parens`
set. -/
theorem in_rhs_parens {σ : Type} (env : FormatEnvironment σ) (f : ASTFunction)
    (left right : IAST) (settings : FormatSettings) (frame : FormatStateStacked)
    (op : String)
    (hname : (f.name, op) ∈ [("in", " IN "), ("notIn", " NOT IN "),
      ("globalIn", " GLOBAL IN "), ("globalNotIn", " GLOBAL NOT IN ")])
    (harguments : f.arguments = some [left, right])
    (hparameters : f.parameters = none)
    (hnulls : f.nulls_action = .EMPTY)
    (hkind : f.kind ≠ .CODEC ∧ f.kind ≠ .STATISTICS ∧ f.kind ≠ .BACKUP_NAME)
    (hoperators : frame.allow_operators = true) :
    formatImplWithoutAlias env f settings frame
      = .seq [
          .onlyIf frame.need_parens (.text "("),
          env.format left settings (frame.nested true),
          .text op,
          (if !right.isFunction && !right.isTupleOrArrayLiteral && !right.isSubquery then
            .seq [.text "(", env.format right settings (frame.nested false), .text ")"]
          else
            env.format right settings (frame.nested true)),
          .onlyIf frame.need_parens (.text ")"),
          finishFormatWithWindow env f settings
            { frame with expression_list_prepend_whitespace := false }] := by
  have hframe : ({ frame with
      expression_list_prepend_whitespace := false,
      allow_operators :=
        if f.kind = .CODEC ∨ f.kind = .STATISTICS ∨ f.kind = .BACKUP_NAME then false
        else frame.allow_operators } : FormatStateStacked)
      = { frame with expression_list_prepend_whitespace := false } := by
    simp [hkind.1, hkind.2.1, hkind.2.2]
  have hq := tryGetQueryArgument_two f left right harguments
  have ho := formatAsOperator_in env f left right settings
    { frame with expression_list_prepend_whitespace := false } op hname harguments
    hparameters hnulls hoperators
  simp only [formatImplWithoutAlias, hframe, hq, ho]
  have hextra : ((f.name = "in" || f.name = "notIn" || f.name = "globalIn"
      || f.name = "globalNotIn") : Bool) = true := by
    simp only [List.mem_cons, Prod.mk.injEq, List.mem_singleton, List.not_mem_nil,
      or_false] at hname
    rcases hname with ⟨h1, _⟩ | ⟨h1, _⟩ | ⟨h1, _⟩ | ⟨h1, _⟩ <;> simp [h1]
  have hlit : (match right.asLiteral with
      | some value => decide (value.getType = .Tuple) || decide (value.getType = .Array)
      | none => false) = right.isTupleOrArrayLiteral := by
    cases right with
    | ASTLiteral value => cases value <;> rfl
    | _ => rfl
  simp only [formatBinaryOperator, hextra, hlit, Bool.true_and, IAST.isFunction,
    FormatStateStacked.nested]
  cases (!right.asFunction.isSome && !right.isTupleOrArrayLiteral && !right.isSubquery) <;>
    simp [Formatted.seq_cons, Formatted.seq_nil, Formatted.nothing_andThen,
      Formatted.andThen_nothing, Formatted.andThen_assoc, Formatted.onlyIf_true,
      Formatted.onlyIf_false]

end ASTFunction

namespace ASTFunction

theorem in_rhs_parens_witness :
    formatImplWithoutAlias (sampleEnvironment 3) sampleIn {} {}
      = .seq [
          .onlyIf false (.text "("),
          (sampleEnvironment 3).format (.ASTIdentifier "x") {}
            (FormatStateStacked.nested {} true),
          .text " IN ",
          (if !(IAST.ASTLiteral (.uint64 1)).isFunction
              && !(IAST.ASTLiteral (.uint64 1)).isTupleOrArrayLiteral
              && !(IAST.ASTLiteral (.uint64 1)).isSubquery then
            .seq [.text "(",
              (sampleEnvironment 3).format (.ASTLiteral (.uint64 1)) {}
                (FormatStateStacked.nested {} false),
              .text ")"]
          else
            (sampleEnvironment 3).format (.ASTLiteral (.uint64 1)) {}
              (FormatStateStacked.nested {} true)),
          .onlyIf false (.text ")"),
          finishFormatWithWindow (sampleEnvironment 3) sampleIn {} {}] :=
  in_rhs_parens (sampleEnvironment 3) sampleIn _ _ {} {} " IN " (by simp [sampleIn]) rfl rfl rfl
    (by decide) rfl

theorem in_sample :
    (formatImplWithoutAlias (sampleEnvironment 3) sampleIn {} {} ()).1 = "x IN (1)" ∧
      (formatImplWithoutAlias (sampleEnvironment 3)
        { name := "notIn",
          arguments := some [.ASTIdentifier "x", .ASTLiteral (.tuple [.uint64 1, .uint64 2])] }
        {} { need_parens := true } ()).1 = "(x NOT IN (...))" ∧
      (formatImplWithoutAlias (sampleEnvironment 3)
        { name := "globalIn", arguments := some [.ASTIdentifier "x", .ASTSubquery 0] }
        {} {} ()).1 = "x GLOBAL IN (SELECT 1)" := by
  decide

end ASTFunction

namespace ASTFunction

theorem formatAsOperator_lambda {σ : Type} (env : FormatEnvironment σ) (f : ASTFunction)
    (first_argument right : IAST) (settings : FormatSettings) (frame : FormatStateStacked)
    (hname : f.name = "lambda")
    (harguments : f.arguments = some [first_argument, right])
    (hacceptable : isAcceptableArgumentsForLambdaExpression [first_argument, right] = true)
    (hparameters : f.parameters = none)
    (hnulls : f.nulls_action = .EMPTY)
    (hoperators : frame.allow_operators = true) :
    formatAsOperator env f settings frame
      = .written (.seq [
          .onlyIf (frame.need_parens || decide (frame.list_element_index > 0)) (.text "("),
          lambdaLeft env first_argument settings { frame with need_parens := true },
          .text " -> ",
          env.format right settings { frame with need_parens := true },
          .onlyIf (frame.need_parens || decide (frame.list_element_index > 0))
            (.text ")")]) := by
  have hb : formatBinary env f first_argument right settings frame binaryOperators none
      = none := by
    simp [formatBinary, binaryOperators, hname]
  have ha : formatArrayElement env f first_argument right settings frame = none := by
    simp [formatArrayElement, hname]
  have ht : formatTupleElement env f first_argument right settings frame = none := by
    simp [formatTupleElement, hname]
  have hl : formatLambda env f [first_argument, right] first_argument right settings frame
      = some (.seq [
          .onlyIf (frame.need_parens || decide (frame.list_element_index > 0)) (.text "("),
          lambdaLeft env first_argument settings { frame with need_parens := true },
          .text " -> ",
          env.format right settings { frame with need_parens := true },
          .onlyIf (frame.need_parens || decide (frame.list_element_index > 0))
            (.text ")")]) := by
    simp only [formatLambda, hname, hacceptable, decide_True, Bool.and_self, if_true,
      lambdaLeft]
    cases hfun : first_argument.asFunction with
    | none => rfl
    | some g =>
      by_cases hg : g.name = "tuple"
      · simp only [hg, if_true]
        rcases hargs : g.arguments with _ | (_ | ⟨element, _ | ⟨second, later⟩⟩) <;> rfl
      · simp only [hg, if_false]
  simp only [formatAsOperator, harguments, hparameters, hnulls, hoperators, hb, ha, ht, hl,
    Option.isNone_none, Bool.and_self, decide_True, Bool.true_and, if_true, Option.orElse]

/-- C26, as the claim states it, fails: a function `lambda` of two arguments that are
acceptable for `->` is written as `lambda(x, 1)` when the frame does not allow
operators, and as `lambda(2)(x, 1)` when it has parameters. -/
theorem lambda_written_as_function :
    isAcceptableArgumentsForLambdaExpression [.ASTIdentifier "x", .ASTLiteral (.uint64 1)]
        = true ∧
      (formatImplWithoutAlias (sampleEnvironment 3) sampleLambda {}
          { allow_operators := false } ()).1 = "lambda(x, 1)" ∧
      (formatImplWithoutAlias (sampleEnvironment 3)
          { sampleLambda with parameters := some [.ASTLiteral (.uint64 2)] } {} {} ()).1
        = "lambda(2)(x, 1)" := by
  decide

/-- C26, amended: a function named `lambda` of two arguments that are acceptable for
`->`, when it is written as an operator (no parameters, operators allowed in the frame,
empty nulls action), is written as `lhs -> rhs`.  The left side is `()` for the
function `tuple` of no argument, the argument for the function `tuple` of one
argument, and the first argument as it is otherwise.  The whole is between parentheses
exactly when `need_parens` is set or `list_element_index > 0`, and is followed by what
`finishFormatWithWindow` writes, which is nothing unless the function is a window
function. -/
theorem lambda_arrow {σ : Type} (env : FormatEnvironment σ) (f : ASTFunction)
    (first_argument right : IAST) (settings : FormatSettings) (frame : FormatStateStacked)
    (hname : f.name = "lambda")
    (harguments : f.arguments = some [first_argument, right])
    (hacceptable : isAcceptableArgumentsForLambdaExpression [first_argument, right] = true)
    (hparameters : f.parameters = none)
    (hnulls : f.nulls_action = .EMPTY)
    (hkind : f.kind ≠ .CODEC ∧ f.kind ≠ .STATISTICS ∧ f.kind ≠ .BACKUP_NAME)
    (hoperators : frame.allow_operators = true) :
    formatImplWithoutAlias env f settings frame
        = .seq [
            .onlyIf (frame.need_parens || decide (frame.list_element_index > 0)) (.text "("),
            lambdaLeft env first_argument settings (frame.nested true),
            .text " -> ",
            env.format right settings (frame.nested true),
            .onlyIf (frame.need_parens || decide (frame.list_element_index > 0)) (.text ")"),
            finishFormatWithWindow env f settings
              { frame with expression_list_prepend_whitespace := false }] ∧
      (f.is_window_function = false →
        finishFormatWithWindow env f settings
            { frame with expression_list_prepend_whitespace := false }
          = .nothing) := by
  have hframe : ({ frame with
      expression_list_prepend_whitespace := false,
      allow_operators :=
        if f.kind = .CODEC ∨ f.kind = .STATISTICS ∨ f.kind = .BACKUP_NAME then false
        else frame.allow_operators } : FormatStateStacked)
      = { frame with expression_list_prepend_whitespace := false } := by
    simp [hkind.1, hkind.2.1, hkind.2.2]
  have hq := tryGetQueryArgument_two f first_argument right harguments
  have ho := formatAsOperator_lambda env f first_argument right settings
    { frame with expression_list_prepend_whitespace := false } hname harguments hacceptable
    hparameters hnulls hoperators
  constructor
  · simp only [formatImplWithoutAlias, hframe, hq, ho]
    simp [FormatStateStacked.nested, Formatted.seq_cons, Formatted.seq_nil,
      Formatted.andThen_assoc, Formatted.andThen_nothing]
  · intro hw
    simp [finishFormatWithWindow, hnulls, hw, Formatted.seq_cons, Formatted.seq_nil,
      Formatted.andThen_nothing]

theorem lambda_arrow_witness :
    formatImplWithoutAlias (sampleEnvironment 3) sampleLambdaTuple {}
          { list_element_index := 1 }
        = .seq [
            .onlyIf (false || decide (1 > 0)) (.text "("),
            lambdaLeft (sampleEnvironment 3)
              (ASTFunction.toAST { name := "tuple", arguments := some [.ASTIdentifier "x"] }) {}
              (FormatStateStacked.nested { list_element_index := 1 } true),
            .text " -> ",
            (sampleEnvironment 3).format (.ASTLiteral (.uint64 1)) {}
              (FormatStateStacked.nested { list_element_index := 1 } true),
            .onlyIf (false || decide (1 > 0)) (.text ")"),
            finishFormatWithWindow (sampleEnvironment 3) sampleLambdaTuple {}
              { list_element_index := 1 }] ∧
      (sampleLambdaTuple.is_window_function = false →
        finishFormatWithWindow (sampleEnvironment 3) sampleLambdaTuple {}
            { list_element_index := 1 }
          = .nothing) :=
  lambda_arrow (sampleEnvironment 3) sampleLambdaTuple _ _ {} { list_element_index := 1 }
    rfl rfl (by decide) rfl rfl (by decide) rfl

theorem lambda_sample :
    (formatImplWithoutAlias (sampleEnvironment 3) sampleLambdaTuple {}
        { list_element_index := 1 } ()).1 = "(x -> 1)" ∧
      (formatImplWithoutAlias (sampleEnvironment 3) sampleLambda {} {} ()).1 = "x -> 1" ∧
      (formatImplWithoutAlias (sampleEnvironment 3)
        { name := "lambda",
          arguments := some [ASTFunction.toAST { name := "tuple", arguments := some [] },
            .ASTLiteral (.uint64 1)] } {} {} ()).1 = "() -> 1" := by
  decide

end ASTFunction

/-! ## `toLiteral` and the column name -/

theorem literalValue_iff (arg : IAST) (value : Field) :
    literalValue arg = some value ↔
      (arg = .ASTLiteral value ∨ ∃ g, arg.asFunction = some g ∧ g.toLiteral = some value) := by
  cases arg <;> simp [literalValue, IAST.asLiteral, IAST.asFunction, eq_comm]

theorem createLiteral_iff (arguments : List IAST) :
    ∀ (container result : List Field),
      createLiteral arguments container = some result ↔
        ∃ values, List.Forall₂ (fun arg value => literalValue arg = some value) arguments values
          ∧ result = container ++ values := by
  induction arguments with
  | nil =>
    intro container result
    simp [createLiteral, eq_comm]
  | cons arg later ih =>
    intro container result
    cases arg with
    | ASTLiteral value =>
      rw [createLiteral, ih]
      constructor
      · rintro ⟨values, h1, h2⟩
        exact ⟨value :: values, List.Forall₂.cons rfl h1, by simp [h2]⟩
      · rintro ⟨values, h1, h2⟩
        cases h1 with
        | cons hv ht =>
          simp only [literalValue, IAST.asLiteral, Option.some.injEq] at hv
          subst hv
          exact ⟨_, ht, by simp [h2]⟩
    | ASTFunction name arguments parameters window_definition alias_ kind nulls_action
        is_window_function window_name no_empty_args =>
      rw [createLiteral]
      have hl : literalValue (.ASTFunction name arguments parameters window_definition alias_
          kind nulls_action is_window_function window_name no_empty_args)
          = IAST.toLiteral (.ASTFunction name arguments parameters window_definition alias_
              kind nulls_action is_window_function window_name no_empty_args) := rfl
      cases hv : IAST.toLiteral (.ASTFunction name arguments parameters window_definition alias_
          kind nulls_action is_window_function window_name no_empty_args) with
      | none =>
        constructor
        · intro h
          cases h
        · rintro ⟨values, h1, _⟩
          cases h1 with
          | cons hv2 ht =>
            rw [hl, hv] at hv2
            cases hv2
      | some func_literal =>
        simp only
        rw [ih]
        constructor
        · rintro ⟨values, h1, h2⟩
          exact ⟨func_literal :: values, List.Forall₂.cons (by rw [hl, hv]) h1, by simp [h2]⟩
        · rintro ⟨values, h1, h2⟩
          cases h1 with
          | cons hv2 ht =>
            rw [hl, hv] at hv2
            cases hv2
            exact ⟨_, ht, by simp [h2]⟩
    | _ =>
      simp only [createLiteral]
      constructor
      · intro h
        cases h
      · rintro ⟨values, h1, _⟩
        cases h1 with
        | cons hv2 ht => simp [literalValue, IAST.asLiteral, IAST.asFunction] at hv2

namespace ASTFunction

theorem toLiteral_iff (f : ASTFunction) (literal : Field) :
    f.toLiteral = some literal ↔
      ∃ arguments values,
        f.arguments = some arguments ∧
        List.Forall₂ (fun arg value => literalValue arg = some value) arguments values ∧
        ((f.name = "array" ∧ literal = .array values) ∨
          (f.name = "tuple" ∧ literal = .tuple values)) := by
  obtain ⟨name, arguments, parameters, window_definition, alias_, kind, nulls_action,
    is_window_function, window_name, no_empty_args⟩ := f
  cases arguments with
  | none => simp [toLiteral, toAST, IAST.toLiteral]
  | some arguments =>
    have key : ∀ (wrap : List Field → Field),
        (createLiteral arguments []).map wrap = some literal ↔
          ∃ values,
            List.Forall₂ (fun arg value => literalValue arg = some value) arguments values ∧
            literal = wrap values := by
      intro wrap
      rw [Option.map_eq_some']
      constructor
      · rintro ⟨result, hr, rfl⟩
        obtain ⟨values, hv, hr2⟩ := (createLiteral_iff arguments [] result).mp hr
        exact ⟨values, hv, by rw [hr2]; rfl⟩
      · rintro ⟨values, hv, rfl⟩
        exact ⟨values, (createLiteral_iff arguments [] values).mpr ⟨values, hv, rfl⟩, rfl⟩
    simp only [toLiteral, toAST, IAST.toLiteral]
    by_cases h1 : name = "array"
    · subst h1
      rw [if_pos rfl, key]
      constructor
      · rintro ⟨values, hv, rfl⟩
        exact ⟨arguments, values, rfl, hv, Or.inl ⟨rfl, rfl⟩⟩
      · rintro ⟨a, values, ha, hv, h⟩
        cases ha
        rcases h with ⟨_, rfl⟩ | ⟨h, _⟩
        · exact ⟨values, hv, rfl⟩
        · exact absurd h (by decide)
    · by_cases h2 : name = "tuple"
      · subst h2
        rw [if_neg h1, if_pos rfl, key]
        constructor
        · rintro ⟨values, hv, rfl⟩
          exact ⟨arguments, values, rfl, hv, Or.inr ⟨rfl, rfl⟩⟩
        · rintro ⟨a, values, ha, hv, h⟩
          cases ha
          rcases h with ⟨h, _⟩ | ⟨_, rfl⟩
          · exact absurd h (by decide)
          · exact ⟨values, hv, rfl⟩
      · rw [if_neg h1, if_neg h2]
        constructor
        · intro h
          cases h
        · rintro ⟨a, values, _, _, h⟩
          rcases h with ⟨h, _⟩ | ⟨h, _⟩
          · exact absurd h h1
          · exact absurd h h2

/-- C27: `toLiteral` returns a literal if and only if the function has an argument
list, is named exactly `array` or `tuple`, and every argument is a literal or a function
for which `toLiteral` returns a literal.  The literal is then the `Array`, or the
`Tuple`, of the values of the arguments in their order, the empty one for an empty list.
For such a function `appendColumnNameImpl` writes exactly what `appendColumnName` of
that literal writes. -/
theorem toLiteral_cases (f : ASTFunction) (literal : Field)
    (appendColumnName : IAST → Except Exception String) (formatWindow : IAST → String) :
    (f.toLiteral = some literal ↔
      ∃ arguments values,
        f.arguments = some arguments ∧
        List.Forall₂
          (fun arg value =>
            arg = .ASTLiteral value ∨ ∃ g, arg.asFunction = some g ∧ g.toLiteral = some value)
          arguments values ∧
        ((f.name = "array" ∧ literal = .array values) ∨
          (f.name = "tuple" ∧ literal = .tuple values))) ∧
    (f.toLiteral = some literal →
      f.appendColumnNameImpl appendColumnName formatWindow
        = appendColumnName (.ASTLiteral literal)) := by
  have hiff := toLiteral_iff f literal
  have hfun : (fun (arg : IAST) (value : Field) => literalValue arg = some value)
      = (fun arg value =>
          arg = .ASTLiteral value ∨ ∃ g, arg.asFunction = some g ∧ g.toLiteral = some value) := by
    funext arg value
    exact propext (literalValue_iff arg value)
  rw [hfun] at hiff
  refine ⟨hiff, ?_⟩
  intro h
  obtain ⟨arguments, values, _, _, hname⟩ := hiff.mp h
  have hn : ¬ (f.name = "view" ∨ f.name = "viewIfPermitted" ∨ f.name = "mysql"
      ∨ f.name = "postgresql" ∨ f.name = "mongodb" ∨ f.name = "s3") := by
    rcases hname with ⟨hn, _⟩ | ⟨hn, _⟩ <;> simp [hn]
  simp only [appendColumnNameImpl, hn, if_false, h]

theorem toLiteral_cases_witness :
    (sampleArray.toLiteral = some (.array [.uint64 1, .tuple [.string "a"]]) ↔
      ∃ arguments values,
        sampleArray.arguments = some arguments ∧
        List.Forall₂
          (fun arg value =>
            arg = .ASTLiteral value ∨ ∃ g, arg.asFunction = some g ∧ g.toLiteral = some value)
          arguments values ∧
        ((sampleArray.name = "array" ∧
            Field.array [.uint64 1, .tuple [.string "a"]] = .array values) ∨
          (sampleArray.name = "tuple" ∧
            Field.array [.uint64 1, .tuple [.string "a"]] = .tuple values))) ∧
    (sampleArray.toLiteral = some (.array [.uint64 1, .tuple [.string "a"]]) →
      sampleArray.appendColumnNameImpl sampleColumnName (fun _ => "")
        = sampleColumnName (.ASTLiteral (.array [.uint64 1, .tuple [.string "a"]]))) :=
  toLiteral_cases sampleArray (.array [.uint64 1, .tuple [.string "a"]]) sampleColumnName
    (fun _ => "")

theorem toLiteral_sample :
    sampleArray.toLiteral = some (.array [.uint64 1, .tuple [.string "a"]]) ∧
      sampleArray.appendColumnNameImpl sampleColumnName (fun _ => "") = .ok "[...]" ∧
      toLiteral { name := "array", arguments := some [] } = some (.array []) ∧
      toLiteral { name := "Array", arguments := some [] } = none ∧
      toLiteral { name := "tuple", arguments := some [.ASTIdentifier "x"] } = none ∧
      toLiteral { name := "tuple", arguments := none } = none := by
  refine ⟨rfl, rfl, rfl, rfl, rfl, rfl⟩

end ASTFunction

/-! ## The worker routine and the calls of the caller -/

namespace PushingAsyncPipelineExecutor

theorem left_data {fin : ExecuteEnd} {b : PushingAsyncPipelineExecutor} {d d1 : Data}
    (h : LeftExecute fin b) (hd : b.data = some d)
    (ht : d1.thread ≠ .running .executing)
    (hf : d1.has_exception = true → d.has_exception = true)
    (he : d1.exception = d.exception) :
    LeftExecute fin { b with data := some d1 } := by
  obtain ⟨hs, d0, hd0, _, h1, h2⟩ := h
  rw [hd] at hd0
  cases hd0
  exact ⟨hs, d1, rfl, ht, fun hx => h1 (hf hx), fun e hfin => he.trans (h2 e hfin)⟩

theorem left_step {fin : ExecuteEnd} {b : PushingAsyncPipelineExecutor} (ev : WorkerEvent)
    (h : LeftExecute fin b) : LeftExecute fin (b.threadFunctionStep ev) := by
  obtain ⟨hs, d, hd, ht, h1, h2⟩ := h
  obtain ⟨src, started, finished, data⟩ := b
  simp only at hs hd
  subst hd
  obtain ⟨ex, exc, so, isf, hasx, th, fe⟩ := d
  simp only at ht h1 h2
  cases th with
  | empty => exact ⟨hs, _, rfl, ht, h1, h2⟩
  | running pc =>
    cases pc with
    | executing => exact absurd rfl ht
    | finishing =>
      cases ev <;>
        first
        | exact ⟨hs, _, rfl, ht, h1, h2⟩
        | exact ⟨hs, _, rfl, by simp, h1, h2⟩
    | completing =>
      cases ev <;>
        first
        | exact ⟨hs, _, rfl, ht, h1, h2⟩
        | exact ⟨hs, _, rfl, by simp, h1, h2⟩
    | exited =>
      cases ev <;> exact ⟨hs, _, rfl, ht, h1, h2⟩

theorem left_runWorker {fin : ExecuteEnd} (w : Window) :
    ∀ {b : PushingAsyncPipelineExecutor}, LeftExecute fin b → LeftExecute fin (b.runWorker w) := by
  induction w with
  | nil => intro b h; exact h
  | cons ev w ih =>
    intro b h
    rw [runWorker_cons]
    exact ih (left_step ev h)

theorem left_source {fin : ExecuteEnd} {b : PushingAsyncPipelineExecutor}
    (src : PushingAsyncSource) (h : LeftExecute fin b) :
    LeftExecute fin { b with pushing_source := src } := h

theorem left_rethrow {fin : ExecuteEnd} {b : PushingAsyncPipelineExecutor} {d : Data}
    (h : LeftExecute fin b) (hd : b.data = some d) :
    LeftExecute fin { b with data := some d.rethrowExceptionIfHas.2 } := by
  refine left_data h hd ?_ ?_ ?_
  · rw [rethrow_thread]
    obtain ⟨_, d0, hd0, ht, _, _⟩ := h
    rw [hd] at hd0
    cases hd0
    exact ht
  · intro hx
    rw [rethrow_flag] at hx
    cases hx
  · unfold Data.rethrowExceptionIfHas
    split
    · split <;> rfl
    · rfl

theorem left_requestCancel {fin : ExecuteEnd} {b : PushingAsyncPipelineExecutor}
    (h : LeftExecute fin b) : LeftExecute fin b.requestCancel := by
  unfold requestCancel
  cases hd : b.data with
  | none => exact h
  | some d =>
    simp only
    split
    · cases hex : d.executor with
      | none => exact h
      | some ex =>
        simp only
        refine left_data h hd ?_ (fun hx => hx) rfl
        obtain ⟨_, d0, hd0, ht, _, _⟩ := h
        rw [hd] at hd0
        cases hd0
        exact ht
    · exact h

theorem sound_init : Sound init := by
  refine ⟨fun _ => rfl, ?_, ?_, ?_, ?_⟩
  · intro h; cases h
  · intro d hd; cases hd
  · intro d hd; cases hd
  · intro d hd; cases hd

theorem sound_started_of_data {b : PushingAsyncPipelineExecutor} {d : Data} (h : Sound b)
    (hd : b.data = some d) : b.started = true ∧ d.source = true := by
  cases hs : b.started with
  | false =>
    have := h.unstarted hs
    rw [hd] at this
    cases this
  | true =>
    obtain ⟨d0, hd0, hso⟩ := h.started hs
    rw [hd] at hd0
    cases hd0
    exact ⟨rfl, hso⟩

theorem sound_step {b : PushingAsyncPipelineExecutor} (ev : WorkerEvent) (h : Sound b) :
    Sound (b.threadFunctionStep ev) := by
  obtain ⟨src, started, finished, data⟩ := b
  cases data with
  | none => exact h
  | some d =>
    have hsd := sound_started_of_data h rfl
    have h3 := h.captured d rfl
    have h4 := h.source_finished d rfl
    have h5 := h.is_finished d rfl
    obtain ⟨ex, exc, so, isf, hasx, th, fe⟩ := d
    simp only at hsd h3 h4 h5
    obtain ⟨hst, hso⟩ := hsd
    subst hst hso
    cases th with
    | empty => exact h
    | running pc =>
      cases pc with
      | executing =>
        cases ev with
        | pull =>
          simp only [threadFunctionStep]
          cases hg : src.generate with
          | none => exact h
          | some r =>
            refine ⟨(fun hx => by cases hx), (fun _ => ⟨_, rfl, rfl⟩), ?_, ?_, ?_⟩
            · intro d hd; cases hd; exact h3
            · intro d hd ht; cases hd; simp at ht
            · intro d hd ht; cases hd; simp at ht
        | status st =>
          refine ⟨(fun hx => by cases hx), (fun _ => ⟨_, rfl, rfl⟩), ?_, ?_, ?_⟩
          · intro d hd; cases hd; exact h3
          · intro d hd ht; cases hd; simp at ht
          · intro d hd ht; cases hd; simp at ht
        | returns =>
          refine ⟨(fun hx => by cases hx), (fun _ => ⟨_, rfl, rfl⟩), ?_, ?_, ?_⟩
          · intro d hd hx; cases hd; simp
          · intro d hd ht; cases hd; simp at ht
          · intro d hd ht; cases hd; simp at ht
        | throws e =>
          refine ⟨(fun hx => by cases hx), (fun _ => ⟨_, rfl, rfl⟩), ?_, ?_, ?_⟩
          · intro d hd hx; cases hd; simp
          · intro d hd ht; cases hd; simp at ht
          · intro d hd ht; cases hd; simp at ht
        | advance => exact h
      | finishing =>
        cases ev with
        | advance =>
          refine ⟨(fun hx => by cases hx), (fun _ => ⟨_, rfl, rfl⟩), ?_, ?_, ?_⟩
          · intro d hd hx; cases hd; simp
          · intro d hd ht; cases hd; rfl
          · intro d hd ht; cases hd; simp at ht
        | _ => exact h
      | completing =>
        cases ev with
        | advance =>
          refine ⟨(fun hx => by cases hx), (fun _ => ⟨_, rfl, rfl⟩), ?_, ?_, ?_⟩
          · intro d hd hx; cases hd; simp
          · intro d hd ht; cases hd; exact h4 (Or.inl rfl)
          · intro d hd ht; cases hd; exact ⟨rfl, rfl⟩
        | _ => exact h
      | exited =>
        cases ev <;> exact h

theorem sound_data {b : PushingAsyncPipelineExecutor} {d d1 : Data} (h : Sound b)
    (hd : b.data = some d) (hso : d1.source = d.source)
    (hf : d1.has_exception = true → d.has_exception = true)
    (hth : d1.thread = d.thread ∨ (d.thread = .running .exited ∧ d1.thread = .empty))
    (hfin : d1.is_finished = d.is_finished) (hev : d1.finish_event = d.finish_event) :
    Sound { b with data := some d1 } := by
  have hsd := sound_started_of_data h hd
  have h3 := h.captured d hd
  have h4 := h.source_finished d hd
  have h5 := h.is_finished d hd
  refine ⟨?_, ?_, ?_, ?_, ?_⟩
  · intro hs
    rw [hsd.1] at hs
    cases hs
  · intro _
    exact ⟨d1, rfl, hso.trans hsd.2⟩
  · intro d2 hd2 hx
    cases hd2
    rcases hth with ht | ⟨_, ht⟩
    · rw [ht]; exact h3 (hf hx)
    · rw [ht]; simp
  · intro d2 hd2 ht2
    cases hd2
    rcases hth with ht | ⟨ht0, ht⟩
    · rw [ht] at ht2; exact h4 ht2
    · exact h4 (Or.inr (Or.inl ht0))
  · intro d2 hd2 ht2
    cases hd2
    rw [hfin, hev]
    rcases hth with ht | ⟨ht0, ht⟩
    · rw [ht] at ht2; exact h5 ht2
    · exact h5 (Or.inl ht0)

theorem sound_source {b : PushingAsyncPipelineExecutor} (src : PushingAsyncSource)
    (h : Sound b)
    (hsrc : b.pushing_source.is_finished = true → src.is_finished = true) :
    Sound { b with pushing_source := src } :=
  ⟨h.unstarted, h.started, h.captured,
    fun d hd ht => hsrc (h.source_finished d hd ht), h.is_finished⟩

theorem sound_start {b : PushingAsyncPipelineExecutor} (h : Sound b) : Sound b.start := by
  unfold start
  split
  · exact h
  · refine ⟨(fun hx => by cases hx), (fun _ => ⟨_, rfl, rfl⟩), ?_, ?_, ?_⟩
    · intro d hd hx; cases hd; cases hx
    · intro d hd ht; cases hd; simp at ht
    · intro d hd ht; cases hd; simp at ht

theorem sound_requestCancel {b : PushingAsyncPipelineExecutor} (h : Sound b) :
    Sound b.requestCancel := by
  unfold requestCancel
  cases hd : b.data with
  | none => exact h
  | some d =>
    simp only
    split
    · cases hex : d.executor with
      | none => exact h
      | some ex =>
        simp only
        exact sound_data h hd rfl (fun hx => hx) (Or.inl rfl) rfl rfl
    · exact h

theorem rethrow_fields (d : Data) :
    d.rethrowExceptionIfHas.2.source = d.source ∧
      d.rethrowExceptionIfHas.2.exception = d.exception ∧
      d.rethrowExceptionIfHas.2.finish_event = d.finish_event := by
  unfold Data.rethrowExceptionIfHas
  split
  · split <;> exact ⟨rfl, rfl, rfl⟩
  · exact ⟨rfl, rfl, rfl⟩

theorem sound_atom {b b1 : PushingAsyncPipelineExecutor} {a : Atom} (h : Sound b)
    (ha : b.atom a = some b1) : Sound b1 := by
  cases a with
  | worker ev =>
    simp only [atom, Option.some.injEq] at ha
    subst ha
    exact sound_step ev h
  | start =>
    simp only [atom, Option.some.injEq] at ha
    subst ha
    exact sound_start h
  | setData chunk =>
    simp only [atom, Option.map_eq_some'] at ha
    obtain ⟨r, hr, rfl⟩ := ha
    refine sound_source r.2 h ?_
    intro hf
    rw [setData_of_finished chunk hf] at hr
    cases hr
    exact hf
  | exchange =>
    simp only [atom, Option.map_eq_some'] at ha
    obtain ⟨d, hd, rfl⟩ := ha
    refine sound_data h hd (rethrow_fields d).1 ?_ (Or.inl (rethrow_thread d))
      (rethrow_is_finished d) (rethrow_fields d).2.2
    intro hx
    rw [rethrow_flag] at hx
    cases hx
  | setFinished =>
    simp only [atom, Option.some.injEq] at ha
    subst ha
    exact ⟨h.unstarted, h.started, h.captured, h.source_finished, h.is_finished⟩
  | sourceFinish =>
    simp only [atom, Option.some.injEq] at ha
    subst ha
    exact sound_source _ h (fun _ => rfl)
  | join =>
    simp only [atom] at ha
    cases hd : b.data with
    | none => rw [hd] at ha; cases ha
    | some d =>
      rw [hd] at ha
      simp only at ha
      split at ha
      · rename_i ht
        cases ha
        exact sound_data h hd rfl (fun hx => hx) (Or.inr ⟨ht, rfl⟩) rfl rfl
      · cases ha
  | requestCancel =>
    simp only [atom, Option.some.injEq] at ha
    subst ha
    exact sound_requestCancel h

theorem sound_atoms {as : List Atom} :
    ∀ {b b1 : PushingAsyncPipelineExecutor}, Sound b → b.atoms as = some b1 → Sound b1 := by
  induction as with
  | nil =>
    intro b b1 h hs
    simp only [atoms, Option.some.injEq] at hs
    subst hs
    exact h
  | cons a as ih =>
    intro b b1 h hs
    simp only [atoms, Option.bind_eq_some] at hs
    obtain ⟨b2, h2, h3⟩ := hs
    exact ih (sound_atom h h2) h3

theorem left_atom {fin : ExecuteEnd} {b b1 : PushingAsyncPipelineExecutor} {a : Atom}
    (h : LeftExecute fin b) (ha : b.atom a = some b1) : LeftExecute fin b1 := by
  cases a with
  | worker ev =>
    simp only [atom, Option.some.injEq] at ha
    subst ha
    exact left_step ev h
  | start =>
    simp only [atom, Option.some.injEq] at ha
    subst ha
    have hs : b.start = b := by simp [start, h.1]
    rw [hs]
    exact h
  | setData chunk =>
    simp only [atom, Option.map_eq_some'] at ha
    obtain ⟨r, _, rfl⟩ := ha
    exact left_source r.2 h
  | exchange =>
    simp only [atom, Option.map_eq_some'] at ha
    obtain ⟨d, hd, rfl⟩ := ha
    exact left_rethrow h hd
  | setFinished =>
    simp only [atom, Option.some.injEq] at ha
    subst ha
    exact h
  | sourceFinish =>
    simp only [atom, Option.some.injEq] at ha
    subst ha
    exact left_source _ h
  | join =>
    simp only [atom] at ha
    cases hd : b.data with
    | none => rw [hd] at ha; cases ha
    | some d =>
      rw [hd] at ha
      simp only at ha
      split at ha
      · cases ha
        exact left_data h hd (by simp) (fun hx => hx) rfl
      · cases ha
  | requestCancel =>
    simp only [atom, Option.some.injEq] at ha
    subst ha
    exact left_requestCancel h

theorem left_atoms {fin : ExecuteEnd} {as : List Atom} :
    ∀ {b b1 : PushingAsyncPipelineExecutor}, LeftExecute fin b → b.atoms as = some b1 →
      LeftExecute fin b1 := by
  induction as with
  | nil =>
    intro b b1 h hs
    simp only [atoms, Option.some.injEq] at hs
    subst hs
    exact h
  | cons a as ih =>
    intro b b1 h hs
    simp only [atoms, Option.bind_eq_some] at hs
    obtain ⟨b2, h2, h3⟩ := hs
    exact ih (left_atom h h2) h3

theorem atoms_append (as1 as2 : List Atom) :
    ∀ b : PushingAsyncPipelineExecutor,
      b.atoms (as1 ++ as2) = (b.atoms as1).bind fun b1 => b1.atoms as2 := by
  induction as1 with
  | nil => intro b; rfl
  | cons a as1 ih =>
    intro b
    simp only [List.cons_append, atoms]
    cases b.atom a with
    | none => rfl
    | some b1 => exact ih b1

theorem linked_refl (b : PushingAsyncPipelineExecutor) : Linked b b := ⟨[], rfl⟩

theorem linked_trans {b x y : PushingAsyncPipelineExecutor} (h1 : Linked b x)
    (h2 : Linked x y) : Linked b y := by
  obtain ⟨as1, h1⟩ := h1
  obtain ⟨as2, h2⟩ := h2
  exact ⟨as1 ++ as2, by rw [atoms_append, h1]; exact h2⟩

theorem linked_atom {b x : PushingAsyncPipelineExecutor} (a : Atom) (h : b.atom a = some x) :
    Linked b x :=
  ⟨[a], by simp [atoms, h]⟩

theorem linked_worker (w : Window) :
    ∀ b : PushingAsyncPipelineExecutor, Linked b (b.runWorker w) := by
  induction w with
  | nil => intro b; exact linked_refl b
  | cons ev w ih =>
    intro b
    rw [runWorker_cons]
    exact linked_trans (linked_atom (.worker ev) rfl) (ih _)

theorem linked_pushEnter (b : PushingAsyncPipelineExecutor) (w : Window) :
    Linked b (b.pushEnter w) := by
  have hs : (if !b.started then b.start else b) = b.start := by
    cases h : b.started <;> simp [start, h]
  unfold pushEnter
  rw [hs]
  exact linked_trans (linked_atom .start rfl) (linked_worker w _)

theorem linked_pushCheck (is_pushed : Bool) (b : PushingAsyncPipelineExecutor) (w : Window) :
    Linked b (pushCheck is_pushed b w).2 := by
  unfold pushCheck
  cases hd : b.data with
  | none => exact linked_refl b
  | some d =>
    simp only
    have hx : Linked b { b with data := some d.rethrowExceptionIfHas.2 } :=
      linked_atom .exchange (by simp [atom, hd])
    rcases hre : d.rethrowExceptionIfHas with ⟨o, d1⟩
    rw [hre] at hx
    cases o with
    | returned =>
      cases is_pushed with
      | true => exact hx
      | false =>
        simp only [Bool.not_false, if_true]
        have h3 := linked_trans hx (linked_worker w _)
        split <;> exact h3
    | raised e => exact hx
    | blocked => exact hx
    | undefined => exact hx

theorem linked_push (b : PushingAsyncPipelineExecutor) (chunk : Chunk) (sched : Schedule) :
    Linked b (b.push chunk sched).2 := by
  have h1 := linked_pushEnter b (sched.getD 0 [])
  unfold push
  simp only
  cases hs : (b.pushEnter (sched.getD 0 [])).pushing_source.setData chunk with
  | none => exact h1
  | some r =>
    obtain ⟨is_pushed, src⟩ := r
    have h2 : Linked (b.pushEnter (sched.getD 0 []))
        { b.pushEnter (sched.getD 0 []) with pushing_source := src } :=
      linked_atom (.setData chunk) (by simp only [atom, hs, Option.map_some'])
    exact linked_trans h1 (linked_trans h2
      (linked_trans (linked_worker _ _) (linked_pushCheck is_pushed _ _)))

theorem linked_finish (b : PushingAsyncPipelineExecutor) (sched : Schedule) :
    Linked b (b.finish sched).2 := by
  have h1 : Linked b (b.finishEnter sched) := by
    unfold finishEnter
    simp only
    exact linked_trans (linked_atom .setFinished rfl)
      (linked_trans (linked_worker _ _)
        (linked_trans (linked_atom .sourceFinish rfl) (linked_worker _ _)))
  unfold finish
  split
  · exact linked_refl b
  · simp only
    cases hd : (b.finishEnter sched).data with
    | none => exact h1
    | some d =>
      simp only
      cases hth : d.thread with
      | empty =>
        simp only
        exact linked_trans h1 (linked_atom .exchange (by simp [atom, hd]))
      | running pc =>
        cases pc with
        | exited =>
          simp only
          have h2 : Linked (b.finishEnter sched)
              { b.finishEnter sched with data := some { d with thread := .empty } } :=
            linked_atom .join (by simp [atom, hd, hth])
          have h3 : Linked
              { b.finishEnter sched with data := some { d with thread := .empty } }
              { b.finishEnter sched with
                data := some (Data.rethrowExceptionIfHas { d with thread := .empty }).2 } :=
            linked_atom .exchange (by simp [atom])
          exact linked_trans h1 (linked_trans h2 h3)
        | executing => exact h1
        | finishing => exact h1
        | completing => exact h1

theorem linked_cancel (b : PushingAsyncPipelineExecutor) (sched : Schedule) :
    Linked b (b.cancel sched).2 :=
  linked_trans (linked_worker _ b)
    (linked_trans (linked_atom .requestCancel rfl) (linked_finish _ _))

theorem linked_call (b : PushingAsyncPipelineExecutor) (c : Call) (sched : Schedule) :
    Linked b (b.call c sched).2 := by
  cases c with
  | start => exact linked_atom .start rfl
  | push chunk => exact linked_push b chunk sched
  | finish => exact linked_finish b sched
  | cancel => exact linked_cancel b sched

theorem linked_session {as : List Action} :
    ∀ {b x : PushingAsyncPipelineExecutor}, b.session as = some x → Linked b x := by
  induction as with
  | nil =>
    intro b x hs
    simp only [session, Option.some.injEq] at hs
    subst hs
    exact linked_refl b
  | cons a as ih =>
    intro b x hs
    simp only [session, Option.bind_eq_some] at hs
    obtain ⟨b2, h2, h3⟩ := hs
    refine linked_trans ?_ (ih h3)
    cases a with
    | call c sched =>
      simp only [act] at h2
      split at h2
      · cases h2
        exact linked_call b c sched
      · cases h2
    | worker w =>
      simp only [act, Option.some.injEq] at h2
      subst h2
      exact linked_worker w b

theorem atomic_of_reachable {b : PushingAsyncPipelineExecutor} (h : Reachable b) :
    AtomicReachable b := by
  obtain ⟨as, hs⟩ := h
  exact linked_session hs

theorem sound_of_atomic {b : PushingAsyncPipelineExecutor} (h : AtomicReachable b) :
    Sound b := by
  obtain ⟨as, hs⟩ := h
  exact sound_atoms sound_init hs

theorem left_exits {fin : ExecuteEnd} {x : PushingAsyncPipelineExecutor}
    (h : LeftExecute fin x) :
    ∃ dy, (x.runWorker [.advance, .advance]).data = some dy ∧
      (dy.thread = .running .exited ∨ dy.thread = .empty) := by
  obtain ⟨_, d, hd, ht, _, _⟩ := h
  obtain ⟨src, started, finished, data⟩ := x
  simp only at hd
  subst hd
  obtain ⟨ex, exc, so, isf, hasx, th, fe⟩ := d
  simp only at ht
  cases th with
  | empty => exact ⟨_, rfl, Or.inr rfl⟩
  | running pc =>
    cases pc with
    | executing => exact absurd rfl ht
    | finishing => exact ⟨_, rfl, Or.inl rfl⟩
    | completing => exact ⟨_, rfl, Or.inl rfl⟩
    | exited => exact ⟨_, rfl, Or.inl rfl⟩

theorem left_of_end {b : PushingAsyncPipelineExecutor} {d : Data}
    (during : List EngineStep) (fin : ExecuteEnd)
    (hw : Sound b) (hd : b.data = some d) (ht : d.thread = .running .executing) :
    LeftExecute fin (b.runWorker (during.map EngineStep.event ++ [fin.event])) := by
  have hst : b.started = true := (sound_started_of_data hw hd).1
  have hfl : d.has_exception = false := by
    cases h : d.has_exception with
    | false => rfl
    | true => exact absurd ht (hw.captured d hd h)
  obtain ⟨d1, h1, h2, _, h4, _, _⟩ := during_executing during hd ht
  rw [runWorker_append]
  have hs1 : (b.runWorker (during.map EngineStep.event)).started = true := by
    rw [runWorker_started]; exact hst
  generalize b.runWorker (during.map EngineStep.event) = x at h1 hs1
  obtain ⟨src, started, finished, data⟩ := x
  simp only at h1 hs1
  subst h1
  obtain ⟨ex, exc, so, isf, hasx, th, fe⟩ := d1
  simp only at h2 h4
  subst h2
  have hx : hasx = false := h4.trans hfl
  subst hx
  cases fin with
  | returns =>
    refine ⟨hs1, _, rfl, by simp, ?_, ?_⟩
    · intro hx; cases hx
    · intro e he; cases he
  | throws e =>
    refine ⟨hs1, _, rfl, by simp, ?_, ?_⟩
    · intro _; exact ⟨e, rfl⟩
    · intro e1 he; cases he; rfl

/-- C13, as the claim states it, fails: the engine throws, the worker catches the
failure and sets `has_exception`; before the worker goes on, a `push` of the caller
exchanges the flag and raises the failure; the worker then runs the rest of
`threadFunction`.  When the routine returns, `execute` has raised and the error is
stored, but `has_exception` is clear. -/
theorem threadFunction_flag_exchanged :
    Reachable afterExchange ∧
      ((init.start.runWorker [.throws Exception.sample]).push Chunk.one []).1
        = .raised Exception.sample ∧
      ∃ d, afterExchange.data = some d ∧ d.thread = .running .exited ∧
        d.is_finished = true ∧ afterExchange.pushing_source.is_finished = true ∧
        d.exception = some Exception.sample ∧ d.has_exception = false :=
  ⟨⟨[.call .start [], .worker [.throws Exception.sample], .call (.push Chunk.one) [],
      .worker [.advance, .advance]], rfl⟩,
    rfl, _, rfl, rfl, rfl, rfl, rfl, rfl⟩

/-- C13, amended: let the worker stand inside `execute`, in any state that the two
threads reach, also in the middle of a call of the caller.  For every sequence of
engine steps and every end of `execute` (return or throw): with no step of the caller
in between, `threadFunction` runs to its return, the source's finished flag,
`is_finished` and `finish_event` are then set, `has_exception` is set exactly when
`execute` threw, and the thrown exception is the stored one.  With any atomic actions
of the caller between the end of `execute` and later, `has_exception` is set only if
`execute` threw, the exception that `execute` threw stays the stored one, once the
routine has returned the source's finished flag, `is_finished` and `finish_event` are
set, and the routine always runs to its return. -/
theorem threadFunction_returns (b : PushingAsyncPipelineExecutor) (d : Data)
    (during : List EngineStep) (fin : ExecuteEnd)
    (hr : AtomicReachable b) (hd : b.data = some d) (ht : d.thread = .running .executing) :
    (∃ d1, (b.threadFunction during fin).data = some d1 ∧
      d1.thread = .running .exited ∧
      (b.threadFunction during fin).pushing_source.is_finished = true ∧
      d1.is_finished = true ∧ d1.finish_event = true ∧
      (d1.has_exception = true ↔ ∃ e, fin = .throws e) ∧
      (∀ e, fin = .throws e → d1.exception = some e)) ∧
    (∀ x, Linked (b.runWorker (during.map EngineStep.event ++ [fin.event])) x →
      ∃ dx, x.data = some dx ∧
        (dx.has_exception = true → ∃ e, fin = .throws e) ∧
        (∀ e, fin = .throws e → dx.exception = some e) ∧
        (dx.thread = .running .exited ∨ dx.thread = .empty →
          x.pushing_source.is_finished = true ∧ dx.is_finished = true ∧
            dx.finish_event = true) ∧
        ∃ dy, (x.runWorker [.advance, .advance]).data = some dy ∧
          (dy.thread = .running .exited ∨ dy.thread = .empty)) := by
  have hw := sound_of_atomic hr
  have hso : d.source = true := (sound_started_of_data hw hd).2
  have hfl : d.has_exception = false := by
    cases h : d.has_exception with
    | false => rfl
    | true => exact absurd ht (hw.captured d hd h)
  constructor
  · obtain ⟨d1, h1, h2, h3, h4, _, _⟩ := during_executing during hd ht
    unfold threadFunction workerRun
    rw [runWorker_append]
    exact tail_executing fin h1 h2 (h3.trans hso) (h4.trans hfl)
  · intro x hx
    have hl := left_of_end during fin hw hd ht
    obtain ⟨as, has⟩ := hx
    have hlx := left_atoms hl has
    obtain ⟨ws, hws⟩ := linked_worker (during.map EngineStep.event ++ [fin.event]) b
    have hsx : Sound x := sound_atoms (sound_atoms hw hws) has
    obtain ⟨_, dx, hdx, _, h1, h2⟩ := hlx
    exact ⟨dx, hdx, h1, h2,
      fun hth => ⟨hsx.source_finished dx hdx (Or.inr hth), hsx.is_finished dx hdx hth⟩,
      left_exits (left_atoms hl has)⟩

/-- C13 on sample bridges: an engine that pulls the batch and then throws, for the run
without a step of the caller, and the state `afterExchange`, where a `push` has
exchanged the flag before the worker returned. -/
theorem threadFunction_returns_witness :
    AtomicReachable afterPush ∧
    (∃ d1, (afterPush.threadFunction [.pull] (.throws Exception.sample)).data = some d1 ∧
      d1.thread = .running .exited ∧
      (afterPush.threadFunction [.pull] (.throws Exception.sample)).pushing_source.is_finished
        = true ∧
      d1.is_finished = true ∧ d1.finish_event = true ∧
      (d1.has_exception = true ↔ ∃ e, ExecuteEnd.throws Exception.sample = .throws e) ∧
      (∀ e, ExecuteEnd.throws Exception.sample = .throws e → d1.exception = some e)) ∧
    (∃ dx, afterExchange.data = some dx ∧
      (dx.has_exception = true → ∃ e, ExecuteEnd.throws Exception.sample = .throws e) ∧
      (∀ e, ExecuteEnd.throws Exception.sample = .throws e → dx.exception = some e) ∧
      (dx.thread = .running .exited ∨ dx.thread = .empty →
        afterExchange.pushing_source.is_finished = true ∧ dx.is_finished = true ∧
          dx.finish_event = true) ∧
      ∃ dy, (afterExchange.runWorker [.advance, .advance]).data = some dy ∧
        (dy.thread = .running .exited ∨ dy.thread = .empty)) :=
  ⟨atomic_of_reachable ⟨[.call (.push Chunk.one) []], rfl⟩,
    (threadFunction_returns afterPush _ [.pull] (.throws Exception.sample)
      (atomic_of_reachable ⟨[.call (.push Chunk.one) []], rfl⟩) rfl rfl).1,
    (threadFunction_returns init.start _ [] (.throws Exception.sample)
      ⟨[.start], rfl⟩ rfl rfl).2 afterExchange
      (linked_trans (linked_push _ Chunk.one []) (linked_worker [.advance, .advance] _))⟩

end PushingAsyncPipelineExecutor

end DB
